import Mathlib

/-!
# Depth-image colorizer: histogram equalisation and colour gradients

A shallow embedding of `include/colorizer.h` and `src/colorizer.cpp`
(namespace `smart_car`) together with theorems about it.

Modelling conventions.

* A value of type `float` is a `Flt`: NaN, one of the two infinities, or a
  finite number, which is a rational; zero has no sign.  The special values
  behave as in IEEE-754 (`0/0` is NaN, every comparison with NaN is false).
* There are two arithmetics.  `Flt.add`, `Flt.sub`, `Flt.mul`, `Flt.div`,
  `Flt.ofInt` and `Flt.ofNat` give the exact result of an operation, without
  rounding, and `ColorMap.new`, `ColorMap.get`, `coloring_function` and
  `process_frame` compute with them.  The namespace `binary32` gives the
  arithmetic of the code: the exact result of every single operation is
  rounded to binary32 (nearest, ties to even, 24 significant bits, subnormal
  numbers, an infinity on overflow; no fused multiply-add), and
  `binary32.new`, `binary32.ColorMap_calc`, `binary32.get`,
  `binary32.get_index` and `binary32.coloring_function` are the methods of the
  code with these operations.  What is stated about the value of a key, of an
  interpolated colour, of the quotient `normalized` or of a cache index is
  stated of the `binary32` functions; the theorems about the exact
  arithmetic state definedness, the integer histogram, ranges, orderings,
  clamping and the layout of the output.
* Undefined behaviour (an out-of-bounds access, an integer division by zero,
  reading an uninitialised member, converting a NaN or out-of-range `float`
  to an integer) is the result `none`.
* The histogram `std::vector<int>(MAX_DEPTH)` is an `Array Int`; an access
  outside it has no result.  Its counters are unbounded integers (a frame has
  fewer than `2^31` pixels).
* `reinterpret_cast<T*>` reads the samples in the byte order of the host, which
  is the parameter `Endian`.
-/

namespace smart_car

/-! ## The `float` model -/

/-- Values of the C++ type `float`: NaN, the two infinities, and the finite
values, which are rationals. -/
inductive Flt where
  | nan : Flt
  | ninf : Flt
  | pinf : Flt
  | fin (q : ℚ) : Flt
deriving DecidableEq

namespace Flt

/-- Unary minus. -/
def neg : Flt → Flt
  | nan => nan
  | ninf => pinf
  | pinf => ninf
  | fin a => fin (-a)

/-- The exact sum of two `float`s, which `binary32.add` rounds. -/
def add : Flt → Flt → Flt
  | nan, _ => nan
  | _, nan => nan
  | fin a, fin b => fin (a + b)
  | pinf, ninf => nan
  | ninf, pinf => nan
  | pinf, _ => pinf
  | _, pinf => pinf
  | ninf, _ => ninf
  | _, ninf => ninf

/-- The exact difference of two `float`s, which `binary32.sub` rounds. -/
def sub (a b : Flt) : Flt := add a (neg b)

/-- The infinity with the sign of `s * t`, for `s` nonzero. -/
def signedInf (positive : Bool) : Flt := if positive then pinf else ninf

/-- The exact product of two `float`s, which `binary32.mul` rounds. -/
def mul : Flt → Flt → Flt
  | nan, _ => nan
  | _, nan => nan
  | fin a, fin b => fin (a * b)
  | fin a, pinf => if a = 0 then nan else signedInf (decide (0 < a))
  | fin a, ninf => if a = 0 then nan else signedInf (decide (a < 0))
  | pinf, fin b => if b = 0 then nan else signedInf (decide (0 < b))
  | ninf, fin b => if b = 0 then nan else signedInf (decide (b < 0))
  | pinf, pinf => pinf
  | ninf, ninf => pinf
  | pinf, ninf => ninf
  | ninf, pinf => ninf

/-- The exact quotient of two `float`s, which `binary32.div` rounds: `0/0` is
NaN and `x/0` is an infinity. -/
def div : Flt → Flt → Flt
  | nan, _ => nan
  | _, nan => nan
  | fin a, fin b =>
    if b = 0 then (if a = 0 then nan else signedInf (decide (0 < a))) else fin (a / b)
  | fin _, pinf => fin 0
  | fin _, ninf => fin 0
  | pinf, fin b => signedInf (decide (0 ≤ b))
  | ninf, fin b => signedInf (decide (b < 0))
  | pinf, pinf => nan
  | pinf, ninf => nan
  | ninf, pinf => nan
  | ninf, ninf => nan

/-- The comparison `a < b` of `float`s, false as soon as one side is NaN. -/
def lt : Flt → Flt → Bool
  | fin a, fin b => decide (a < b)
  | ninf, fin _ => true
  | ninf, pinf => true
  | fin _, pinf => true
  | _, _ => false

/-- The comparison `a == b` of `float`s: NaN is not equal to itself. -/
def eq : Flt → Flt → Bool
  | nan, _ => false
  | _, nan => false
  | a, b => decide (a = b)

/-- The value of an `int` as a number, which `binary32.ofInt` rounds. -/
def ofInt (z : Int) : Flt := fin (z : ℚ)

/-- The value of a `size_t` or of an unsigned sample as a number, which
`binary32.ofNat` rounds. -/
def ofNat (n : Nat) : Flt := fin (n : ℚ)

/-- Truncation toward zero, the rounding of a C++ float-to-integer cast. -/
def trunc (q : ℚ) : Int := if 0 ≤ q then ⌊q⌋ else ⌈q⌉

/-- The cast `(int)x`: undefined when the truncated value is not an `int`. -/
def toInt : Flt → Option Int
  | fin q => if -2147483648 ≤ trunc q ∧ trunc q ≤ 2147483647 then some (trunc q) else none
  | _ => none

/-- The cast `static_cast<uint8_t>(x)`: undefined when the truncated value is
not in `0..255`. -/
def toUInt8 : Flt → Option (Fin 256)
  | fin q => if h : 0 ≤ trunc q ∧ trunc q < 256 then some ⟨(trunc q).toNat, by omega⟩ else none
  | _ => none

end Flt

/-- The release branch of `clamp_val` uses `std::max`: `(a < b) ? b : a`. -/
def std_max (a b : Flt) : Flt := if Flt.lt a b then b else a

/-- The release branch of `clamp_val` uses `std::min`: `(b < a) ? b : a`. -/
def std_min (a b : Flt) : Flt := if Flt.lt b a then b else a

/-- The function `clamp_val(val, min, max)`, which is `std::min(std::max(val, min), max)`;
its `_DEBUG` branch, `t = val < min ? min : val; t > max ? max : t`, computes
the same value. -/
def clamp_val (val min max : Flt) : Flt := std_min (std_max val min) max

/-- The struct `float3`. -/
structure float3 where
  x : Flt
  y : Flt
  z : Flt
deriving DecidableEq

namespace float3

/-- The `operator +` on `float3`, in exact arithmetic. -/
def add (a b : float3) : float3 := ⟨Flt.add a.x b.x, Flt.add a.y b.y, Flt.add a.z b.z⟩

/-- The `operator *` of a `float3` by a `float`, in exact arithmetic. -/
def smul (a : float3) (b : Flt) : float3 := ⟨Flt.mul a.x b, Flt.mul a.y b, Flt.mul a.z b⟩

end float3

/-! ## `std::map<float, float3>` as a list of entries in key order -/

/-- The entries of a `std::map<float, float3>`, in iteration order.  An
iterator is an index into the list and `end()` is the length. -/
abbrev FloatMap := List (Flt × float3)

/-- The iterator `m.lower_bound(k)`: the first entry whose key is not less than `k`. -/
def lower_bound (m : FloatMap) (k : Flt) : Nat := m.findIdx (fun p => !(Flt.lt p.1 k))

/-- The iterator `m.upper_bound(k)`: the first entry whose key is greater than `k`. -/
def upper_bound (m : FloatMap) (k : Flt) : Nat := m.findIdx (fun p => Flt.lt k p.1)

/-- The iterator `m.find(k)`: the lower bound when its key is not greater than `k`, else
`end()`. -/
def find (m : FloatMap) (k : Flt) : Nat :=
  match m[lower_bound m k]? with
  | some p => if Flt.lt k p.1 then m.length else lower_bound m k
  | none => m.length

/-- The lookup `m.at(k)`: the value found, and no result when the key is absent. -/
def map_at (m : FloatMap) (k : Flt) : Option float3 := (m[find m k]?).map (fun p => p.2)

/-- The assignment `m[k] = v`: overwrite the entry equivalent to `k` or insert a new one at
its place in the order. -/
def map_assign (k : Flt) (v : float3) : FloatMap → FloatMap
  | [] => [(k, v)]
  | p :: rest =>
    if Flt.lt p.1 k then p :: map_assign k v rest
    else if Flt.lt k p.1 then (k, v) :: p :: rest
    else (p.1, v) :: rest

/-! ## `ColorMap` -/

/-- The class `ColorMap`.  A member that the constructor may leave unset is an
`Option`, `none` standing for an indeterminate value.  `data_` holds the array
the pointer refers to. -/
structure ColorMap where
  map_ : FloatMap
  min_ : Option Flt
  max_ : Option Flt
  cache_ : Option (List float3)
  size_ : Option Nat
  data_ : Option (List float3)

/-- The method `ColorMap::lerp`, `b * t + a * (1 - t)`, in exact arithmetic. -/
def lerp (a b : float3) (t : Flt) : float3 :=
  float3.add (float3.smul b t) (float3.smul a (Flt.sub (Flt.ofInt 1) t))

/-- The method `ColorMap::calc`, on the member `map_`, in exact arithmetic. -/
def ColorMap_calc (map_ : FloatMap) (value : Flt) : Option float3 :=
  if map_.length = 0 then some ⟨value, value, value⟩
  else if find map_ value ≠ map_.length then map_at map_ value
  else do
    let first ← map_.head?
    if Flt.lt value first.1 then some first.2 else
    let last ← map_.getLast?
    if Flt.lt last.1 value then some last.2 else
    let lower ← map_[if lower_bound map_ value = 0 then 0 else lower_bound map_ value - 1]?
    let upper ← map_[upper_bound map_ value]?
    let t := Flt.div (Flt.sub value lower.1) (Flt.sub upper.1 lower.1)
    some (lerp lower.2 upper.2 t)

/-- The key and colour stored for loop index `i` of `ColorMap::initialize`. -/
def cache_entry (map_ : FloatMap) (min_ max_ : Flt) (steps i : Nat) : Option float3 :=
  let t := Flt.div (Flt.ofNat i) (Flt.ofNat steps)
  let x := Flt.add min_ (Flt.mul t (Flt.sub max_ min_))
  ColorMap_calc map_ x

/-- The method `ColorMap::initialize`.  With an empty map it returns at once and
sets no member.  The cache has no defined content when `calc` has none for a
slot. -/
def ColorMap.initialize_cache (cm : ColorMap) (steps : Nat) : ColorMap :=
  match cm.map_.head?, cm.map_.getLast? with
  | some first, some last =>
    let cache := (List.range (steps + 1)).mapM (cache_entry cm.map_ first.1 last.1 steps)
    { cm with
      min_ := some first.1
      max_ := some last.1
      cache_ := cache
      size_ := some (steps + 1)
      data_ := cache }
  | _, _ => cm

/-- The key `static_cast<float>(i) / (values.size() - 1)` of colour `i`, where
`n` is `values.size()`, in exact arithmetic: the quotient that
`binary32.anchor_key` rounds. -/
def anchor_key (n i : Nat) : Flt := Flt.div (Flt.ofNat i) (Flt.ofNat (n - 1))

/-- The loop of the constructor from index `i` on: `map_[i / (n - 1)] = values[i]`,
where `n` is `values.size()`. -/
def fill_map (n : Nat) : Nat → List float3 → FloatMap → FloatMap
  | _, [], m => m
  | i, v :: vs, m => fill_map n (i + 1) vs (map_assign (anchor_key n i) v m)

/-- The constructor `ColorMap(values, steps)`.  The `int` parameter `steps` is taken
non-negative: a negative value makes `resize(steps + 1)` fail or leaves the
cache empty. -/
def ColorMap.new (values : List float3) (steps : Nat) : ColorMap :=
  ColorMap.initialize_cache
    { map_ := fill_map values.length 0 values []
      min_ := none
      max_ := none
      cache_ := none
      size_ := none
      data_ := none }
    steps

/-- The method `ColorMap::get`.  `size_` is at least 1 whenever it is set, so
`size_ - 1` does not wrap. -/
def ColorMap.get (cm : ColorMap) (value : Flt) : Option float3 := do
  let max_ ← cm.max_
  let min_ ← cm.min_
  if Flt.eq max_ min_ then (← cm.data_)[0]? else
  let t := clamp_val (Flt.div (Flt.sub value min_) (Flt.sub max_ min_)) (Flt.ofInt 0) (Flt.ofInt 1)
  let size_ ← cm.size_
  let i ← Flt.toInt (Flt.mul t (Flt.ofNat (size_ - 1)))
  let data_ ← cm.data_
  if 0 ≤ i then data_[i.toNat]? else none

/-- The subscript of the last line of `get`, `(int)(t * (size_ - 1))` with
`t = clamp_val((value - min_) / (max_ - min_), 0.f, 1.f)`: the cache index
that `get` computes when `max_` differs from `min_`. -/
def ColorMap.get_index (cm : ColorMap) (value : Flt) : Option Int := do
  let max_ ← cm.max_
  let min_ ← cm.min_
  let t := clamp_val (Flt.div (Flt.sub value min_) (Flt.sub max_ min_)) (Flt.ofInt 0) (Flt.ofInt 1)
  let size_ ← cm.size_
  Flt.toInt (Flt.mul t (Flt.ofNat (size_ - 1)))

/-! ## The palette of `colorizer.cpp` -/

/-- The initialiser `{ r, g, b }` of a `float3`. -/
def rgb (r g b : ℚ) : float3 := ⟨Flt.fin r, Flt.fin g, Flt.fin b⟩

/-- The gradient `hue`. -/
def hue : ColorMap :=
  ColorMap.new
    [ rgb 255 0 0, rgb 255 255 0, rgb 0 255 0, rgb 0 255 255, rgb 0 0 255, rgb 255 0 255,
      rgb 255 0 0 ] 4000

/-- The gradient `jet`. -/
def jet : ColorMap :=
  ColorMap.new [rgb 0 0 255, rgb 0 255 255, rgb 255 255 0, rgb 255 0 0, rgb 50 0 0] 4000

/-- The gradient `classic`. -/
def classic : ColorMap :=
  ColorMap.new
    [ rgb 30 77 203, rgb 25 60 192, rgb 45 117 220, rgb 204 108 191, rgb 196 57 178,
      rgb 198 33 24 ] 4000

/-- The gradient `grayscale`. -/
def grayscale : ColorMap := ColorMap.new [rgb 255 255 255, rgb 0 0 0] 4000

/-- The gradient `inv_grayscale`. -/
def inv_grayscale : ColorMap := ColorMap.new [rgb 0 0 0, rgb 255 255 255] 4000

/-- The gradient `biomes`. -/
def biomes : ColorMap :=
  ColorMap.new
    [ rgb 0 0 204, rgb 204 230 255, rgb 255 255 153, rgb 170 255 128, rgb 0 153 0,
      rgb 230 242 255 ] 4000

/-- The gradient `cold`. -/
def cold : ColorMap :=
  ColorMap.new [rgb 230 247 255, rgb 0 92 230, rgb 0 179 179, rgb 0 51 153, rgb 0 5 15] 4000

/-- The gradient `warm`. -/
def warm : ColorMap :=
  ColorMap.new
    [ rgb 255 255 230, rgb 255 204 0, rgb 255 136 77, rgb 255 51 0, rgb 128 0 0,
      rgb 10 0 0 ] 4000

/-- The gradient `quantized`, built with 6 steps. -/
def quantized : ColorMap := ColorMap.new [rgb 255 255 255, rgb 0 0 0] 6

/-- The gradient `pattern`: white and black alternating, 50 colours. -/
def pattern : ColorMap :=
  ColorMap.new
    [
      rgb 255 255 255, rgb 0 0 0, rgb 255 255 255, rgb 0 0 0, rgb 255 255 255, rgb 0 0 0, rgb 255 255 255, rgb 0 0 0, rgb 255 255 255, rgb 0 0 0,
      rgb 255 255 255, rgb 0 0 0, rgb 255 255 255, rgb 0 0 0, rgb 255 255 255, rgb 0 0 0, rgb 255 255 255, rgb 0 0 0, rgb 255 255 255, rgb 0 0 0,
      rgb 255 255 255, rgb 0 0 0, rgb 255 255 255, rgb 0 0 0, rgb 255 255 255, rgb 0 0 0, rgb 255 255 255, rgb 0 0 0, rgb 255 255 255, rgb 0 0 0,
      rgb 255 255 255, rgb 0 0 0, rgb 255 255 255, rgb 0 0 0, rgb 255 255 255, rgb 0 0 0, rgb 255 255 255, rgb 0 0 0, rgb 255 255 255, rgb 0 0 0,
      rgb 255 255 255, rgb 0 0 0, rgb 255 255 255, rgb 0 0 0, rgb 255 255 255, rgb 0 0 0, rgb 255 255 255, rgb 0 0 0, rgb 255 255 255, rgb 0 0 0 ]
    4000

/-! ## `Colorizer` -/

/-- A `uint8_t` of a pixel buffer. -/
abbrev Byte := Fin 256

/-- The byte order of the host. -/
inductive Endian where
  | little : Endian
  | big : Endian
deriving DecidableEq

/-- The unsigned integer that the bytes of one sample represent on the host. -/
def decode : Endian → List Byte → Nat
  | Endian.little, bs => bs.foldr (fun b acc => b.val + 256 * acc) 0
  | Endian.big, bs => bs.foldl (fun acc b => 256 * acc + b.val) 0

/-- The sample `raw_depth_data[i]` for a sample type `T` of `w` bytes, where
`raw_depth_data` is `reinterpret_cast<T*>(pixel_data.data())`. -/
def read_sample (e : Endian) (w : Nat) (pixel_data : List Byte) (i : Nat) : Nat :=
  decode e ((pixel_data.drop (i * w)).take w)

/-- The samples `raw_depth_data[0 .. pixel_cnt - 1]`. -/
def raw_depth_data (e : Endian) (w : Nat) (pixel_data : List Byte) (pixel_cnt : Nat) :
    List Nat :=
  (List.range pixel_cnt).map (read_sample e w pixel_data)

/-- The constant `Colorizer::MAX_DEPTH`. -/
def MAX_DEPTH : Nat := 65536

/-- The conversion `static_cast<int>` of an unsigned sample of at most 32 bits. -/
def to_int (depth_val : Nat) : Int :=
  if depth_val < 2147483648 then (depth_val : Int) else (depth_val : Int) - 4294967296

/-- The class `Colorizer`.  `hist_data_` is the content of `histogram_`, which
it points to. -/
structure Colorizer where
  hist_data_ : Array Int
  color_maps_ : List ColorMap
  maps_index_ : Nat
  rgb_pixel_data_ : List Byte
  pixel_cnt_ : Nat

/-- The constructor `Colorizer::Colorizer`. -/
def Colorizer.new : Colorizer :=
  { hist_data_ := mkArray MAX_DEPTH 0
    color_maps_ :=
      [jet, classic, grayscale, inv_grayscale, biomes, cold, warm, quantized, pattern, hue]
    maps_index_ := 0
    rgb_pixel_data_ := []
    pixel_cnt_ := 0 }

/-- The call `memset(hist, 0, MAX_DEPTH * sizeof(int))` on the `MAX_DEPTH` counters. -/
def memset_zero (_hist : Array Int) : Array Int := mkArray MAX_DEPTH 0

/-- The body of the first loop of `update_histogram`: `hist[index] += 1`. -/
def hist_increment (hist : Array Int) (depth_val : Nat) : Option (Array Int) := do
  let index := to_int depth_val
  if 0 ≤ index then
    let count ← hist[index.toNat]?
    some (hist.setD index.toNat (count + 1))
  else none

/-- The body of the second loop of `update_histogram`: `hist[i] += hist[i-1]`. -/
def hist_accumulate (hist : Array Int) (i : Nat) : Option (Array Int) := do
  let below ← hist[i - 1]?
  let count ← hist[i]?
  some (hist.setD i (count + below))

/-- The method `Colorizer::update_histogram`. -/
def update_histogram (hist : Array Int) (depth_data : List Nat) : Option (Array Int) := do
  let counted ← depth_data.foldlM hist_increment (memset_zero hist)
  (List.range' 2 (MAX_DEPTH - 2)).foldlM hist_accumulate counted

/-- The lambda `coloring_function` of `process_frame`, in exact arithmetic. -/
def coloring_function (hist_data_ : Array Int) (data : Flt) : Option Flt := do
  let index ← Flt.toInt data
  if 0 ≤ index then
    let hist_data ← hist_data_[index.toNat]?
    let pixels ← hist_data_[MAX_DEPTH - 1]?
    some (Flt.div (Flt.ofInt hist_data) (Flt.ofInt pixels))
  else none

/-- The store `rgb[i] = b` into a buffer, undefined outside it. -/
def write_byte (rgb : List Byte) (i : Nat) (b : Byte) : Option (List Byte) :=
  if i < rgb.length then some (rgb.set i b) else none

/-- The method `Colorizer::colorize_pixel`, where `rgb_pixel` is `rgb_data + off`. -/
def colorize_pixel (depth : Nat) (rgb_data : List Byte) (off : Nat) (color_map : ColorMap)
    (hist_data_ : Array Int) : Option (List Byte) :=
  if depth ≠ 0 then do
    let f ← coloring_function hist_data_ (Flt.ofNat depth)
    let c ← color_map.get f
    let r0 ← write_byte rgb_data off (← Flt.toUInt8 c.x)
    let r1 ← write_byte r0 (off + 1) (← Flt.toUInt8 c.y)
    write_byte r1 (off + 2) (← Flt.toUInt8 c.z)
  else do
    let r0 ← write_byte rgb_data off 0
    let r1 ← write_byte r0 (off + 1) 0
    write_byte r1 (off + 2) 0

/-- The loop of `make_rgb_data` from pixel `i` on. -/
def make_rgb_loop (color_map : ColorMap) (hist_data_ : Array Int) :
    List Nat → Nat → List Byte → Option (List Byte)
  | [], _, rgb_data => some rgb_data
  | depth :: rest, i, rgb_data => do
    let written ← colorize_pixel depth rgb_data (3 * i) color_map hist_data_
    make_rgb_loop color_map hist_data_ rest (i + 1) written

/-- The method `Colorizer::make_rgb_data`. -/
def make_rgb_data (s : Colorizer) (depth_data : List Nat) (rgb_data : List Byte) :
    Option (List Byte) := do
  let color_map ← s.color_maps_[s.maps_index_]?
  make_rgb_loop color_map s.hist_data_ depth_data 0 rgb_data

/-- The method `Colorizer::process_depth_data<T>` for a sample type of `w` bytes.  The
second component is the new content of `pixel_data`. -/
def process_depth_data (s : Colorizer) (e : Endian) (w : Nat) (pixel_data : List Byte)
    (pixel_cnt : Nat) : Option (Colorizer × List Byte) := do
  let depth_data := raw_depth_data e w pixel_data pixel_cnt
  let hist ← update_histogram s.hist_data_ depth_data
  let s1 := { s with hist_data_ := hist }
  let rgb ← make_rgb_data s1 depth_data s1.rgb_pixel_data_
  some ({ s1 with rgb_pixel_data_ := rgb }, rgb)

/-- The call `std::vector<uint8_t>::resize(n)`: the first `n` bytes, padded with
zeros. -/
def resize (v : List Byte) (n : Nat) : List Byte := v.take n ++ List.replicate (n - v.length) 0

/-- The method `Colorizer::process_frame`.  The result is the new state and the new
content of `pixel_data`. -/
def process_frame (s : Colorizer) (e : Endian) (pixel_data : List Byte) (pixel_step : Nat) :
    Option (Colorizer × List Byte) :=
  if pixel_step = 0 then none else
  let pixel_cnt := pixel_data.length / pixel_step
  let s1 :=
    if pixel_cnt ≠ s.pixel_cnt_ then
      { s with pixel_cnt_ := pixel_cnt, rgb_pixel_data_ := resize s.rgb_pixel_data_ (pixel_cnt * 3) }
    else s
  match pixel_step with
  | 1 => process_depth_data s1 e 1 pixel_data pixel_cnt
  | 2 => process_depth_data s1 e 2 pixel_data pixel_cnt
  | 4 => process_depth_data s1 e 4 pixel_data pixel_cnt
  | _ => some (s1, pixel_data)

/-! ## Definitions used to state the theorems -/

/-- The number of samples of a frame whose value lies in `1..i`. -/
def count_upto (depth_data : List Nat) (i : Nat) : Nat :=
  depth_data.countP (fun v => decide (1 ≤ v ∧ v ≤ i))

/-- The value that counter `i` holds after `update_histogram`: the number of
zero samples at index 0, and the number of samples in `1..i` at index `i`. -/
def hist_value (depth_data : List Nat) (i : Nat) : Int :=
  if i = 0 then (depth_data.count 0 : Int) else (count_upto depth_data i : Int)

/-- The entries that the constructor loop adds from index `i` on, in order. -/
def anchors_from (n : Nat) : Nat → List float3 → FloatMap
  | _, [] => []
  | i, v :: vs => (anchor_key n i, v) :: anchors_from n (i + 1) vs

/-- Every key of the map is a finite number. -/
def FiniteKeys (m : FloatMap) : Prop := ∀ p ∈ m, ∃ k : ℚ, p.1 = Flt.fin k

/-- A `float` that is finite and lies in `[lo, hi]`. -/
def Flt.within (lo hi : ℚ) : Flt → Bool
  | Flt.fin q => decide (lo ≤ q ∧ q ≤ hi)
  | _ => false

/-- A colour whose three channels are finite and lie in `[lo, hi]`. -/
def float3.within (lo hi : ℚ) (c : float3) : Bool :=
  Flt.within lo hi c.x && Flt.within lo hi c.y && Flt.within lo hi c.z

/-- The argument of `get` clamped to `[0, 1]`. -/
def clamp01 (q : ℚ) : ℚ := min (max q 0) 1

/-- The cache slot that `get` reads for the finite argument `q`, when the keys
span `[0, 1]` and the cache has `steps + 1` slots. -/
def slot (steps : Nat) (q : ℚ) : Nat := ⌊clamp01 q * (steps : ℚ)⌋.toNat

/-- The three bytes that `colorize_pixel` stores for a sample `depth`. -/
def pixel_rgb (color_map : ColorMap) (hist_data_ : Array Int) (depth : Nat) :
    Option (List Byte) :=
  if depth ≠ 0 then do
    let f ← coloring_function hist_data_ (Flt.ofNat depth)
    let c ← color_map.get f
    let r ← Flt.toUInt8 c.x
    let g ← Flt.toUInt8 c.y
    let b ← Flt.toUInt8 c.z
    some [r, g, b]
  else some [0, 0, 0]

/-- The bytes of all the pixels of a frame, in pixel order. -/
def frame_rgb (color_map : ColorMap) (hist_data_ : Array Int) : List Nat → Option (List Byte)
  | [] => some []
  | depth :: rest => do
    let px ← pixel_rgb color_map hist_data_ depth
    let out ← frame_rgb color_map hist_data_ rest
    some (px ++ out)

/-- A gradient as the palette has them: built by the constructor from at least
two colours whose channels lie in `[0, 255]`, with at least one step, `steps`
being an `int` whose successor does not overflow. -/
def GoodGradient (cm : ColorMap) : Prop :=
  ∃ (values : List float3) (steps : Nat), cm = ColorMap.new values steps ∧ 2 ≤ values.length ∧
    1 ≤ steps ∧ steps < 2147483647 ∧ ∀ c ∈ values, c.within 0 255 = true

/-- The class invariant of `Colorizer`: the output buffer has three bytes per
pixel of the last frame, and `maps_index_` selects a gradient of the palette. -/
def Colorizer.Valid (s : Colorizer) : Prop :=
  s.rgb_pixel_data_.length = s.pixel_cnt_ * 3 ∧
    ∃ cm, s.color_maps_[s.maps_index_]? = some cm ∧ GoodGradient cm

/-- The frames on which `process_frame` is used as designed: the width is 1, 2
or 4 bytes, and every 4-byte sample is below `MAX_DEPTH`. -/
def Supported (e : Endian) (pixel_data : List Byte) (pixel_step : Nat) : Prop :=
  pixel_step = 1 ∨ pixel_step = 2 ∨
    (pixel_step = 4 ∧
      ∀ d ∈ raw_depth_data e 4 pixel_data (pixel_data.length / 4), d < MAX_DEPTH)

/-- A sequence of calls of `process_frame` on one `Colorizer`, each call given
by its buffer and its `pixel_step`: the contents of the buffers after the
calls, in order. -/
def run_frames (e : Endian) : Colorizer → List (List Byte × Nat) → Option (List (List Byte))
  | _, [] => some []
  | s, call :: rest => do
    let r ← process_frame s e call.1 call.2
    let outs ← run_frames e r.1 rest
    some (r.2 :: outs)

/-- A call that `process_frame` completes: a supported frame, or a width
other than 0, 1, 2 and 4. -/
def Completes (e : Endian) (call : List Byte × Nat) : Prop :=
  Supported e call.1 call.2 ∨ (call.2 ≠ 0 ∧ call.2 ≠ 1 ∧ call.2 ≠ 2 ∧ call.2 ≠ 4)

/-- The state of a `Colorizer` after a sequence of calls of `process_frame`,
each call given by its buffer and its `pixel_step`. -/
def run_state (e : Endian) : Colorizer → List (List Byte × Nat) → Option Colorizer
  | s, [] => some s
  | s, call :: rest => do
    let r ← process_frame s e call.1 call.2
    run_state e r.1 rest

/-- A colour whose channels are finite and lie, channel by channel, between
the bounds `lo` and `hi`. -/
def float3.between (lo hi : ℚ × ℚ × ℚ) (c : float3) : Bool :=
  Flt.within lo.1 hi.1 c.x && Flt.within lo.2.1 hi.2.1 c.y && Flt.within lo.2.2 hi.2.2 c.z

/-! ## Binary32 arithmetic

The functions of `colorizer.h` whose result depends on the rounding of `float`
arithmetic, once more, with every operation rounded as IEEE-754 binary32 does:
the exact result is replaced by the nearest number with 24 significant bits, a
tie going to the even one, with subnormal numbers below `2^(-126)` and an
infinity from `2^128` on.  Zero has no sign. -/

namespace binary32

/-- Rounding of a rational to the nearest integer, a tie going to the even one. -/
def rne (x : ℚ) : Int :=
  if x - ⌊x⌋ < 1 / 2 then ⌊x⌋
  else if 1 / 2 < x - ⌊x⌋ then ⌊x⌋ + 1
  else if ⌊x⌋ % 2 = 0 then ⌊x⌋ else ⌊x⌋ + 1

/-- The exponent `e` of the binade `[2^e, 2^(e+1))` that holds `|q|`, and `-126`,
the exponent of the subnormal numbers, when `|q|` is below `2^(-126)`. -/
def exponent (q : ℚ) : Int := if q = 0 then -126 else max (Int.log 2 |q|) (-126)

/-- The spacing of the `float`s of the binade of `q`: 24 significant bits. -/
def ulp (q : ℚ) : ℚ := 2 ^ (exponent q - 23)

/-- The multiple of `ulp q` nearest to `q`, a tie going to the even multiple. -/
def nearest (q : ℚ) : ℚ := (rne (q / ulp q) : ℚ) * ulp q

/-- Rounding of a rational to `float`: the nearest binary32 number, ties to
even, and an infinity when that is `2^128` or more in magnitude. -/
def round32 (q : ℚ) : Flt :=
  if 2 ^ 128 ≤ |nearest q| then Flt.signedInf (decide (0 < q)) else Flt.fin (nearest q)

/-- The rounding of the exact result of an operation; NaN and the infinities
are kept. -/
def rnd : Flt → Flt
  | Flt.fin q => round32 q
  | x => x

/-- The `float` sum `a + b`. -/
def add (a b : Flt) : Flt := rnd (Flt.add a b)

/-- The `float` difference `a - b`. -/
def sub (a b : Flt) : Flt := rnd (Flt.sub a b)

/-- The `float` product `a * b`. -/
def mul (a b : Flt) : Flt := rnd (Flt.mul a b)

/-- The `float` quotient `a / b`. -/
def div (a b : Flt) : Flt := rnd (Flt.div a b)

/-- Conversion of an `int` to `float`. -/
def ofInt (z : Int) : Flt := round32 (z : ℚ)

/-- Conversion of a `size_t` or of an unsigned sample to `float`. -/
def ofNat (n : Nat) : Flt := round32 (n : ℚ)

/-- The `operator +` on `float3`. -/
def float3_add (a b : float3) : float3 := ⟨add a.x b.x, add a.y b.y, add a.z b.z⟩

/-- The `operator *` of a `float3` by a `float`. -/
def float3_smul (a : float3) (b : Flt) : float3 := ⟨mul a.x b, mul a.y b, mul a.z b⟩

/-- The method `ColorMap::lerp`: `b * t + a * (1 - t)`. -/
def lerp (a b : float3) (t : Flt) : float3 :=
  float3_add (float3_smul b t) (float3_smul a (sub (ofInt 1) t))

/-- The method `ColorMap::calc`, on the member `map_`. -/
def ColorMap_calc (map_ : FloatMap) (value : Flt) : Option float3 :=
  if map_.length = 0 then some ⟨value, value, value⟩
  else if find map_ value ≠ map_.length then map_at map_ value
  else do
    let first ← map_.head?
    if Flt.lt value first.1 then some first.2 else
    let last ← map_.getLast?
    if Flt.lt last.1 value then some last.2 else
    let lower ← map_[if lower_bound map_ value = 0 then 0 else lower_bound map_ value - 1]?
    let upper ← map_[upper_bound map_ value]?
    let t := div (sub value lower.1) (sub upper.1 lower.1)
    some (lerp lower.2 upper.2 t)

/-- The key and colour stored for loop index `i` of `ColorMap::initialize`. -/
def cache_entry (map_ : FloatMap) (min_ max_ : Flt) (steps i : Nat) : Option float3 :=
  let t := div (ofNat i) (ofNat steps)
  let x := add min_ (mul t (sub max_ min_))
  ColorMap_calc map_ x

/-- The method `ColorMap::initialize`. -/
def initialize_cache (cm : ColorMap) (steps : Nat) : ColorMap :=
  match cm.map_.head?, cm.map_.getLast? with
  | some first, some last =>
    let cache := (List.range (steps + 1)).mapM (cache_entry cm.map_ first.1 last.1 steps)
    { cm with
      min_ := some first.1
      max_ := some last.1
      cache_ := cache
      size_ := some (steps + 1)
      data_ := cache }
  | _, _ => cm

/-- The key `static_cast<float>(i) / (values.size() - 1)` of colour `i`, where
`n` is `values.size()`. -/
def anchor_key (n i : Nat) : Flt := div (ofNat i) (ofNat (n - 1))

/-- The loop of the constructor from index `i` on. -/
def fill_map (n : Nat) : Nat → List float3 → FloatMap → FloatMap
  | _, [], m => m
  | i, v :: vs, m => fill_map n (i + 1) vs (map_assign (anchor_key n i) v m)

/-- The constructor `ColorMap(values, steps)`. -/
def new (values : List float3) (steps : Nat) : ColorMap :=
  initialize_cache
    { map_ := fill_map values.length 0 values []
      min_ := none
      max_ := none
      cache_ := none
      size_ := none
      data_ := none }
    steps

/-- The subscript of the last line of `get`: `(int)(t * (size_ - 1))`. -/
def get_index (cm : ColorMap) (value : Flt) : Option Int := do
  let max_ ← cm.max_
  let min_ ← cm.min_
  let t := clamp_val (div (sub value min_) (sub max_ min_)) (ofInt 0) (ofInt 1)
  let size_ ← cm.size_
  Flt.toInt (mul t (ofNat (size_ - 1)))

/-- The method `ColorMap::get`. -/
def get (cm : ColorMap) (value : Flt) : Option float3 := do
  let max_ ← cm.max_
  let min_ ← cm.min_
  if Flt.eq max_ min_ then (← cm.data_)[0]? else
  let t := clamp_val (div (sub value min_) (sub max_ min_)) (ofInt 0) (ofInt 1)
  let size_ ← cm.size_
  let i ← Flt.toInt (mul t (ofNat (size_ - 1)))
  let data_ ← cm.data_
  if 0 ≤ i then data_[i.toNat]? else none

/-- The lambda `coloring_function` of `process_frame`. -/
def coloring_function (hist_data_ : Array Int) (data : Flt) : Option Flt := do
  let index ← Flt.toInt data
  if 0 ≤ index then
    let hist_data ← hist_data_[index.toNat]?
    let pixels ← hist_data_[MAX_DEPTH - 1]?
    some (div (ofInt hist_data) (ofInt pixels))
  else none

/-- The entries that the constructor loop adds from index `i` on, in order. -/
def anchors_from (n : Nat) : Nat → List float3 → FloatMap
  | _, [] => []
  | i, v :: vs => (anchor_key n i, v) :: anchors_from n (i + 1) vs

/-- The position of colour `i` of `n`: the `float` nearest to `i / (n - 1)`. -/
def position (n i : Nat) : ℚ := nearest ((i : ℚ) / ((n - 1 : Nat) : ℚ))

end binary32

/-- The colours and the number of steps of the ten gradients of
`colorizer.cpp`, in the order of `color_maps_`. -/
def palette_values : List (List float3 × Nat) :=
  [ ([rgb 0 0 255, rgb 0 255 255, rgb 255 255 0, rgb 255 0 0, rgb 50 0 0], 4000),
    ([ rgb 30 77 203, rgb 25 60 192, rgb 45 117 220, rgb 204 108 191, rgb 196 57 178,
       rgb 198 33 24 ], 4000),
    ([rgb 255 255 255, rgb 0 0 0], 4000),
    ([rgb 0 0 0, rgb 255 255 255], 4000),
    ([ rgb 0 0 204, rgb 204 230 255, rgb 255 255 153, rgb 170 255 128, rgb 0 153 0,
       rgb 230 242 255 ], 4000),
    ([rgb 230 247 255, rgb 0 92 230, rgb 0 179 179, rgb 0 51 153, rgb 0 5 15], 4000),
    ([ rgb 255 255 230, rgb 255 204 0, rgb 255 136 77, rgb 255 51 0, rgb 128 0 0,
       rgb 10 0 0 ], 4000),
    ([rgb 255 255 255, rgb 0 0 0], 6),
    ([
      rgb 255 255 255, rgb 0 0 0, rgb 255 255 255, rgb 0 0 0, rgb 255 255 255, rgb 0 0 0, rgb 255 255 255, rgb 0 0 0, rgb 255 255 255, rgb 0 0 0,
      rgb 255 255 255, rgb 0 0 0, rgb 255 255 255, rgb 0 0 0, rgb 255 255 255, rgb 0 0 0, rgb 255 255 255, rgb 0 0 0, rgb 255 255 255, rgb 0 0 0,
      rgb 255 255 255, rgb 0 0 0, rgb 255 255 255, rgb 0 0 0, rgb 255 255 255, rgb 0 0 0, rgb 255 255 255, rgb 0 0 0, rgb 255 255 255, rgb 0 0 0,
      rgb 255 255 255, rgb 0 0 0, rgb 255 255 255, rgb 0 0 0, rgb 255 255 255, rgb 0 0 0, rgb 255 255 255, rgb 0 0 0, rgb 255 255 255, rgb 0 0 0,
      rgb 255 255 255, rgb 0 0 0, rgb 255 255 255, rgb 0 0 0, rgb 255 255 255, rgb 0 0 0, rgb 255 255 255, rgb 0 0 0, rgb 255 255 255, rgb 0 0 0 ],
      4000),
    ([ rgb 255 0 0, rgb 255 255 0, rgb 0 255 0, rgb 0 255 255, rgb 0 0 255, rgb 255 0 255,
       rgb 255 0 0 ], 4000) ]

/-! ## The histogram -/

theorem getElem?_setD (a : Array Int) (i j : Nat) (v : Int) :
    (a.setD i v)[j]? = if i = j then (if i < a.size then some v else none) else a[j]? := by
  unfold Array.setD
  by_cases h : i < a.size
  · simp only [h, dite_true, if_true]
    rw [Array.get?_set]
  · simp only [h, dite_false, if_false]
    by_cases hij : i = j
    · subst hij
      simp only [if_true]
      exact Array.getElem?_ge _ (by omega)
    · simp [hij]

theorem to_int_of_lt {d : Nat} (h : d < 2147483648) : to_int d = (d : Int) := by
  simp [to_int, h]

theorem hist_increment_eq (hist : Array Int) (d : Nat) (hd : d < hist.size)
    (hs : hist.size ≤ 2147483648) :
    hist_increment hist d = some (hist.setD d (hist[d] + 1)) := by
  have h1 : to_int d = (d : Int) := to_int_of_lt (by omega)
  simp [hist_increment, h1, Array.getElem?_eq_getElem hd]

theorem count_loop (depth_data : List Nat) :
    ∀ hist : Array Int, hist.size ≤ 2147483648 → (∀ d ∈ depth_data, d < hist.size) →
      ∃ counted, depth_data.foldlM hist_increment hist = some counted ∧
        counted.size = hist.size ∧
        ∀ j, counted[j]? = (hist[j]?).map (fun c => c + (depth_data.count j : Int)) := by
  induction depth_data with
  | nil =>
    intro hist _ _
    exact ⟨hist, rfl, rfl, by intro j; cases hist[j]? <;> simp⟩
  | cons d rest ih =>
    intro hist hs hd
    have hdlt : d < hist.size := hd d (List.mem_cons_self _ _)
    obtain ⟨counted, hc, hsize, hget⟩ :=
      ih (hist.setD d (hist[d] + 1)) (by simpa using hs)
        (by intro x hx; simpa using hd x (List.mem_cons_of_mem _ hx))
    refine ⟨counted, ?_, by simpa using hsize, ?_⟩
    · rw [List.foldlM_cons, hist_increment_eq hist d hdlt hs]
      exact hc
    · intro j
      rw [hget j, getElem?_setD, List.count_cons]
      by_cases hj : d = j
      · subst hj
        simp [hdlt, Array.getElem?_eq_getElem hdlt]
        ring
      · simp [hj]

theorem count_upto_succ (depth_data : List Nat) (i : Nat) :
    count_upto depth_data (i + 1) = count_upto depth_data i + depth_data.count (i + 1) := by
  unfold count_upto
  induction depth_data with
  | nil => simp
  | cons d rest ih =>
    rw [List.countP_cons, List.countP_cons, List.count_cons, ih]
    by_cases h1 : d = i + 1
    · subst h1
      simp
      omega
    · by_cases h2 : 1 ≤ d ∧ d ≤ i
      · have h3 : 1 ≤ d ∧ d ≤ i + 1 := ⟨h2.1, by omega⟩
        simp [h1, h2, h3]
        omega
      · have h3 : ¬ (1 ≤ d ∧ d ≤ i + 1) := by omega
        simp [h1, h2, h3]

theorem count_upto_one (depth_data : List Nat) :
    count_upto depth_data 1 = depth_data.count 1 := by
  unfold count_upto
  induction depth_data with
  | nil => simp
  | cons d rest ih =>
    rw [List.countP_cons, List.count_cons, ih]
    by_cases h1 : d = 1
    · subst h1; simp
    · have h2 : ¬ (1 ≤ d ∧ d ≤ 1) := by omega
      simp [h1, h2]

theorem count_upto_mono (depth_data : List Nat) {i j : Nat} (h : i ≤ j) :
    count_upto depth_data i ≤ count_upto depth_data j := by
  unfold count_upto
  apply List.countP_mono_left
  intro x _ hx
  simp only [decide_eq_true_eq] at hx ⊢
  omega

/-- The counters after `k` rounds of the second loop of `update_histogram`. -/
theorem accumulate_loop (depth_data : List Nat) (counted : Array Int)
    (hcount : ∀ j, j < counted.size → counted[j]? = some (depth_data.count j : Int)) :
    ∀ k, 2 + k ≤ counted.size →
      ∃ hist, (List.range' 2 k).foldlM hist_accumulate counted = some hist ∧
        hist.size = counted.size ∧
        (∀ j, 1 ≤ j → j < 2 + k → hist[j]? = some (count_upto depth_data j : Int)) ∧
        (∀ j, (j = 0 ∨ 2 + k ≤ j) → hist[j]? = counted[j]?) := by
  intro k
  induction k with
  | zero =>
    intro _
    refine ⟨counted, rfl, rfl, ?_, fun _ _ => rfl⟩
    intro j h1 h2
    have hj : j = 1 := by omega
    subst hj
    rw [hcount 1 (by omega), count_upto_one]
  | succ k ih =>
    intro hk
    obtain ⟨hist, hfold, hsize, hlow, hhigh⟩ := ih (by omega)
    have hprev : hist[1 + k]? = some (count_upto depth_data (1 + k) : Int) :=
      hlow (1 + k) (by omega) (by omega)
    have hcur : hist[2 + k]? = some (depth_data.count (2 + k) : Int) := by
      rw [hhigh (2 + k) (Or.inr le_rfl)]
      exact hcount _ (by omega)
    refine ⟨hist.setD (2 + k) ((depth_data.count (2 + k) : Int) + (count_upto depth_data (1 + k) : Int)),
      ?_, by simpa using hsize, ?_, ?_⟩
    · rw [List.range'_concat, List.foldlM_append, hfold]
      simp [hist_accumulate, hprev, hcur]
    · intro j h1 h2
      rw [getElem?_setD]
      by_cases hj : 2 + k = j
      · subst hj
        have hlt : 2 + k < hist.size := by omega
        simp only [if_true, hlt]
        rw [show 2 + k = (1 + k) + 1 by omega, count_upto_succ]
        push_cast
        ring_nf
      · simp only [hj, if_false]
        exact hlow j h1 (by omega)
    · intro j hj
      rw [getElem?_setD]
      have hne : 2 + k ≠ j := by omega
      simp only [hne, if_false]
      exact hhigh j (by omega)

/-- What `update_histogram` computes on samples below `MAX_DEPTH`: it has a
result, of `MAX_DEPTH` counters, and counter `i` holds `hist_value`. -/
theorem update_histogram_spec (hist : Array Int) (depth_data : List Nat)
    (hd : ∀ d ∈ depth_data, d < MAX_DEPTH) :
    ∃ h, update_histogram hist depth_data = some h ∧ h.size = MAX_DEPTH ∧
      ∀ i, i < MAX_DEPTH → h[i]? = some (hist_value depth_data i) := by
  obtain ⟨counted, hc, hsize, hget⟩ := count_loop depth_data (memset_zero hist)
    (by simp [memset_zero, MAX_DEPTH]) (by simpa [memset_zero] using hd)
  have hsize2 : counted.size = MAX_DEPTH := by simpa [memset_zero] using hsize
  have hcount : ∀ j, j < counted.size → counted[j]? = some (depth_data.count j : Int) := by
    intro j hj
    rw [hget j]
    have : j < MAX_DEPTH := by omega
    simp [memset_zero, Array.getElem?_mkArray, this]
  obtain ⟨h, hfold, hs, hlow, hhigh⟩ :=
    accumulate_loop depth_data counted hcount (MAX_DEPTH - 2) (by rw [hsize2]; simp [MAX_DEPTH])
  refine ⟨h, ?_, by rw [hs, hsize2], ?_⟩
  · simp [update_histogram, hc, hfold]
  · intro i hi
    unfold hist_value
    by_cases h0 : i = 0
    · subst h0
      rw [hhigh 0 (Or.inl rfl), hcount 0 (by omega)]
      simp
    · simp only [h0, if_false]
      exact hlow i (by omega) (by simp only [MAX_DEPTH] at hi ⊢; omega)

theorem count_upto_pos (depth_data : List Nat) {d i : Nat} (hd : d ∈ depth_data)
    (h1 : 1 ≤ d) (h2 : d ≤ i) : 0 < count_upto depth_data i := by
  unfold count_upto
  rw [List.countP_pos_iff]
  exact ⟨d, hd, by simp only [decide_eq_true_eq]; omega⟩

theorem count_upto_of_max (depth_data : List Nat) {d i : Nat}
    (hmax : ∀ v ∈ depth_data, v ≤ d) (h : d ≤ i) :
    count_upto depth_data i = count_upto depth_data d := by
  unfold count_upto
  apply List.countP_congr
  intro x hx
  have := hmax x hx
  simp only [decide_eq_true_eq]
  omega

theorem trunc_natCast (n : Nat) : Flt.trunc (n : ℚ) = (n : Int) := by
  simp [Flt.trunc]

theorem toInt_ofNat {n : Nat} (h : n < 2147483648) : Flt.toInt (Flt.ofNat n) = some (n : Int) := by
  simp only [Flt.toInt, Flt.ofNat, trunc_natCast]
  rw [if_pos]
  omega

/-- The value of `coloring_function` on a histogram whose counters `d` and
`MAX_DEPTH - 1` are known. -/
theorem coloring_function_eq (h : Array Int) {d : Nat} {a b : Int} (hd : d < MAX_DEPTH)
    (ha : h[d]? = some a) (hb : h[MAX_DEPTH - 1]? = some b) :
    coloring_function h (Flt.ofNat d) = some (Flt.div (Flt.ofInt a) (Flt.ofInt b)) := by
  have h1 : Flt.toInt (Flt.ofNat d) = some (d : Int) :=
    toInt_ofNat (by simp only [MAX_DEPTH] at hd; omega)
  simp [coloring_function, h1, ha, hb]

theorem div_fin_of_ne {a b : ℚ} (hb : b ≠ 0) : Flt.div (Flt.fin a) (Flt.fin b) = Flt.fin (a / b) := by
  simp [Flt.div, hb]

/-- After `update_histogram`, the normalized intensity of a nonzero sample `d`
of the frame is the quotient of the two counts. -/
theorem normalized_eq (hist : Array Int) (depth_data : List Nat)
    (hd : ∀ d ∈ depth_data, d < MAX_DEPTH) :
    ∃ h, update_histogram hist depth_data = some h ∧ h.size = MAX_DEPTH ∧
      ∀ d ∈ depth_data, d ≠ 0 →
        0 < count_upto depth_data (MAX_DEPTH - 1) ∧
        coloring_function h (Flt.ofNat d) =
          some (Flt.fin ((count_upto depth_data d : ℚ) / (count_upto depth_data (MAX_DEPTH - 1) : ℚ))) := by
  obtain ⟨h, hu, hs, hv⟩ := update_histogram_spec hist depth_data hd
  refine ⟨h, hu, hs, ?_⟩
  intro d hmem hne
  have hlt := hd d hmem
  have hpos : 0 < count_upto depth_data (MAX_DEPTH - 1) :=
    count_upto_pos depth_data hmem (by omega) (by omega)
  refine ⟨hpos, ?_⟩
  have ha : h[d]? = some (count_upto depth_data d : Int) := by
    rw [hv d hlt]; simp [hist_value, hne]
  have hb : h[MAX_DEPTH - 1]? = some (count_upto depth_data (MAX_DEPTH - 1) : Int) := by
    rw [hv (MAX_DEPTH - 1) (by simp [MAX_DEPTH])]; simp [hist_value, MAX_DEPTH]
  rw [coloring_function_eq h hlt ha hb]
  simp only [Flt.ofInt, Int.cast_natCast]
  rw [div_fin_of_ne]
  exact_mod_cast hpos.ne'

/-- C4.  After `update_histogram` on a frame of 8-bit or 16-bit samples, the
normalized intensity `hist[d] / hist[MAX_DEPTH-1]` of every nonzero value `d`
of the frame is a finite number in `[0, 1]`, and it is exactly 1 for the
largest value of the frame. -/
theorem normalized_range (hist : Array Int) (w : Nat) (depth_data : List Nat)
    (hw : w = 1 ∨ w = 2) (hd : ∀ d ∈ depth_data, d < 256 ^ w) :
    ∃ h, update_histogram hist depth_data = some h ∧
      ∀ d ∈ depth_data, d ≠ 0 →
        ∃ q : ℚ, coloring_function h (Flt.ofNat d) = some (Flt.fin q) ∧ 0 ≤ q ∧ q ≤ 1 ∧
          ((∀ v ∈ depth_data, v ≤ d) → q = 1) := by
  have hd2 : ∀ d ∈ depth_data, d < MAX_DEPTH := by
    intro d hmem
    have := hd d hmem
    rcases hw with rfl | rfl <;> simp only [MAX_DEPTH] <;> omega
  obtain ⟨h, hu, _, hn⟩ := normalized_eq hist depth_data hd2
  refine ⟨h, hu, ?_⟩
  intro d hmem hne
  obtain ⟨hpos, hq⟩ := hn d hmem hne
  have hle : count_upto depth_data d ≤ count_upto depth_data (MAX_DEPTH - 1) :=
    count_upto_mono depth_data (by have := hd2 d hmem; omega)
  have hposq : (0 : ℚ) < (count_upto depth_data (MAX_DEPTH - 1) : ℚ) := by exact_mod_cast hpos
  refine ⟨_, hq, by positivity, ?_, ?_⟩
  · rw [div_le_one hposq]
    exact_mod_cast hle
  · intro hmax
    rw [@count_upto_of_max depth_data d (MAX_DEPTH - 1) hmax (by have := hd2 d hmem; omega)]
    have hdpos : (0 : ℚ) < (count_upto depth_data d : ℚ) := by
      exact_mod_cast count_upto_pos depth_data hmem (by omega) le_rfl
    exact div_self hdpos.ne'

theorem normalized_range_witness :
    (∀ d ∈ [0, 10, 10, 20], d < 256 ^ 1) ∧
    ∃ h, update_histogram (mkArray MAX_DEPTH 0) [0, 10, 10, 20] = some h ∧
      ∀ d ∈ [0, 10, 10, 20], d ≠ 0 →
        ∃ q : ℚ, coloring_function h (Flt.ofNat d) = some (Flt.fin q) ∧ 0 ≤ q ∧ q ≤ 1 ∧
          ((∀ v ∈ [0, 10, 10, 20], v ≤ d) → q = 1) :=
  ⟨by decide, normalized_range (mkArray MAX_DEPTH 0) 1 [0, 10, 10, 20] (Or.inl rfl) (by decide)⟩

/-- C5.  After `update_histogram` on samples below `MAX_DEPTH` the histogram is
non-decreasing on the indices `1 .. MAX_DEPTH-1`. -/
theorem histogram_monotone (hist : Array Int) (depth_data : List Nat)
    (hd : ∀ d ∈ depth_data, d < MAX_DEPTH) :
    ∃ h, update_histogram hist depth_data = some h ∧
      ∀ i j, 1 ≤ i → i ≤ j → j ≤ MAX_DEPTH - 1 →
        ∃ a b : Int, h[i]? = some a ∧ h[j]? = some b ∧ a ≤ b := by
  obtain ⟨h, hu, _, hv⟩ := update_histogram_spec hist depth_data hd
  refine ⟨h, hu, ?_⟩
  intro i j hi hij hj
  have hjlt : j < MAX_DEPTH := by simp only [MAX_DEPTH] at hj ⊢; omega
  refine ⟨_, _, hv i (by omega), hv j hjlt, ?_⟩
  have hi0 : i ≠ 0 := by omega
  have hj0 : j ≠ 0 := by omega
  simp only [hist_value, hi0, hj0, if_false]
  exact_mod_cast count_upto_mono depth_data hij

theorem histogram_monotone_witness :
    (∀ d ∈ [0, 10, 10, 20, 65535], d < MAX_DEPTH) ∧
    ∃ h, update_histogram (mkArray MAX_DEPTH 7) [0, 10, 10, 20, 65535] = some h ∧
      ∀ i j, 1 ≤ i → i ≤ j → j ≤ MAX_DEPTH - 1 →
        ∃ a b : Int, h[i]? = some a ∧ h[j]? = some b ∧ a ≤ b :=
  ⟨by decide, histogram_monotone (mkArray MAX_DEPTH 7) [0, 10, 10, 20, 65535] (by decide)⟩

/-! ## Arithmetic of finite `float`s -/

@[simp] theorem add_fin (a b : ℚ) : Flt.add (Flt.fin a) (Flt.fin b) = Flt.fin (a + b) := rfl

@[simp] theorem sub_fin (a b : ℚ) : Flt.sub (Flt.fin a) (Flt.fin b) = Flt.fin (a - b) := by
  simp [Flt.sub, Flt.neg, sub_eq_add_neg]

@[simp] theorem mul_fin (a b : ℚ) : Flt.mul (Flt.fin a) (Flt.fin b) = Flt.fin (a * b) := rfl

@[simp] theorem lt_fin (a b : ℚ) : Flt.lt (Flt.fin a) (Flt.fin b) = decide (a < b) := rfl

theorem lt_of_lt_fin {a : Flt} {x y : ℚ} (h : Flt.lt a (Flt.fin x) = true) (hxy : x < y) :
    Flt.lt a (Flt.fin y) = true := by
  cases a <;> simp_all [Flt.lt]
  exact lt_trans h hxy

/-! ## The map that the constructor builds -/

theorem anchor_key_fin {n : Nat} (hn : 2 ≤ n) (i : Nat) :
    anchor_key n i = Flt.fin ((i : ℚ) / ((n - 1 : Nat) : ℚ)) := by
  have h : ((n - 1 : Nat) : ℚ) ≠ 0 := by
    have : n - 1 ≠ 0 := by omega
    exact_mod_cast this
  simp [anchor_key, Flt.ofNat, Flt.div, h]

theorem anchor_key_lt {n : Nat} (hn : 2 ≤ n) {i j : Nat} (hij : i < j) :
    (i : ℚ) / ((n - 1 : Nat) : ℚ) < (j : ℚ) / ((n - 1 : Nat) : ℚ) := by
  have h : (0 : ℚ) < ((n - 1 : Nat) : ℚ) := by
    have : 0 < n - 1 := by omega
    exact_mod_cast this
  apply div_lt_div_of_pos_right _ h
  exact_mod_cast hij

theorem map_assign_append (k : Flt) (v : float3) :
    ∀ m : FloatMap, (∀ p ∈ m, Flt.lt p.1 k = true) → map_assign k v m = m ++ [(k, v)] := by
  intro m
  induction m with
  | nil => intro _; rfl
  | cons p rest ih =>
    intro h
    have hp : Flt.lt p.1 k = true := h p (List.mem_cons_self _ _)
    simp only [map_assign, hp, if_true, List.cons_append]
    rw [ih (fun q hq => h q (List.mem_cons_of_mem _ hq))]

theorem fill_map_eq {n : Nat} (hn : 2 ≤ n) (vs : List float3) :
    ∀ (i : Nat) (m : FloatMap), (∀ p ∈ m, Flt.lt p.1 (anchor_key n i) = true) →
      fill_map n i vs m = m ++ anchors_from n i vs := by
  induction vs with
  | nil => intro i m _; simp [fill_map, anchors_from]
  | cons v rest ih =>
    intro i m h
    simp only [fill_map, anchors_from]
    rw [map_assign_append _ _ m h, ih (i + 1)]
    · simp
    · intro p hp
      rw [anchor_key_fin hn (i + 1)]
      rcases List.mem_append.1 hp with hp | hp
      · have := h p hp
        rw [anchor_key_fin hn i] at this
        exact lt_of_lt_fin this (anchor_key_lt hn (Nat.lt_succ_self i))
      · rw [List.mem_singleton] at hp
        subst hp
        rw [anchor_key_fin hn i]
        simpa using anchor_key_lt hn (Nat.lt_succ_self i)

theorem length_anchors_from (n : Nat) (vs : List float3) :
    ∀ i, (anchors_from n i vs).length = vs.length := by
  induction vs with
  | nil => intro i; rfl
  | cons v rest ih => intro i; simp [anchors_from, ih]

theorem getElem?_anchors_from (n : Nat) (vs : List float3) :
    ∀ i j, (anchors_from n i vs)[j]? = (vs[j]?).map (fun v => (anchor_key n (i + j), v)) := by
  induction vs with
  | nil => intro i j; simp [anchors_from]
  | cons v rest ih =>
    intro i j
    cases j with
    | zero => simp [anchors_from]
    | succ j =>
      simp only [anchors_from, List.getElem?_cons_succ]
      rw [ih (i + 1) j]
      have : i + 1 + j = i + (j + 1) := by omega
      rw [this]

theorem finiteKeys_anchors_from {n : Nat} (hn : 2 ≤ n) (vs : List float3) :
    ∀ i, FiniteKeys (anchors_from n i vs) := by
  induction vs with
  | nil => intro i p hp; simp [anchors_from] at hp
  | cons v rest ih =>
    intro i p hp
    simp only [anchors_from, List.mem_cons] at hp
    rcases hp with rfl | hp
    · exact ⟨_, anchor_key_fin hn i⟩
    · exact ih (i + 1) p hp

theorem mem_anchors_from {n : Nat} {vs : List float3} :
    ∀ {i : Nat} {p : Flt × float3}, p ∈ anchors_from n i vs → p.2 ∈ vs := by
  induction vs with
  | nil => intro i p hp; simp [anchors_from] at hp
  | cons v rest ih =>
    intro i p hp
    simp only [anchors_from, List.mem_cons] at hp
    rcases hp with rfl | hp
    · exact List.mem_cons_self _ _
    · exact List.mem_cons_of_mem _ (ih hp)

theorem find_le (m : FloatMap) (v : Flt) : find m v ≤ m.length := by
  unfold find
  split
  · rename_i p hp
    split
    · exact le_rfl
    · exact (List.getElem?_eq_some_iff.1 hp).1.le
  · exact le_rfl

theorem find_end {m : FloatMap} {v : Flt} (h : find m v = m.length) :
    lower_bound m v = m.length ∨
      ∃ p, m[lower_bound m v]? = some p ∧ Flt.lt v p.1 = true := by
  unfold find at h
  split at h
  · rename_i p hp
    split at h
    · rename_i hlt
      exact Or.inr ⟨p, hp, hlt⟩
    · exact Or.inl h
  · rename_i hnone
    left
    have h1 : m.length ≤ lower_bound m v := by
      by_contra hc
      rw [List.getElem?_eq_getElem (by omega)] at hnone
      exact absurd hnone (by simp)
    exact le_antisymm (List.findIdx_le_length _) h1

/-- The value of `calc` on a non-empty map with finite keys at a finite
argument: the colour of an entry, or the interpolation of two entries at a
fraction in `[0, 1]`. -/
theorem calc_cases (m : FloatMap) (hm : m ≠ []) (hk : FiniteKeys m) (x : ℚ) :
    (∃ p ∈ m, ColorMap_calc m (Flt.fin x) = some p.2) ∨
    (∃ a ∈ m, ∃ b ∈ m, ∃ t : ℚ, 0 ≤ t ∧ t ≤ 1 ∧
      ColorMap_calc m (Flt.fin x) = some (lerp a.2 b.2 (Flt.fin t))) := by
  have hlen : m.length ≠ 0 := by simpa using hm
  unfold ColorMap_calc
  simp only [hlen, if_false]
  by_cases hfind : find m (Flt.fin x) = m.length
  · simp only [hfind, ne_eq, not_true_eq_false, if_false]
    obtain ⟨first, hfirst⟩ : ∃ first, m.head? = some first := by
      cases m with
      | nil => exact absurd rfl hm
      | cons a l => exact ⟨a, rfl⟩
    obtain ⟨last, hlast⟩ : ∃ last, m.getLast? = some last := by
      cases h : m.getLast? with
      | none => exact absurd (List.getLast?_eq_none_iff.1 h) hm
      | some a => exact ⟨a, rfl⟩
    have hfmem : first ∈ m := List.mem_of_mem_head? hfirst
    have hlmem : last ∈ m := List.mem_of_mem_getLast? hlast
    simp only [hfirst, hlast, Option.bind_eq_bind, Option.some_bind]
    by_cases h1 : Flt.lt (Flt.fin x) first.1 = true
    · simp only [h1, if_true]
      exact Or.inl ⟨first, hfmem, rfl⟩
    simp only [h1, if_false]
    by_cases h2 : Flt.lt last.1 (Flt.fin x) = true
    · simp only [h2, if_true]
      exact Or.inl ⟨last, hlmem, rfl⟩
    simp only [h2, if_false]
    right
    rcases find_end hfind with hlb | ⟨p, hp, hplt⟩
    · exfalso
      have := (List.findIdx_eq_length.1 hlb) last hlmem
      simp only [Bool.not_eq_false'] at this
      exact h2 this
    · have hlblt : lower_bound m (Flt.fin x) < m.length := (List.getElem?_eq_some_iff.1 hp).1
      have hpmem : p ∈ m := by
        obtain ⟨h, rfl⟩ := List.getElem?_eq_some_iff.1 hp
        exact List.getElem_mem _
      have hublt : upper_bound m (Flt.fin x) < m.length :=
        List.findIdx_lt_length_of_exists ⟨p, hpmem, hplt⟩
      have hub : Flt.lt (Flt.fin x) (m[upper_bound m (Flt.fin x)]).1 = true :=
        @List.findIdx_getElem _ (fun q : Flt × float3 => Flt.lt (Flt.fin x) q.1) m hublt
      have hlolt : (if lower_bound m (Flt.fin x) = 0 then 0 else lower_bound m (Flt.fin x) - 1)
          < m.length := by
        split <;> omega
      obtain ⟨ka, hka⟩ := hk _ (List.getElem_mem hlolt)
      obtain ⟨kb, hkb⟩ := hk _ (List.getElem_mem hublt)
      obtain ⟨kf, hkf⟩ := hk _ hfmem
      have hxb : x < kb := by simpa [hkb] using hub
      have hax : ka ≤ x := by
        by_cases h0 : lower_bound m (Flt.fin x) = 0
        · have hidx : m[if lower_bound m (Flt.fin x) = 0 then 0
              else lower_bound m (Flt.fin x) - 1]? = some first := by
            simp only [h0, if_true]
            rw [← List.head?_eq_getElem?]
            exact hfirst
          rw [List.getElem?_eq_getElem hlolt] at hidx
          have hfk : ka = kf := by
            have h3 := congrArg Prod.fst (Option.some.inj hidx)
            rw [hka, hkf] at h3
            exact Flt.fin.inj h3
          rw [hkf] at h1
          simp only [lt_fin, decide_eq_true_eq, not_lt] at h1
          rw [hfk]
          exact h1
        · have hlt : lower_bound m (Flt.fin x) - 1 < lower_bound m (Flt.fin x) := by omega
          have h3 := @List.not_of_lt_findIdx _ (fun q : Flt × float3 => !(Flt.lt q.1 (Flt.fin x)))
            m _ hlt
          simp only [h0, if_false] at hka
          simp only [Bool.not_eq_false'] at h3
          rw [hka] at h3
          simp only [lt_fin, decide_eq_true_eq] at h3
          exact h3.le
      refine ⟨_, List.getElem_mem hlolt, _, List.getElem_mem hublt, (x - ka) / (kb - ka),
        div_nonneg (by linarith) (by linarith), ?_, ?_⟩
      · rw [div_le_one (by linarith)]
        linarith
      · rw [List.getElem?_eq_getElem hlolt, List.getElem?_eq_getElem hublt]
        simp only [Option.some_bind, hka, hkb, sub_fin]
        rw [div_fin_of_ne (by linarith)]
        simp
  · have hlt : find m (Flt.fin x) < m.length := lt_of_le_of_ne (find_le m _) hfind
    simp only [ne_eq, hfind, not_false_eq_true, if_true]
    left
    refine ⟨m[find m (Flt.fin x)], List.getElem_mem hlt, ?_⟩
    simp [map_at, List.getElem?_eq_getElem hlt]

/-! ## The range of interpolated colours -/

theorem within_fin {lo hi : ℚ} {f : Flt} (h : Flt.within lo hi f = true) :
    ∃ q, f = Flt.fin q ∧ lo ≤ q ∧ q ≤ hi := by
  cases f <;> simp_all [Flt.within]

theorem lerp_channel_within {lo hi a b t : ℚ} (ha : lo ≤ a ∧ a ≤ hi) (hb : lo ≤ b ∧ b ≤ hi)
    (h0 : 0 ≤ t) (h1 : t ≤ 1) : lo ≤ b * t + a * (1 - t) ∧ b * t + a * (1 - t) ≤ hi := by
  constructor
  · nlinarith [mul_nonneg h0 (sub_nonneg.2 hb.1), mul_nonneg (sub_nonneg.2 h1) (sub_nonneg.2 ha.1)]
  · nlinarith [mul_nonneg h0 (sub_nonneg.2 hb.2), mul_nonneg (sub_nonneg.2 h1) (sub_nonneg.2 ha.2)]

theorem lerp_within {lo hi : ℚ} {a b : float3} {t : ℚ} (ha : a.within lo hi = true)
    (hb : b.within lo hi = true) (h0 : 0 ≤ t) (h1 : t ≤ 1) :
    (lerp a b (Flt.fin t)).within lo hi = true := by
  simp only [float3.within, Bool.and_eq_true] at ha hb
  obtain ⟨⟨hax, hay⟩, haz⟩ := ha
  obtain ⟨⟨hbx, hby⟩, hbz⟩ := hb
  obtain ⟨ax, eax, hax⟩ := within_fin hax
  obtain ⟨ay, eay, hay⟩ := within_fin hay
  obtain ⟨az, eaz, haz⟩ := within_fin haz
  obtain ⟨bx, ebx, hbx⟩ := within_fin hbx
  obtain ⟨bz, ebz, hbz⟩ := within_fin hbz
  obtain ⟨bY, eby, hby⟩ := within_fin hby
  simp only [lerp, float3.add, float3.smul, float3.within, eax, eay, eaz, ebx, eby, ebz,
    Flt.ofInt, sub_fin, mul_fin, add_fin, Flt.within, Bool.and_eq_true, decide_eq_true_eq,
    Int.cast_one]
  exact ⟨⟨lerp_channel_within hax hbx h0 h1, lerp_channel_within hay hby h0 h1⟩,
    lerp_channel_within haz hbz h0 h1⟩

/-- On a non-empty map with finite keys whose colours lie in `[lo, hi]`, `calc`
has a result at every finite argument, and the result lies in `[lo, hi]`. -/
theorem calc_within (m : FloatMap) (hm : m ≠ []) (hk : FiniteKeys m) {lo hi : ℚ}
    (hc : ∀ p ∈ m, p.2.within lo hi = true) (x : ℚ) :
    ∃ c, ColorMap_calc m (Flt.fin x) = some c ∧ c.within lo hi = true := by
  rcases calc_cases m hm hk x with ⟨p, hp, h⟩ | ⟨a, ha, b, hb, t, h0, h1, h⟩
  · exact ⟨_, h, hc p hp⟩
  · exact ⟨_, h, lerp_within (hc a ha) (hc b hb) h0 h1⟩

/-! ## The cache -/

theorem mapM_option {α β : Type} (f : α → Option β) :
    ∀ l : List α, (∀ a ∈ l, ∃ b, f a = some b) →
      ∃ bs, l.mapM f = some bs ∧ bs.length = l.length ∧ ∀ i : Nat, bs[i]? = (l[i]?).bind f := by
  intro l
  induction l with
  | nil => intro _; exact ⟨[], rfl, rfl, by simp⟩
  | cons a rest ih =>
    intro h
    obtain ⟨b, hb⟩ := h a (List.mem_cons_self _ _)
    obtain ⟨bs, hbs, hlen, hget⟩ := ih (fun x hx => h x (List.mem_cons_of_mem _ hx))
    refine ⟨b :: bs, ?_, by simp [hlen], ?_⟩
    · rw [List.mapM_cons, hb, hbs]
      rfl
    · intro i
      cases i with
      | zero => simp [hb]
      | succ i => simpa using hget i

theorem initialize_cache_eq (cm : ColorMap) (steps : Nat) {first last : Flt × float3}
    (h1 : cm.map_.head? = some first) (h2 : cm.map_.getLast? = some last) :
    cm.initialize_cache steps =
      { cm with
        min_ := some first.1
        max_ := some last.1
        cache_ := (List.range (steps + 1)).mapM (cache_entry cm.map_ first.1 last.1 steps)
        size_ := some (steps + 1)
        data_ := (List.range (steps + 1)).mapM (cache_entry cm.map_ first.1 last.1 steps) } := by
  simp [ColorMap.initialize_cache, h1, h2]

theorem head?_anchors (values : List float3) (hn : 2 ≤ values.length) :
    ∃ v, values[0]? = some v ∧
      (anchors_from values.length 0 values).head? = some (Flt.fin 0, v) := by
  cases values with
  | nil => simp at hn
  | cons v rest =>
    refine ⟨v, by simp, ?_⟩
    simp only [anchors_from, List.head?_cons]
    rw [anchor_key_fin hn 0]
    simp

theorem getLast?_anchors (values : List float3) (hn : 2 ≤ values.length) :
    ∃ v, values[values.length - 1]? = some v ∧
      (anchors_from values.length 0 values).getLast? = some (Flt.fin 1, v) := by
  have hlt : values.length - 1 < values.length := by omega
  refine ⟨values[values.length - 1], List.getElem?_eq_getElem hlt, ?_⟩
  rw [List.getLast?_eq_getElem?, length_anchors_from, getElem?_anchors_from,
    List.getElem?_eq_getElem hlt]
  simp only [Option.map_some', zero_add]
  rw [anchor_key_fin hn]
  have h : ((values.length - 1 : Nat) : ℚ) ≠ 0 := by
    have : values.length - 1 ≠ 0 := by omega
    exact_mod_cast this
  rw [div_self h]

theorem clamp01_nonneg (q : ℚ) : 0 ≤ clamp01 q := by
  simp [clamp01]

theorem clamp01_le_one (q : ℚ) : clamp01 q ≤ 1 := by
  simp [clamp01]

theorem clamp_val_fin (q : ℚ) :
    clamp_val (Flt.fin q) (Flt.ofInt 0) (Flt.ofInt 1) = Flt.fin (clamp01 q) := by
  simp only [clamp_val, std_min, std_max, Flt.ofInt, Int.cast_zero, Int.cast_one, lt_fin,
    decide_eq_true_eq, clamp01]
  by_cases h0 : q < 0
  · have h1 : ¬ (1 : ℚ) < 0 := by norm_num
    simp [h0, h1, max_eq_right h0.le]
  · simp only [h0, if_false]
    rw [max_eq_left (not_lt.1 h0)]
    by_cases h1 : 1 < q
    · simp [h1, min_eq_right h1.le]
    · simp [h1, min_eq_left (not_lt.1 h1)]

theorem slot_le (steps : Nat) (q : ℚ) : slot steps q ≤ steps := by
  unfold slot
  have h1 : clamp01 q * (steps : ℚ) ≤ (steps : ℚ) := by
    have := clamp01_le_one q
    have hs : (0 : ℚ) ≤ (steps : ℚ) := Nat.cast_nonneg _
    nlinarith
  have h2 : ⌊clamp01 q * (steps : ℚ)⌋ ≤ (steps : Int) := by
    have := Int.floor_le_floor h1
    simpa using this
  omega

theorem floor_slot_nonneg (steps : Nat) (q : ℚ) : 0 ≤ ⌊clamp01 q * (steps : ℚ)⌋ := by
  rw [Int.floor_nonneg]
  exact mul_nonneg (clamp01_nonneg q) (Nat.cast_nonneg _)

/-- The lookup `get` on a gradient whose keys span `[0, 1]` reads slot `slot steps q`. -/
theorem get_of_fields (cm : ColorMap) (steps : Nat) (cache : List float3)
    (hmax : cm.max_ = some (Flt.fin 1)) (hmin : cm.min_ = some (Flt.fin 0))
    (hsize : cm.size_ = some (steps + 1)) (hdata : cm.data_ = some cache)
    (hs : steps < 2147483647) (q : ℚ) :
    cm.get (Flt.fin q) = cache[slot steps q]? := by
  have h0 := floor_slot_nonneg steps q
  have hle := slot_le steps q
  have htr : Flt.trunc (clamp01 q * (steps : ℚ)) = ⌊clamp01 q * (steps : ℚ)⌋ := by
    have : 0 ≤ clamp01 q * (steps : ℚ) := mul_nonneg (clamp01_nonneg q) (Nat.cast_nonneg _)
    simp [Flt.trunc, this]
  have hcast : Flt.toInt (Flt.fin (clamp01 q * (steps : ℚ))) = some ⌊clamp01 q * (steps : ℚ)⌋ := by
    simp only [Flt.toInt, htr]
    rw [if_pos]
    unfold slot at hle
    omega
  have heq : Flt.eq (Flt.fin 1) (Flt.fin 0) = false := by
    simp [Flt.eq]
  simp only [ColorMap.get, hmax, hmin, hsize, hdata, heq, Option.bind_eq_bind, Option.some_bind,
    sub_fin, sub_zero, Bool.false_eq_true, if_false, Nat.add_sub_cancel, Flt.ofNat]
  rw [div_fin_of_ne one_ne_zero, div_one, clamp_val_fin, mul_fin, hcast]
  simp only [Option.some_bind, h0, if_true, slot]

theorem cache_entry_eq (m : FloatMap) {steps : Nat} (hs : 1 ≤ steps) (i : Nat) :
    cache_entry m (Flt.fin 0) (Flt.fin 1) steps i =
      ColorMap_calc m (Flt.fin ((i : ℚ) / (steps : ℚ))) := by
  have h : (steps : ℚ) ≠ 0 := by
    have : steps ≠ 0 := by omega
    exact_mod_cast this
  simp [cache_entry, Flt.ofNat, div_fin_of_ne h]

/-- The members of a gradient built from at least two colours. -/
theorem new_eq (values : List float3) (steps : Nat) (hn : 2 ≤ values.length) :
    ColorMap.new values steps =
      { map_ := anchors_from values.length 0 values
        min_ := some (Flt.fin 0)
        max_ := some (Flt.fin 1)
        cache_ := (List.range (steps + 1)).mapM
          (cache_entry (anchors_from values.length 0 values) (Flt.fin 0) (Flt.fin 1) steps)
        size_ := some (steps + 1)
        data_ := (List.range (steps + 1)).mapM
          (cache_entry (anchors_from values.length 0 values) (Flt.fin 0) (Flt.fin 1) steps) } := by
  have h := fill_map_eq hn values 0 [] (by simp)
  simp only [List.nil_append] at h
  obtain ⟨v0, _, hhead⟩ := head?_anchors values hn
  obtain ⟨v1, _, hlast⟩ := getLast?_anchors values hn
  unfold ColorMap.new
  rw [h, initialize_cache_eq _ steps hhead hlast]

theorem anchors_ne_nil {values : List float3} (hn : 2 ≤ values.length) :
    anchors_from values.length 0 values ≠ [] := by
  intro h
  have := length_anchors_from values.length values 0
  rw [h] at this
  simp at this
  omega

/-- The cache of a gradient built from at least two colours with at least one
step: slot `i` holds `calc` at the key `i / steps`. -/
theorem cache_slots (values : List float3) (steps : Nat) (hn : 2 ≤ values.length)
    (hs : 1 ≤ steps) :
    ∃ cache, (ColorMap.new values steps).data_ = some cache ∧ cache.length = steps + 1 ∧
      ∀ i, i ≤ steps →
        cache[i]? = ColorMap_calc (anchors_from values.length 0 values)
          (Flt.fin ((i : ℚ) / (steps : ℚ))) ∧ (cache[i]?).isSome = true := by
  have hk := finiteKeys_anchors_from hn values 0
  have hm := anchors_ne_nil hn
  have hall : ∀ a ∈ List.range (steps + 1), ∃ b,
      cache_entry (anchors_from values.length 0 values) (Flt.fin 0) (Flt.fin 1) steps a = some b := by
    intro a _
    rw [cache_entry_eq _ hs]
    rcases calc_cases _ hm hk ((a : ℚ) / (steps : ℚ)) with ⟨p, _, h⟩ | ⟨a, _, b, _, t, _, _, h⟩
    · exact ⟨_, h⟩
    · exact ⟨_, h⟩
  obtain ⟨cache, hc, hlen, hget⟩ := mapM_option _ _ hall
  refine ⟨cache, ?_, by simpa using hlen, ?_⟩
  · rw [new_eq values steps hn]
    exact hc
  · intro i hi
    have hlt : i < steps + 1 := by omega
    have h1 : cache[i]? = ColorMap_calc (anchors_from values.length 0 values)
        (Flt.fin ((i : ℚ) / (steps : ℚ))) := by
      rw [hget i, List.getElem?_range hlt, Option.some_bind, cache_entry_eq _ hs]
    refine ⟨h1, ?_⟩
    have hlt2 : i < cache.length := by rw [hlen]; simpa using hlt
    rw [List.getElem?_eq_getElem hlt2]
    rfl

/-- The lookup of a gradient built from at least two colours with at least one
step, at a finite argument: `calc` at the quantized key. -/
theorem get_eq_calc (values : List float3) (steps : Nat) (hn : 2 ≤ values.length)
    (hs : 1 ≤ steps) (hs2 : steps < 2147483647) (q : ℚ) :
    (ColorMap.new values steps).get (Flt.fin q) =
      ColorMap_calc (anchors_from values.length 0 values)
        (Flt.fin ((slot steps q : ℚ) / (steps : ℚ))) ∧
    ((ColorMap.new values steps).get (Flt.fin q)).isSome = true := by
  obtain ⟨cache, hdata, _, hslots⟩ := cache_slots values steps hn hs
  have hget : (ColorMap.new values steps).get (Flt.fin q) = cache[slot steps q]? := by
    apply get_of_fields _ steps cache _ _ _ hdata hs2
    · rw [new_eq values steps hn]
    · rw [new_eq values steps hn]
    · rw [new_eq values steps hn]
  obtain ⟨h1, h2⟩ := hslots (slot steps q) (slot_le steps q)
  rw [hget]
  exact ⟨h1, h2⟩

theorem key_anchors (n : Nat) (values : List float3) (k i : Nat)
    (h : i < (anchors_from n k values).length) :
    (anchors_from n k values)[i].1 = anchor_key n (k + i) := by
  have h1 := getElem?_anchors_from n values k i
  have h2 : i < values.length := by rwa [length_anchors_from] at h
  rw [List.getElem?_eq_getElem h, List.getElem?_eq_getElem h2] at h1
  simp only [Option.map_some'] at h1
  rw [Option.some.inj h1]

/-- At the key of colour `j`, `calc` returns colour `j`. -/
theorem calc_at_anchor (values : List float3) (hn : 2 ≤ values.length) (j : Nat)
    (hj : j < values.length) :
    ColorMap_calc (anchors_from values.length 0 values) (anchor_key values.length j) =
      values[j]? := by
  have hlen := length_anchors_from values.length values 0
  have hjm : j < (anchors_from values.length 0 values).length := by rw [hlen]; exact hj
  have hlb : lower_bound (anchors_from values.length 0 values) (anchor_key values.length j) = j := by
    unfold lower_bound
    rw [List.findIdx_eq hjm]
    constructor
    · rw [key_anchors, zero_add, anchor_key_fin hn]
      simp
    · intro i hij
      rw [key_anchors, zero_add, anchor_key_fin hn, anchor_key_fin hn]
      simpa using anchor_key_lt hn hij
  have hfind : find (anchors_from values.length 0 values) (anchor_key values.length j) = j := by
    unfold find
    rw [hlb, List.getElem?_eq_getElem hjm]
    have : Flt.lt (anchor_key values.length j)
        ((anchors_from values.length 0 values)[j]).1 = false := by
      rw [key_anchors, zero_add, anchor_key_fin hn]
      simp
    simp only [this]
    simp
  have hne : (anchors_from values.length 0 values).length ≠ 0 := by omega
  unfold ColorMap_calc
  simp only [hne, if_false, hfind]
  have hne2 : j ≠ (anchors_from values.length 0 values).length := by omega
  simp only [ne_eq, hne2, not_false_eq_true, if_true, map_at, hfind]
  rw [getElem?_anchors_from]
  cases values[j]? <;> simp

theorem calc_nan (m : FloatMap) (first : Flt × float3) (h : m.head? = some first) :
    ColorMap_calc m Flt.nan = some first.2 := by
  cases m with
  | nil => simp at h
  | cons a rest =>
    simp only [List.head?_cons, Option.some.injEq] at h
    subst h
    have hlb : lower_bound (a :: rest) Flt.nan = 0 := by
      cases ha : a.1 <;> simp [lower_bound, List.findIdx_cons, Flt.lt, ha]
    have hlt : Flt.lt Flt.nan a.1 = false := by
      cases ha : a.1 <;> simp [Flt.lt]
    have hfind : find (a :: rest) Flt.nan = 0 := by
      simp [find, hlb, hlt]
    simp [ColorMap_calc, map_at, hfind]

/-- With `steps = 0` the only cache slot is computed at the key `0/0`, and
every finite query reads it: the lookup returns the first colour. -/
theorem get_zero_steps (values : List float3) (hn : 2 ≤ values.length) (q : ℚ) :
    (ColorMap.new values 0).get (Flt.fin q) = values.head? := by
  obtain ⟨v0, hv0, hhead⟩ := head?_anchors values hn
  have hentry : cache_entry (anchors_from values.length 0 values) (Flt.fin 0) (Flt.fin 1) 0 0
      = some v0 := by
    have hx : Flt.add (Flt.fin 0) (Flt.mul (Flt.div (Flt.ofNat 0) (Flt.ofNat 0))
        (Flt.sub (Flt.fin 1) (Flt.fin 0))) = Flt.nan := by
      simp [Flt.ofNat, Flt.div, Flt.mul, Flt.add]
    simp only [cache_entry, hx]
    exact calc_nan _ _ hhead
  have hdata : (ColorMap.new values 0).data_ = some [v0] := by
    rw [new_eq values 0 hn]
    show List.mapM _ (List.range (0 + 1)) = _
    rw [show List.range (0 + 1) = [0] from rfl, List.mapM_cons, List.mapM_nil, hentry]
    rfl
  have hslot : slot 0 q = 0 := by simp [slot]
  rw [get_of_fields _ 0 [v0] _ _ _ hdata (by norm_num) q, hslot, List.head?_eq_getElem?, hv0]
  · simp
  · rw [new_eq values 0 hn]
  · rw [new_eq values 0 hn]
  · rw [new_eq values 0 hn]

theorem slot_zero (steps : Nat) : slot steps 0 = 0 := by
  simp [slot, clamp01]

theorem slot_one (steps : Nat) : slot steps 1 = steps := by
  simp [slot, clamp01]

/-- C8 (amended).  For every gradient built from at least two colours with
`1 ≤ steps ≤ 2^24` (the range in which `size_ - 1` converts to `float`
exactly), the lookup `get` returns the first colour at 0.0 and the last colour
at 1.0. -/
theorem sample_endpoints (values : List float3) (steps : Nat) (hn : 2 ≤ values.length)
    (hs : 1 ≤ steps) (hs3 : steps ≤ 16777216) :
    ∃ first last, values.head? = some first ∧ values.getLast? = some last ∧
      (ColorMap.new values steps).get (Flt.fin 0) = some first ∧
      (ColorMap.new values steps).get (Flt.fin 1) = some last := by
  have hsq : (steps : ℚ) ≠ 0 := by
    have : steps ≠ 0 := by omega
    exact_mod_cast this
  have hs2 : steps < 2147483647 := by omega
  have h0lt : 0 < values.length := by omega
  have h1lt : values.length - 1 < values.length := by omega
  refine ⟨values[0], values[values.length - 1], ?_, ?_, ?_, ?_⟩
  · rw [List.head?_eq_getElem?, List.getElem?_eq_getElem h0lt]
  · rw [List.getLast?_eq_getElem?, List.getElem?_eq_getElem h1lt]
  · rw [(get_eq_calc values steps hn hs hs2 0).1, slot_zero]
    have hkey : Flt.fin (((0 : Nat) : ℚ) / (steps : ℚ)) = anchor_key values.length 0 := by
      rw [anchor_key_fin hn]; simp
    rw [hkey, calc_at_anchor values hn 0 h0lt, List.getElem?_eq_getElem h0lt]
  · rw [(get_eq_calc values steps hn hs hs2 1).1, slot_one]
    have hkey : Flt.fin ((steps : ℚ) / (steps : ℚ)) = anchor_key values.length (values.length - 1) := by
      rw [anchor_key_fin hn, div_self hsq, div_self]
      have : values.length - 1 ≠ 0 := by omega
      exact_mod_cast this
    rw [hkey, calc_at_anchor values hn _ h1lt, List.getElem?_eq_getElem h1lt]

theorem sample_endpoints_witness :
    2 ≤ [rgb 255 0 0, rgb 0 0 255].length ∧ 1 ≤ 4000 ∧ 4000 ≤ 16777216 ∧
    ∃ first last, [rgb 255 0 0, rgb 0 0 255].head? = some first ∧
      [rgb 255 0 0, rgb 0 0 255].getLast? = some last ∧
      (ColorMap.new [rgb 255 0 0, rgb 0 0 255] 4000).get (Flt.fin 0) = some first ∧
      (ColorMap.new [rgb 255 0 0, rgb 0 0 255] 4000).get (Flt.fin 1) = some last :=
  ⟨by decide, by decide, by decide,
    sample_endpoints [rgb 255 0 0, rgb 0 0 255] 4000 (by decide) (by decide) (by decide)⟩

/-- C8, as stated, fails for a gradient built with `steps = 0`: the red-to-blue
gradient returns red, its first colour, at 1.0. -/
theorem sample_endpoints_zero_steps :
    (ColorMap.new [rgb 255 0 0, rgb 0 0 255] 0).get (Flt.fin 1) = some (rgb 255 0 0) ∧
    (ColorMap.new [rgb 255 0 0, rgb 0 0 255] 0).get (Flt.fin 1) ≠
      [rgb 255 0 0, rgb 0 0 255].getLast? := by
  have h := get_zero_steps [rgb 255 0 0, rgb 0 0 255] (by decide) 1
  rw [h]
  exact ⟨rfl, by decide⟩

/-- C9.  For a gradient built from one colour the key `0 / 0` is NaN, so
`min_` and `max_` are NaN, the test `max_ == min_` fails, and the cache index
is the conversion of NaN to `int`: the lookup has no defined result, for
every colour, every number of steps and every query. -/
theorem single_colour_lookup (c : float3) (steps : Nat) (t : Flt) :
    (ColorMap.new [c] steps).min_ = some Flt.nan ∧
    (ColorMap.new [c] steps).max_ = some Flt.nan ∧
    (ColorMap.new [c] steps).get t = none := by
  refine ⟨by simp [ColorMap.new, fill_map, map_assign, ColorMap.initialize_cache, anchor_key,
    Flt.div, Flt.ofNat], by simp [ColorMap.new, fill_map, map_assign,
    ColorMap.initialize_cache, anchor_key, Flt.div, Flt.ofNat], ?_⟩
  cases t <;>
    simp [ColorMap.new, fill_map, map_assign, ColorMap.initialize_cache, ColorMap.get, anchor_key,
      Flt.div, Flt.ofNat, Flt.eq, Flt.sub, Flt.add, Flt.neg, clamp_val, std_min, std_max, Flt.lt,
      Flt.mul, Flt.toInt]

/-- C10.  For a gradient built from no colour `initialize` returns before it
sets `min_`, `max_`, `size_` and `data_`, and `get` reads them: the lookup has
no defined result, although `calc` on the empty map returns `(t, t, t)`. -/
theorem empty_gradient_lookup (steps : Nat) (t : Flt) :
    (ColorMap.new [] steps).get t = none ∧
    (ColorMap.new [] steps).max_ = none ∧
    ColorMap_calc (ColorMap.new [] steps).map_ t = some ⟨t, t, t⟩ :=
  ⟨rfl, rfl, rfl⟩

/-! ## Writing the pixels -/

theorem write3 (rgb : List Byte) (off : Nat) (b0 b1 b2 : Byte) (h : off + 3 ≤ rgb.length) :
    (do
      let r0 ← write_byte rgb off b0
      let r1 ← write_byte r0 (off + 1) b1
      write_byte r1 (off + 2) b2) = some (rgb.take off ++ [b0, b1, b2] ++ rgb.drop (off + 3)) := by
  have h0 : off < rgb.length := by omega
  have h1 : off + 1 < (rgb.set off b0).length := by rw [List.length_set]; omega
  have h2 : off + 2 < ((rgb.set off b0).set (off + 1) b1).length := by
    rw [List.length_set, List.length_set]; omega
  simp only [write_byte, h0, h1, h2, if_true, Option.bind_eq_bind, Option.some_bind,
    Option.some.injEq]
  apply List.ext_getElem?
  intro i
  simp only [List.getElem?_set, List.length_set, List.getElem?_append, List.length_take,
    List.getElem?_take, List.getElem?_drop, List.length_append, List.length_cons,
    List.length_nil, List.getElem?_cons]
  have hm : min off rgb.length = off := by omega
  simp only [hm]
  by_cases c0 : i < off
  · have e1 : off + 2 ≠ i := by omega
    have e2 : off + 1 ≠ i := by omega
    have e3 : off ≠ i := by omega
    have e4 : i < off + (0 + 1 + 1 + 1) := by omega
    simp [c0, e1, e2, e3, e4]
  · by_cases c1 : i = off
    · subst c1
      simp [h0]
    · by_cases c2 : i = off + 1
      · subst c2
        simp
        omega
      · by_cases c3 : i = off + 2
        · subst c3
          simp
          omega
        · have e1 : off + 2 ≠ i := by omega
          have e2 : off + 1 ≠ i := by omega
          have e3 : off ≠ i := by omega
          have e4 : ¬ i < off + (0 + 1 + 1 + 1) := by omega
          simp only [e1, e2, e3, e4, c0, if_false]
          congr 1
          omega

theorem length_pixel_rgb {cm : ColorMap} {h : Array Int} {d : Nat} {px : List Byte}
    (hpx : pixel_rgb cm h d = some px) : px.length = 3 := by
  unfold pixel_rgb at hpx
  split at hpx
  · simp only [Option.bind_eq_bind, Option.bind_eq_some] at hpx
    obtain ⟨_, _, _, _, _, _, _, _, _, _, hpx⟩ := hpx
    rw [← Option.some.inj hpx]
    rfl
  · rw [← Option.some.inj hpx]
    rfl

theorem colorize_pixel_eq (cm : ColorMap) (h : Array Int) (d : Nat) (rgb : List Byte)
    (off : Nat) (hoff : off + 3 ≤ rgb.length) :
    colorize_pixel d rgb off cm h =
      (pixel_rgb cm h d).map (fun px => rgb.take off ++ px ++ rgb.drop (off + 3)) := by
  unfold colorize_pixel pixel_rgb
  by_cases hd : d ≠ 0
  · rw [if_pos hd, if_pos hd]
    simp only [Option.bind_eq_bind]
    cases coloring_function h (Flt.ofNat d) with
    | none => rfl
    | some f =>
      simp only [Option.some_bind]
      cases cm.get f with
      | none => rfl
      | some c =>
        simp only [Option.some_bind]
        cases Flt.toUInt8 c.x with
        | none => rfl
        | some r =>
          simp only [Option.some_bind]
          cases hg : Flt.toUInt8 c.y with
          | none =>
            have h0 : off < rgb.length := by omega
            simp [write_byte, h0]
          | some g =>
            cases hb : Flt.toUInt8 c.z with
            | none =>
              have h0 : off < rgb.length := by omega
              have h1 : off + 1 < rgb.length := by omega
              simp [write_byte, h0, h1]
            | some b =>
              have := write3 rgb off r g b hoff
              simp only [Option.bind_eq_bind] at this
              simp only [Option.some_bind, Option.map_some']
              cases hw : write_byte rgb off r with
              | none => rw [hw] at this; simp at this
              | some r0 =>
                rw [hw] at this
                simp only [Option.some_bind] at this ⊢
                cases hw1 : write_byte r0 (off + 1) g with
                | none => rw [hw1] at this; simp at this
                | some r1 =>
                  rw [hw1] at this
                  simp only [Option.some_bind] at this ⊢
                  exact this
  · rw [if_neg hd, if_neg hd]
    simp only [Option.map_some']
    exact write3 rgb off 0 0 0 hoff

theorem length_frame_rgb (cm : ColorMap) (h : Array Int) :
    ∀ (ds : List Nat) (out : List Byte), frame_rgb cm h ds = some out →
      out.length = 3 * ds.length := by
  intro ds
  induction ds with
  | nil => intro out ho; simp [frame_rgb] at ho; subst ho; rfl
  | cons d rest ih =>
    intro out ho
    simp only [frame_rgb, Option.bind_eq_bind, Option.bind_eq_some] at ho
    obtain ⟨px, hpx, o, hout, ho⟩ := ho
    rw [← Option.some.inj ho, List.length_append, ih o hout, length_pixel_rgb hpx,
      List.length_cons]
    omega

/-- The loop of `make_rgb_data` overwrites the bytes of its pixels and nothing
else. -/
theorem make_rgb_loop_eq (cm : ColorMap) (h : Array Int) :
    ∀ (ds : List Nat) (i : Nat) (rgb : List Byte), 3 * (i + ds.length) ≤ rgb.length →
      make_rgb_loop cm h ds i rgb =
        (frame_rgb cm h ds).map
          (fun out => rgb.take (3 * i) ++ out ++ rgb.drop (3 * (i + ds.length))) := by
  intro ds
  induction ds with
  | nil =>
    intro i rgb _
    simp [make_rgb_loop, frame_rgb]
  | cons d rest ih =>
    intro i rgb hlen
    simp only [List.length_cons] at hlen
    simp only [make_rgb_loop, frame_rgb, Option.bind_eq_bind]
    rw [colorize_pixel_eq cm h d rgb (3 * i) (by omega)]
    cases hpx : pixel_rgb cm h d with
    | none => rfl
    | some px =>
      have hpl := length_pixel_rgb hpx
      simp only [Option.map_some', Option.some_bind]
      have hl2 : (List.take (3 * i) rgb ++ px ++ List.drop (3 * i + 3) rgb).length = rgb.length := by
        simp only [List.length_append, List.length_take, List.length_drop, hpl]
        omega
      rw [ih (i + 1) _ (by rw [hl2]; omega)]
      cases hout : frame_rgb cm h rest with
      | none => rfl
      | some out =>
        simp only [Option.map_some', Option.some_bind, Option.some.injEq, List.length_cons]
        have e1 : List.take (3 * (i + 1)) (List.take (3 * i) rgb ++ px ++ List.drop (3 * i + 3) rgb)
            = List.take (3 * i) rgb ++ px := by
          rw [List.take_append_eq_append_take]
          have hl3 : (List.take (3 * i) rgb ++ px).length = 3 * (i + 1) := by
            simp only [List.length_append, List.length_take, hpl]; omega
          rw [hl3, Nat.sub_self, List.take_zero, List.append_nil, ← hl3, List.take_length]
        have e2 : List.drop (3 * (i + 1 + rest.length))
            (List.take (3 * i) rgb ++ px ++ List.drop (3 * i + 3) rgb)
            = List.drop (3 * (i + (rest.length + 1))) rgb := by
          have hl3 : (List.take (3 * i) rgb ++ px).length = 3 * (i + 1) := by
            simp only [List.length_append, List.length_take, hpl]; omega
          rw [List.drop_append_eq_append_drop, hl3, List.drop_eq_nil_of_le (by rw [hl3]; omega),
            List.nil_append, List.drop_drop]
          congr 1
          omega
        rw [e1, e2]
        simp [List.append_assoc]

/-! ## `process_frame` on a supported width -/

theorem length_resize (v : List Byte) (n : Nat) : (resize v n).length = n := by
  simp only [resize, List.length_append, List.length_take, List.length_replicate]
  omega

theorem length_raw_depth_data (e : Endian) (w : Nat) (buf : List Byte) (cnt : Nat) :
    (raw_depth_data e w buf cnt).length = cnt := by
  simp [raw_depth_data]

theorem update_histogram_indep (h1 h2 : Array Int) (ds : List Nat) :
    update_histogram h1 ds = update_histogram h2 ds := rfl

theorem process_depth_data_eq (s : Colorizer) (e : Endian) (w : Nat) (buf : List Byte)
    (cnt : Nat) (hv : s.rgb_pixel_data_.length = cnt * 3) :
    process_depth_data s e w buf cnt =
      (update_histogram s.hist_data_ (raw_depth_data e w buf cnt)).bind fun hist =>
      (s.color_maps_[s.maps_index_]?).bind fun cm =>
      (frame_rgb cm hist (raw_depth_data e w buf cnt)).map fun out =>
        ({ hist_data_ := hist
           color_maps_ := s.color_maps_
           maps_index_ := s.maps_index_
           rgb_pixel_data_ := out
           pixel_cnt_ := s.pixel_cnt_ }, out) := by
  unfold process_depth_data make_rgb_data
  simp only [Option.bind_eq_bind]
  cases update_histogram s.hist_data_ (raw_depth_data e w buf cnt) with
  | none => rfl
  | some hist =>
    simp only [Option.some_bind]
    cases s.color_maps_[s.maps_index_]? with
    | none => rfl
    | some cm =>
      simp only [Option.some_bind]
      rw [make_rgb_loop_eq cm hist _ 0 _ (by rw [length_raw_depth_data, hv]; omega)]
      cases hout : frame_rgb cm hist (raw_depth_data e w buf cnt) with
      | none => rfl
      | some out =>
        have hd : List.drop (3 * (0 + (raw_depth_data e w buf cnt).length)) s.rgb_pixel_data_ = [] := by
          apply List.drop_eq_nil_of_le
          rw [length_raw_depth_data, hv]
          omega
        simp [hd]
        rw [length_raw_depth_data, hv]
        omega

/-- The result of `process_frame` on a supported width, from a state whose
output buffer has three bytes per pixel of the previous frame. -/
theorem process_frame_eq (s : Colorizer) (e : Endian) (buf : List Byte) (w : Nat)
    (hw : w = 1 ∨ w = 2 ∨ w = 4) (hv : s.rgb_pixel_data_.length = s.pixel_cnt_ * 3) :
    process_frame s e buf w =
      (update_histogram s.hist_data_ (raw_depth_data e w buf (buf.length / w))).bind fun hist =>
      (s.color_maps_[s.maps_index_]?).bind fun cm =>
      (frame_rgb cm hist (raw_depth_data e w buf (buf.length / w))).map fun out =>
        ({ hist_data_ := hist
           color_maps_ := s.color_maps_
           maps_index_ := s.maps_index_
           rgb_pixel_data_ := out
           pixel_cnt_ := buf.length / w }, out) := by
  have key : ∀ s1 : Colorizer, s1.rgb_pixel_data_.length = (buf.length / w) * 3 →
      s1.pixel_cnt_ = buf.length / w → s1.hist_data_ = s.hist_data_ →
      s1.color_maps_ = s.color_maps_ → s1.maps_index_ = s.maps_index_ →
      process_depth_data s1 e w buf (buf.length / w) =
        (update_histogram s.hist_data_ (raw_depth_data e w buf (buf.length / w))).bind fun hist =>
        (s.color_maps_[s.maps_index_]?).bind fun cm =>
        (frame_rgb cm hist (raw_depth_data e w buf (buf.length / w))).map fun out =>
          ({ hist_data_ := hist
             color_maps_ := s.color_maps_
             maps_index_ := s.maps_index_
             rgb_pixel_data_ := out
             pixel_cnt_ := buf.length / w }, out) := by
    intro s1 h1 h2 h3 h4 h5
    rw [process_depth_data_eq s1 e w buf _ h1, h2, h3, h4, h5]
  have hs1 : process_frame s e buf w = process_depth_data
      (if buf.length / w ≠ s.pixel_cnt_ then
        { s with pixel_cnt_ := buf.length / w,
                 rgb_pixel_data_ := resize s.rgb_pixel_data_ (buf.length / w * 3) }
      else s) e w buf (buf.length / w) := by
    rcases hw with rfl | rfl | rfl <;> simp [process_frame]
  rw [hs1]
  by_cases hc : buf.length / w ≠ s.pixel_cnt_
  · rw [if_pos hc]
    exact key _ (length_resize _ _) rfl rfl rfl rfl
  · rw [if_neg hc]
    have hc2 : buf.length / w = s.pixel_cnt_ := not_not.1 hc
    exact key s (by rw [hv, hc2]) hc2.symm rfl rfl rfl

/-! ## Every pixel of a supported frame has a colour -/

theorem decode_lt (e : Endian) (bs : List Byte) : decode e bs < 256 ^ bs.length := by
  cases e with
  | little =>
    induction bs with
    | nil => simp [decode]
    | cons b rest ih =>
      simp only [decode, List.foldr_cons, List.length_cons] at ih ⊢
      have := b.isLt
      rw [pow_succ]
      omega
  | big =>
    have key : ∀ (l : List Byte) (acc : Nat),
        l.foldl (fun acc b => 256 * acc + b.val) acc < (acc + 1) * 256 ^ l.length := by
      intro l
      induction l with
      | nil => intro acc; simp
      | cons b rest ih =>
        intro acc
        simp only [List.foldl_cons, List.length_cons]
        have h1 := ih (256 * acc + b.val)
        have h2 := b.isLt
        have h3 : (256 * acc + b.val + 1) * 256 ^ rest.length ≤ (acc + 1) * 256 ^ (rest.length + 1) := by
          rw [pow_succ]
          have : 256 * acc + b.val + 1 ≤ (acc + 1) * 256 := by omega
          calc (256 * acc + b.val + 1) * 256 ^ rest.length
              ≤ ((acc + 1) * 256) * 256 ^ rest.length := Nat.mul_le_mul_right _ this
            _ = (acc + 1) * (256 ^ rest.length * 256) := by ring
        omega
    simpa [decode] using key bs 0

theorem read_sample_lt (e : Endian) (w : Nat) (buf : List Byte) (i : Nat) :
    read_sample e w buf i < 256 ^ w := by
  unfold read_sample
  have h1 := decode_lt e (List.take w (List.drop (i * w) buf))
  have h2 : (List.take w (List.drop (i * w) buf)).length ≤ w := by
    rw [List.length_take]; omega
  have h3 : 256 ^ (List.take w (List.drop (i * w) buf)).length ≤ 256 ^ w :=
    Nat.pow_le_pow_right (by norm_num) h2
  omega

theorem getElem?_raw_depth_data (e : Endian) (w : Nat) (buf : List Byte) (cnt i : Nat) :
    (raw_depth_data e w buf cnt)[i]? = if i < cnt then some (read_sample e w buf i) else none := by
  unfold raw_depth_data
  rw [List.getElem?_map]
  by_cases h : i < cnt
  · rw [List.getElem?_range h, if_pos h]; rfl
  · rw [List.getElem?_eq_none (by simpa using h), if_neg h]; rfl

theorem mem_raw_depth_data {e : Endian} {w : Nat} {buf : List Byte} {cnt d : Nat}
    (h : d ∈ raw_depth_data e w buf cnt) : ∃ i, i < cnt ∧ d = read_sample e w buf i := by
  unfold raw_depth_data at h
  rw [List.mem_map] at h
  obtain ⟨i, hi, rfl⟩ := h
  exact ⟨i, List.mem_range.1 hi, rfl⟩

theorem samples_lt {e : Endian} {buf : List Byte} {w : Nat} (h : Supported e buf w) :
    ∀ d ∈ raw_depth_data e w buf (buf.length / w), d < MAX_DEPTH := by
  intro d hd
  rcases h with rfl | rfl | ⟨rfl, h4⟩
  · obtain ⟨i, _, rfl⟩ := mem_raw_depth_data hd
    have := read_sample_lt e 1 buf i
    simp only [MAX_DEPTH]
    omega
  · obtain ⟨i, _, rfl⟩ := mem_raw_depth_data hd
    have := read_sample_lt e 2 buf i
    simp only [MAX_DEPTH]
    omega
  · exact h4 d hd

theorem supported_width {e : Endian} {buf : List Byte} {w : Nat} (h : Supported e buf w) :
    w = 1 ∨ w = 2 ∨ w = 4 := by
  rcases h with h | h | ⟨h, _⟩
  · exact Or.inl h
  · exact Or.inr (Or.inl h)
  · exact Or.inr (Or.inr h)

theorem toUInt8_within {f : Flt} (h : Flt.within 0 255 f = true) :
    ∃ q : ℚ, f = Flt.fin q ∧ 0 ≤ q ∧ q ≤ 255 ∧
      (Flt.toUInt8 f).map Fin.val = some ⌊q⌋.toNat := by
  obtain ⟨q, rfl, h0, h1⟩ := within_fin h
  refine ⟨q, rfl, h0, h1, ?_⟩
  have htr : Flt.trunc q = ⌊q⌋ := by simp [Flt.trunc, h0]
  have hf0 : 0 ≤ ⌊q⌋ := Int.floor_nonneg.2 h0
  have hf1 : ⌊q⌋ < 256 := by
    rw [Int.floor_lt]
    norm_num
    linarith
  simp only [Flt.toUInt8, htr]
  rw [dif_pos ⟨hf0, hf1⟩]
  rfl

theorem good_get {cm : ColorMap} (hg : GoodGradient cm) (q : ℚ) :
    ∃ c, cm.get (Flt.fin q) = some c ∧ c.within 0 255 = true := by
  obtain ⟨values, steps, rfl, hn, hs, hs2, hc⟩ := hg
  rw [(get_eq_calc values steps hn hs hs2 q).1]
  exact calc_within _ (anchors_ne_nil hn) (finiteKeys_anchors_from hn values 0)
    (fun p hp => hc _ (mem_anchors_from hp)) _

/-- The bytes of a nonzero sample of the frame, for a palette gradient: the
truncated channels of the gradient colour at the normalized intensity. -/
theorem pixel_rgb_good {cm : ColorMap} (hg : GoodGradient cm) (hist : Array Int)
    (ds : List Nat) (hd : ∀ d ∈ ds, d < MAX_DEPTH) :
    ∃ h, update_histogram hist ds = some h ∧
      ∀ d ∈ ds, d ≠ 0 →
        ∃ (f : Flt) (r g b : ℚ) (px : List Byte),
          coloring_function h (Flt.ofNat d) = some f ∧ cm.get f = some (rgb r g b) ∧
          (0 ≤ r ∧ r ≤ 255) ∧ (0 ≤ g ∧ g ≤ 255) ∧ (0 ≤ b ∧ b ≤ 255) ∧
          pixel_rgb cm h d = some px ∧
          px.map Fin.val = [⌊r⌋.toNat, ⌊g⌋.toNat, ⌊b⌋.toNat] := by
  obtain ⟨h, hu, _, hn⟩ := normalized_eq hist ds hd
  refine ⟨h, hu, ?_⟩
  intro d hmem hne
  obtain ⟨_, hf⟩ := hn d hmem hne
  obtain ⟨c, hget, hc⟩ := good_get hg
    ((count_upto ds d : ℚ) / (count_upto ds (MAX_DEPTH - 1) : ℚ))
  simp only [float3.within, Bool.and_eq_true] at hc
  obtain ⟨⟨hx, hy⟩, hz⟩ := hc
  obtain ⟨r, hr, hr0, hr1, hrb⟩ := toUInt8_within hx
  obtain ⟨g, hg', hg0, hg1, hgb⟩ := toUInt8_within hy
  obtain ⟨b, hb, hb0, hb1, hbb⟩ := toUInt8_within hz
  have hc3 : c = rgb r g b := by
    cases c
    simp only at hr hg' hb
    simp [rgb, hr, hg', hb]
  subst hc3
  cases hxr : Flt.toUInt8 (rgb r g b).x with
  | none => rw [hxr] at hrb; simp at hrb
  | some br =>
    cases hxg : Flt.toUInt8 (rgb r g b).y with
    | none => rw [hxg] at hgb; simp at hgb
    | some bg =>
      cases hxb : Flt.toUInt8 (rgb r g b).z with
      | none => rw [hxb] at hbb; simp at hbb
      | some bb =>
        rw [hxr] at hrb
        rw [hxg] at hgb
        rw [hxb] at hbb
        simp only [Option.map_some', Option.some.injEq] at hrb hgb hbb
        refine ⟨_, r, g, b, [br, bg, bb], hf, hget, ⟨hr0, hr1⟩, ⟨hg0, hg1⟩, ⟨hb0, hb1⟩, ?_, ?_⟩
        · unfold pixel_rgb
          rw [if_pos hne]
          simp [hf, hget, hxr, hxg, hxb]
        · simp [hrb, hgb, hbb]

theorem pixel_rgb_zero (cm : ColorMap) (h : Array Int) : pixel_rgb cm h 0 = some [0, 0, 0] := by
  simp [pixel_rgb]

/-- The bytes of pixel `i` in the output of a frame. -/
theorem frame_rgb_pixel (cm : ColorMap) (h : Array Int) :
    ∀ (ds : List Nat) (out : List Byte), frame_rgb cm h ds = some out →
      ∀ (i d : Nat), ds[i]? = some d →
        pixel_rgb cm h d = some ((out.drop (3 * i)).take 3) := by
  intro ds
  induction ds with
  | nil => intro out _ i d hd; simp at hd
  | cons d0 rest ih =>
    intro out ho i d hd
    simp only [frame_rgb, Option.bind_eq_bind, Option.bind_eq_some] at ho
    obtain ⟨px, hpx, o, hout, ho⟩ := ho
    have hpl := length_pixel_rgb hpx
    have ho2 : out = px ++ o := (Option.some.inj ho).symm
    subst ho2
    cases i with
    | zero =>
      simp only [List.getElem?_cons_zero, Option.some.injEq] at hd
      subst hd
      rw [hpx]
      simp only [Nat.mul_zero, List.drop_zero, Option.some.injEq]
      rw [List.take_append_eq_append_take, hpl, Nat.sub_self, List.take_zero, List.append_nil,
        ← hpl, List.take_length]
    | succ i =>
      simp only [List.getElem?_cons_succ] at hd
      rw [ih o hout i d hd]
      have : 3 * (i + 1) = px.length + 3 * i := by omega
      rw [this, List.drop_append]

theorem frame_rgb_some (cm : ColorMap) (h : Array Int) :
    ∀ ds : List Nat, (∀ d ∈ ds, ∃ px, pixel_rgb cm h d = some px) →
      ∃ out, frame_rgb cm h ds = some out := by
  intro ds
  induction ds with
  | nil => intro _; exact ⟨[], rfl⟩
  | cons d rest ih =>
    intro hall
    obtain ⟨px, hpx⟩ := hall d (List.mem_cons_self _ _)
    obtain ⟨out, hout⟩ := ih (fun x hx => hall x (List.mem_cons_of_mem _ hx))
    exact ⟨px ++ out, by simp [frame_rgb, hpx, hout]⟩

/-- On a supported frame, from a valid state, `process_frame` has a result: the
state is valid again, the buffer holds three bytes per pixel, and the bytes of
pixel `i` are those of its sample under the histogram of this frame and the
active gradient. -/
theorem process_frame_supported (s : Colorizer) (e : Endian) (buf : List Byte) (w : Nat)
    (hs : s.Valid) (hsup : Supported e buf w) :
    ∃ s' out cm, process_frame s e buf w = some (s', out) ∧ s'.Valid ∧
      s'.rgb_pixel_data_ = out ∧ s'.pixel_cnt_ = buf.length / w ∧
      s'.color_maps_ = s.color_maps_ ∧ s'.maps_index_ = s.maps_index_ ∧
      out.length = 3 * (buf.length / w) ∧
      s.color_maps_[s.maps_index_]? = some cm ∧ GoodGradient cm ∧
      update_histogram s.hist_data_ (raw_depth_data e w buf (buf.length / w))
        = some s'.hist_data_ ∧
      ∀ i, i < buf.length / w →
        pixel_rgb cm s'.hist_data_ (read_sample e w buf i) = some ((out.drop (3 * i)).take 3) := by
  obtain ⟨hv, cm, hcm, hg⟩ := hs
  have hlt := samples_lt hsup
  obtain ⟨h, hu, hpix⟩ := pixel_rgb_good hg s.hist_data_ _ hlt
  have hall : ∀ d ∈ raw_depth_data e w buf (buf.length / w), ∃ px, pixel_rgb cm h d = some px := by
    intro d hd
    by_cases h0 : d = 0
    · subst h0; exact ⟨_, pixel_rgb_zero cm h⟩
    · obtain ⟨_, _, _, _, px, _, _, _, _, _, hpx, _⟩ := hpix d hd h0
      exact ⟨px, hpx⟩
  obtain ⟨out, hout⟩ := frame_rgb_some cm h _ hall
  have hlen := length_frame_rgb cm h _ out hout
  rw [length_raw_depth_data] at hlen
  refine ⟨{ hist_data_ := h
            color_maps_ := s.color_maps_
            maps_index_ := s.maps_index_
            rgb_pixel_data_ := out
            pixel_cnt_ := buf.length / w }, out, cm, ?_, ⟨?_, cm, hcm, hg⟩, rfl, rfl, rfl, rfl,
    hlen, hcm, hg, hu, ?_⟩
  · rw [process_frame_eq s e buf w (supported_width hsup) hv, hu, hcm]
    simp only [Option.some_bind, hout, Option.map_some']
  · show out.length = buf.length / w * 3
    omega
  · intro i hi
    apply frame_rgb_pixel cm h _ out hout i
    rw [getElem?_raw_depth_data, if_pos hi]

/-! ## The palette and the initial state -/

theorem palette_good : ∀ cm ∈ Colorizer.new.color_maps_, GoodGradient cm := by
  intro cm hcm
  simp only [Colorizer.new, List.mem_cons, List.mem_singleton, List.not_mem_nil, or_false] at hcm
  rcases hcm with rfl | rfl | rfl | rfl | rfl | rfl | rfl | rfl | rfl | rfl
  · exact ⟨_, _, rfl, by decide, by decide, by decide, by decide⟩
  · exact ⟨_, _, rfl, by decide, by decide, by decide, by decide⟩
  · exact ⟨_, _, rfl, by decide, by decide, by decide, by decide⟩
  · exact ⟨_, _, rfl, by decide, by decide, by decide, by decide⟩
  · exact ⟨_, _, rfl, by decide, by decide, by decide, by decide⟩
  · exact ⟨_, _, rfl, by decide, by decide, by decide, by decide⟩
  · exact ⟨_, _, rfl, by decide, by decide, by decide, by decide⟩
  · exact ⟨_, _, rfl, by decide, by decide, by decide, by decide⟩
  · exact ⟨_, _, rfl, by decide, by decide, by decide, by decide⟩
  · exact ⟨_, _, rfl, by decide, by decide, by decide, by decide⟩

/-- A state of the constructor's palette is valid as soon as its buffer has
three bytes per pixel and `maps_index_` is below 10. -/
theorem valid_of_palette (s : Colorizer) (hp : s.color_maps_ = Colorizer.new.color_maps_)
    (hi : s.maps_index_ < 10) (hv : s.rgb_pixel_data_.length = s.pixel_cnt_ * 3) : s.Valid := by
  have hlt : s.maps_index_ < s.color_maps_.length := by rw [hp]; exact hi
  have hmem : s.color_maps_[s.maps_index_] ∈ Colorizer.new.color_maps_ := by
    rw [← hp]
    exact List.getElem_mem hlt
  exact ⟨hv, s.color_maps_[s.maps_index_], List.getElem?_eq_getElem hlt, palette_good _ hmem⟩

theorem new_valid : Colorizer.new.Valid :=
  valid_of_palette _ rfl (by decide) rfl

/-! ## Samples outside the histogram -/

theorem hist_increment_size {hist hist' : Array Int} {d : Nat}
    (h : hist_increment hist d = some hist') : hist'.size = hist.size := by
  unfold hist_increment at h
  simp only [Option.bind_eq_bind] at h
  split at h
  · rw [Option.bind_eq_some] at h
    obtain ⟨c, _, hc⟩ := h
    rw [← Option.some.inj hc]
    simp
  · simp at h

theorem hist_increment_out_of_range (hist : Array Int) {d : Nat} (hsize : hist.size = MAX_DEPTH)
    (h1 : MAX_DEPTH ≤ d) (h2 : d < 4294967296) : hist_increment hist d = none := by
  unfold hist_increment
  simp only [Option.bind_eq_bind]
  by_cases hlt : d < 2147483648
  · have hi : to_int d = (d : Int) := to_int_of_lt hlt
    have hget : hist[d]? = none := Array.getElem?_ge _ (by omega)
    simp [hi, hget]
  · have hi : to_int d = (d : Int) - 4294967296 := by simp [to_int, hlt]
    have hneg : ¬ (0 : Int) ≤ (d : Int) - 4294967296 := by omega
    simp [hi, hneg]

/-- The counting loop has no result as soon as one sample of at most 32 bits is
not below `MAX_DEPTH`. -/
theorem count_loop_out_of_range (ds : List Nat) :
    ∀ hist : Array Int, hist.size = MAX_DEPTH →
      (∃ d ∈ ds, MAX_DEPTH ≤ d ∧ d < 4294967296) → ds.foldlM hist_increment hist = none := by
  induction ds with
  | nil => intro hist _ h; obtain ⟨d, hd, _⟩ := h; simp at hd
  | cons d0 rest ih =>
    intro hist hsize h
    rw [List.foldlM_cons]
    cases hinc : hist_increment hist d0 with
    | none => rfl
    | some hist' =>
      simp only [Option.bind_eq_bind, Option.some_bind]
      apply ih hist' (by rw [hist_increment_size hinc, hsize])
      obtain ⟨d, hd, h1, h2⟩ := h
      rcases List.mem_cons.1 hd with rfl | hd
      · rw [hist_increment_out_of_range hist hsize h1 h2] at hinc
        simp at hinc
      · exact ⟨d, hd, h1, h2⟩

theorem update_histogram_out_of_range (hist : Array Int) (ds : List Nat)
    (h : ∃ d ∈ ds, MAX_DEPTH ≤ d ∧ d < 4294967296) : update_histogram hist ds = none := by
  unfold update_histogram
  rw [count_loop_out_of_range ds (memset_zero hist) (by simp [memset_zero]) h]
  rfl

/-- On 4-byte pixels `process_frame` has no result as soon as one sample is not
below `MAX_DEPTH`. -/
theorem process_frame_out_of_range (s : Colorizer) (e : Endian) (buf : List Byte)
    (hv : s.rgb_pixel_data_.length = s.pixel_cnt_ * 3)
    (h : ∃ d ∈ raw_depth_data e 4 buf (buf.length / 4), MAX_DEPTH ≤ d) :
    process_frame s e buf 4 = none := by
  rw [process_frame_eq s e buf 4 (Or.inr (Or.inr rfl)) hv]
  obtain ⟨d, hd, h1⟩ := h
  have h2 : d < 4294967296 := by
    obtain ⟨i, _, rfl⟩ := mem_raw_depth_data hd
    have := read_sample_lt e 4 buf i
    omega
  rw [update_histogram_out_of_range _ _ ⟨d, hd, h1, h2⟩]
  rfl

/-! ## Unsupported widths -/

theorem process_frame_zero (s : Colorizer) (e : Endian) (buf : List Byte) :
    process_frame s e buf 0 = none := rfl

theorem process_frame_unsupported_eq (s : Colorizer) (e : Endian) (buf : List Byte) (w : Nat)
    (h0 : w ≠ 0) (h1 : w ≠ 1) (h2 : w ≠ 2) (h4 : w ≠ 4) :
    process_frame s e buf w =
      some (if buf.length / w ≠ s.pixel_cnt_ then
          { s with pixel_cnt_ := buf.length / w,
                   rgb_pixel_data_ := resize s.rgb_pixel_data_ (buf.length / w * 3) }
        else s, buf) := by
  unfold process_frame
  rw [if_neg h0]
  split
  · exact absurd rfl h1
  · exact absurd rfl h2
  · exact absurd rfl h4
  · rfl

theorem process_frame_unsupported (s : Colorizer) (e : Endian) (buf : List Byte) (w : Nat)
    (h0 : w ≠ 0) (h1 : w ≠ 1) (h2 : w ≠ 2) (h4 : w ≠ 4) :
    ∃ s', process_frame s e buf w = some (s', buf) ∧
      s'.color_maps_ = s.color_maps_ ∧ s'.maps_index_ = s.maps_index_ ∧
      s'.pixel_cnt_ = buf.length / w ∧
      (s.rgb_pixel_data_.length = s.pixel_cnt_ * 3 →
        s'.rgb_pixel_data_.length = s'.pixel_cnt_ * 3) := by
  rw [process_frame_unsupported_eq s e buf w h0 h1 h2 h4]
  by_cases hc : buf.length / w ≠ s.pixel_cnt_
  · rw [if_pos hc]
    exact ⟨_, rfl, rfl, rfl, rfl, fun _ => length_resize _ _⟩
  · rw [if_neg hc]
    exact ⟨s, rfl, rfl, rfl, (not_not.1 hc).symm, fun h => h⟩

/-! ## The claims about `process_frame` -/

/-- The zero-depth law wherever the call is defined.  From a state whose output
buffer has three bytes per pixel,
for a width of 1, 2 or 4 bytes and whatever gradient is active: whenever
`process_frame` returns, every pixel whose raw depth is 0 is `(0, 0, 0)` in the
buffer; and it does return when the active gradient is one of the palette and
the frame has 1-byte or 2-byte pixels, or 4-byte pixels whose samples are all
below `MAX_DEPTH`. -/
theorem zero_depth_black (s : Colorizer) (e : Endian) (buf : List Byte) (w : Nat)
    (hw : w = 1 ∨ w = 2 ∨ w = 4) (hv : s.rgb_pixel_data_.length = s.pixel_cnt_ * 3) :
    (∀ s' out, process_frame s e buf w = some (s', out) →
      ∀ i, i < buf.length / w → read_sample e w buf i = 0 →
        (out.drop (3 * i)).take 3 = [0, 0, 0]) ∧
    (s.Valid → Supported e buf w → ∃ s' out, process_frame s e buf w = some (s', out)) := by
  constructor
  · intro s' out hp i hi hz
    rw [process_frame_eq s e buf w hw hv] at hp
    simp only [Option.bind_eq_some, Option.map_eq_some'] at hp
    obtain ⟨hist, _, cm, _, out', hout, heq⟩ := hp
    have hoo : out' = out := congrArg Prod.snd heq
    subst hoo
    have hpx := frame_rgb_pixel cm hist _ out' hout i 0
      (by rw [getElem?_raw_depth_data, if_pos hi, hz])
    rw [pixel_rgb_zero] at hpx
    exact (Option.some.inj hpx).symm
  · intro hs hsup
    obtain ⟨s', out, _, hp, _⟩ := process_frame_supported s e buf w hs hsup
    exact ⟨s', out, hp⟩

theorem zero_depth_black_witness :
    ((1 : Nat) = 1 ∨ (1 : Nat) = 2 ∨ (1 : Nat) = 4) ∧
    Colorizer.new.rgb_pixel_data_.length = Colorizer.new.pixel_cnt_ * 3 ∧
    (∀ s' out, process_frame Colorizer.new Endian.little [0, 10, 10, 20] 1 = some (s', out) →
      ∀ i, i < [(0 : Byte), 10, 10, 20].length / 1 →
        read_sample Endian.little 1 [0, 10, 10, 20] i = 0 →
        (out.drop (3 * i)).take 3 = [0, 0, 0]) ∧
    (Colorizer.new.Valid → Supported Endian.little [0, 10, 10, 20] 1 →
      ∃ s' out, process_frame Colorizer.new Endian.little [0, 10, 10, 20] 1 = some (s', out)) :=
  ⟨Or.inl rfl, rfl, zero_depth_black Colorizer.new Endian.little [0, 10, 10, 20] 1 (Or.inl rfl) rfl⟩

/-- C1.  On 4-byte pixels the code misses the claim: in the frame of the two
samples 0 and `0x80000000` the first pixel has raw depth 0, and `process_frame`
has no result, because `update_histogram` uses the second sample, converted to
the `int` -2147483648, as a histogram index before any pixel is written. -/
theorem zero_depth_black_out_of_range :
    read_sample Endian.little 4 [0, 0, 0, 0, 0, 0, 0, 128] 0 = 0 ∧
    read_sample Endian.little 4 [0, 0, 0, 0, 0, 0, 0, 128] 1 = 2147483648 ∧
    to_int 2147483648 = -2147483648 ∧
    process_frame Colorizer.new Endian.little [0, 0, 0, 0, 0, 0, 0, 128] 4 = none := by
  refine ⟨by decide, by decide, by decide, ?_⟩
  apply process_frame_out_of_range Colorizer.new Endian.little _ rfl
  refine ⟨2147483648, ?_, by decide⟩
  rw [List.mem_iff_getElem?]
  exact ⟨1, by rw [getElem?_raw_depth_data]; decide⟩

/-- C3.  With `pixel_step = 0` the quotient `pixel_data.size() / pixel_step` is
a division by zero, before the `switch` is reached: `process_frame` has no
result, for every state and every buffer. -/
theorem process_frame_zero_width (s : Colorizer) (e : Endian) (buf : List Byte) :
    process_frame s e buf 0 = none :=
  process_frame_zero s e buf

theorem process_frame_completes (s : Colorizer) (e : Endian) (call : List Byte × Nat)
    (hs : s.Valid) (hc : Completes e call) :
    ∃ s' out, process_frame s e call.1 call.2 = some (s', out) ∧ s'.Valid ∧
      ((call.2 = 1 ∨ call.2 = 2 ∨ call.2 = 4) → out.length = 3 * (call.1.length / call.2)) := by
  rcases hc with hsup | ⟨h0, h1, h2, h4⟩
  · obtain ⟨s', out, _, hp, hv, _, _, _, _, hlen, _⟩ :=
      process_frame_supported s e call.1 call.2 hs hsup
    exact ⟨s', out, hp, hv, fun _ => hlen⟩
  · obtain ⟨s', hp, hmaps, hidx, _, hlen⟩ := process_frame_unsupported s e call.1 call.2 h0 h1 h2 h4
    obtain ⟨hv, cm, hcm, hg⟩ := hs
    refine ⟨s', call.1, hp, ⟨hlen hv, cm, ?_, hg⟩, ?_⟩
    · rw [hmaps, hidx]; exact hcm
    · intro h
      rcases h with h | h | h
      · exact absurd h h1
      · exact absurd h h2
      · exact absurd h h4

/-- The length law along call sequences.  In every sequence of calls of
`process_frame` on one
`Colorizer`, started in a valid state, in which each call has 1-byte or 2-byte
pixels, or 4-byte pixels whose samples are all below `MAX_DEPTH`, or an
unsupported width other than 0: every call returns, and after each call with a
width `w` of 1, 2 or 4 the buffer has length `3 * (old_length / w)`, whatever
the pixel counts of the earlier calls were. -/
theorem buffer_length_sequence (e : Endian) (calls : List (List Byte × Nat)) :
    ∀ s : Colorizer, s.Valid → (∀ c ∈ calls, Completes e c) →
      ∃ outs, run_frames e s calls = some outs ∧
        List.Forall₂
          (fun (c : List Byte × Nat) (out : List Byte) =>
            (c.2 = 1 ∨ c.2 = 2 ∨ c.2 = 4) → out.length = 3 * (c.1.length / c.2))
          calls outs := by
  induction calls with
  | nil => intro s _ _; exact ⟨[], rfl, List.Forall₂.nil⟩
  | cons c rest ih =>
    intro s hs hc
    obtain ⟨s', out, hp, hv, hlen⟩ := process_frame_completes s e c hs (hc c (List.mem_cons_self _ _))
    obtain ⟨outs, hr, hall⟩ := ih s' hv (fun x hx => hc x (List.mem_cons_of_mem _ hx))
    refine ⟨out :: outs, ?_, List.Forall₂.cons hlen hall⟩
    simp [run_frames, hp, hr]

theorem buffer_length_sequence_witness :
    Colorizer.new.Valid ∧
    (∀ c ∈ [(([0, 10, 10, 20] : List Byte), 1), ([1, 2, 3, 4, 5, 6], 2), ([7, 7], 3), ([1, 2], 1)],
      Completes Endian.little c) ∧
    ∃ outs, run_frames Endian.little Colorizer.new
        [(([0, 10, 10, 20] : List Byte), 1), ([1, 2, 3, 4, 5, 6], 2), ([7, 7], 3), ([1, 2], 1)]
          = some outs ∧
      List.Forall₂
        (fun (c : List Byte × Nat) (out : List Byte) =>
          (c.2 = 1 ∨ c.2 = 2 ∨ c.2 = 4) → out.length = 3 * (c.1.length / c.2))
        [(([0, 10, 10, 20] : List Byte), 1), ([1, 2, 3, 4, 5, 6], 2), ([7, 7], 3), ([1, 2], 1)]
        outs :=
  ⟨new_valid, by simp [Completes, Supported],
    buffer_length_sequence Endian.little _ Colorizer.new new_valid
      (by simp [Completes, Supported])⟩

/-- C2.  On 4-byte pixels the code misses the claim: on the frame of the single
sample `0xFFFFFFFF`, whose conversion to `int` is the histogram index -1,
`process_frame` has no result, so no buffer of length 3 either. -/
theorem buffer_length_out_of_range :
    read_sample Endian.little 4 [255, 255, 255, 255] 0 = 4294967295 ∧
    process_frame Colorizer.new Endian.little [255, 255, 255, 255] 4 = none ∧
    ¬ ∃ s' out, process_frame Colorizer.new Endian.little [255, 255, 255, 255] 4 = some (s', out) ∧
      out.length = 3 * (([255, 255, 255, 255] : List Byte).length / 4) := by
  have h : process_frame Colorizer.new Endian.little [255, 255, 255, 255] 4 = none := by
    apply process_frame_out_of_range Colorizer.new Endian.little _ rfl
    refine ⟨4294967295, ?_, by decide⟩
    rw [List.mem_iff_getElem?]
    exact ⟨0, by rw [getElem?_raw_depth_data]; decide⟩
  refine ⟨by decide, h, ?_⟩
  rintro ⟨s', out, hp, _⟩
  rw [h] at hp
  exact absurd hp (by simp)

/-- Where it is defined, the output of `process_frame` depends on the current
frame only: from
any two states whose output buffers have three bytes per pixel of their last
frame and which have the same active gradient, on the same buffer and the same
width of 1, 2 or 4 bytes, the two calls give the same bytes (or, on a 4-byte
frame with a sample not below `MAX_DEPTH`, both have no result); and the bytes
exist when the gradient is one of the palette and the frame is supported. -/
theorem output_depends_on_frame_only (s1 s2 : Colorizer) (e : Endian) (buf : List Byte)
    (w : Nat) (hw : w = 1 ∨ w = 2 ∨ w = 4)
    (h1 : s1.rgb_pixel_data_.length = s1.pixel_cnt_ * 3)
    (h2 : s2.rgb_pixel_data_.length = s2.pixel_cnt_ * 3)
    (hcm : s1.color_maps_[s1.maps_index_]? = s2.color_maps_[s2.maps_index_]?) :
    (process_frame s1 e buf w).map Prod.snd = (process_frame s2 e buf w).map Prod.snd ∧
    (s1.Valid → Supported e buf w →
      ∃ out, (process_frame s1 e buf w).map Prod.snd = some out ∧
        (process_frame s2 e buf w).map Prod.snd = some out) := by
  have heq : (process_frame s1 e buf w).map Prod.snd = (process_frame s2 e buf w).map Prod.snd := by
    rw [process_frame_eq s1 e buf w hw h1, process_frame_eq s2 e buf w hw h2, hcm,
      update_histogram_indep s1.hist_data_ s2.hist_data_]
    cases update_histogram s2.hist_data_ (raw_depth_data e w buf (buf.length / w)) with
    | none => rfl
    | some hist =>
      cases s2.color_maps_[s2.maps_index_]? with
      | none => rfl
      | some cm =>
        simp only [Option.some_bind, Option.map_map]
        rfl
  refine ⟨heq, ?_⟩
  intro hs hsup
  obtain ⟨s', out, _, hp, _⟩ := process_frame_supported s1 e buf w hs hsup
  refine ⟨out, ?_, ?_⟩
  · rw [hp]; rfl
  · rw [← heq, hp]; rfl

theorem output_depends_on_frame_only_witness :
    ((1 : Nat) = 1 ∨ (1 : Nat) = 2 ∨ (1 : Nat) = 4) ∧
    Colorizer.new.rgb_pixel_data_.length = Colorizer.new.pixel_cnt_ * 3 ∧
    ({ Colorizer.new with
        hist_data_ := mkArray MAX_DEPTH 9
        rgb_pixel_data_ := [1, 2, 3, 4, 5, 6]
        pixel_cnt_ := 2 } : Colorizer).rgb_pixel_data_.length = 2 * 3 ∧
    (process_frame Colorizer.new Endian.little [0, 10, 10, 20] 1).map Prod.snd =
      (process_frame
        { Colorizer.new with
          hist_data_ := mkArray MAX_DEPTH 9
          rgb_pixel_data_ := [1, 2, 3, 4, 5, 6]
          pixel_cnt_ := 2 } Endian.little [0, 10, 10, 20] 1).map Prod.snd :=
  ⟨Or.inl rfl, rfl, rfl,
    (output_depends_on_frame_only Colorizer.new
      { Colorizer.new with
        hist_data_ := mkArray MAX_DEPTH 9
        rgb_pixel_data_ := [1, 2, 3, 4, 5, 6]
        pixel_cnt_ := 2 } Endian.little [0, 10, 10, 20] 1 (Or.inl rfl) rfl rfl rfl).1⟩

/-- C6.  On 4-byte pixels the code misses the claim: in the frame of the four
samples 5, 5, 5 and 65536 the last sample is used as the index 65536 of the
histogram, one past its end, a counter that `memset` does not clear and that
`coloring_function` would read back; `process_frame` has no defined result on
this frame, neither from the constructed state nor from a state left by an
earlier frame. -/
theorem output_undefined_out_of_range :
    read_sample Endian.little 4 [5, 0, 0, 0, 5, 0, 0, 0, 5, 0, 0, 0, 0, 0, 1, 0] 3 = 65536 ∧
    MAX_DEPTH = 65536 ∧
    process_frame Colorizer.new Endian.little
      [5, 0, 0, 0, 5, 0, 0, 0, 5, 0, 0, 0, 0, 0, 1, 0] 4 = none ∧
    process_frame
      { Colorizer.new with
        hist_data_ := mkArray MAX_DEPTH 9
        rgb_pixel_data_ := [1, 2, 3, 4, 5, 6]
        pixel_cnt_ := 2 } Endian.little
      [5, 0, 0, 0, 5, 0, 0, 0, 5, 0, 0, 0, 0, 0, 1, 0] 4 = none := by
  have hmem : ∃ d ∈ raw_depth_data Endian.little 4
      [5, 0, 0, 0, 5, 0, 0, 0, 5, 0, 0, 0, 0, 0, 1, 0]
      (([5, 0, 0, 0, 5, 0, 0, 0, 5, 0, 0, 0, 0, 0, 1, 0] : List Byte).length / 4),
      MAX_DEPTH ≤ d := by
    refine ⟨65536, ?_, by decide⟩
    rw [List.mem_iff_getElem?]
    exact ⟨3, by rw [getElem?_raw_depth_data]; decide⟩
  exact ⟨by decide, rfl,
    process_frame_out_of_range Colorizer.new Endian.little _ rfl hmem,
    process_frame_out_of_range _ Endian.little _ rfl hmem⟩

theorem read_sample_mem (e : Endian) (w : Nat) (buf : List Byte) {cnt i : Nat} (hi : i < cnt) :
    read_sample e w buf i ∈ raw_depth_data e w buf cnt := by
  rw [List.mem_iff_getElem?]
  exact ⟨i, by rw [getElem?_raw_depth_data, if_pos hi]⟩

/-- The clamped position that `get` computes from its argument when the keys
span `[0, 1]`. -/
theorem get_congr (cm : ColorMap) (hmax : cm.max_ = some (Flt.fin 1))
    (hmin : cm.min_ = some (Flt.fin 0)) {t t' : Flt}
    (h : clamp_val (Flt.div (Flt.sub t (Flt.fin 0)) (Flt.sub (Flt.fin 1) (Flt.fin 0)))
          (Flt.ofInt 0) (Flt.ofInt 1) =
        clamp_val (Flt.div (Flt.sub t' (Flt.fin 0)) (Flt.sub (Flt.fin 1) (Flt.fin 0)))
          (Flt.ofInt 0) (Flt.ofInt 1)) :
    cm.get t = cm.get t' := by
  simp only [ColorMap.get, hmax, hmin, Option.bind_eq_bind, Option.some_bind, h]

theorem clamp_position_fin (x : ℚ) :
    clamp_val (Flt.div (Flt.sub (Flt.fin x) (Flt.fin 0)) (Flt.sub (Flt.fin 1) (Flt.fin 0)))
      (Flt.ofInt 0) (Flt.ofInt 1) = Flt.fin (clamp01 x) := by
  rw [sub_fin, sub_fin, sub_zero, sub_zero, div_fin_of_ne one_ne_zero, div_one, clamp_val_fin]

theorem clamp_position_below {t : Flt} (h : Flt.lt t (Flt.fin 0) = true) :
    clamp_val (Flt.div (Flt.sub t (Flt.fin 0)) (Flt.sub (Flt.fin 1) (Flt.fin 0)))
      (Flt.ofInt 0) (Flt.ofInt 1) = Flt.fin 0 := by
  cases t with
  | nan => simp [Flt.lt] at h
  | pinf => simp [Flt.lt] at h
  | ninf =>
    have h1 : ¬ (1 : ℚ) < 0 := by norm_num
    have h2 : ¬ (1 : ℚ) < 0 := by norm_num
    simp [Flt.sub, Flt.neg, Flt.add, Flt.div, Flt.signedInf, clamp_val, std_min, std_max,
      Flt.lt, Flt.ofInt, h1, h2]
  | fin x =>
    have hx : x < 0 := by simpa using h
    rw [clamp_position_fin]
    simp [clamp01, max_eq_right hx.le]

theorem clamp_position_above {t : Flt} (h : Flt.lt (Flt.fin 1) t = true) :
    clamp_val (Flt.div (Flt.sub t (Flt.fin 0)) (Flt.sub (Flt.fin 1) (Flt.fin 0)))
      (Flt.ofInt 0) (Flt.ofInt 1) = Flt.fin 1 := by
  cases t with
  | nan => simp [Flt.lt] at h
  | ninf => simp [Flt.lt] at h
  | pinf =>
    have h1 : (0 : ℚ) ≤ 1 := by norm_num
    simp [Flt.sub, Flt.neg, Flt.add, Flt.div, Flt.signedInf, clamp_val, std_min, std_max,
      Flt.lt, Flt.ofInt, h1]
  | fin x =>
    have hx : 1 < x := by simpa using h
    rw [clamp_position_fin]
    have h0 : (0 : ℚ) ≤ x := by linarith
    simp [clamp01, max_eq_left h0, min_eq_right hx.le]

theorem clamp01_zero : clamp01 0 = 0 := by simp [clamp01]

theorem clamp01_one : clamp01 1 = 1 := by simp [clamp01]

/-- C11.  For every gradient built from at least two colours, whatever the
number of steps, the lookup clamps its argument: `get(t)` is `get(0)` for every
`t < 0` (minus infinity included) and `get(1)` for every `t > 1` (plus infinity
included); and `get(0)` and `get(1)` have a result when `steps ≤ 2^24`, the
range in which `size_ - 1` converts to `float` exactly. -/
theorem sample_clamps (values : List float3) (steps : Nat) (hn : 2 ≤ values.length) :
    (∀ t, Flt.lt t (Flt.fin 0) = true →
      (ColorMap.new values steps).get t = (ColorMap.new values steps).get (Flt.fin 0)) ∧
    (∀ t, Flt.lt (Flt.fin 1) t = true →
      (ColorMap.new values steps).get t = (ColorMap.new values steps).get (Flt.fin 1)) ∧
    (steps ≤ 16777216 →
      ((ColorMap.new values steps).get (Flt.fin 0)).isSome = true ∧
      ((ColorMap.new values steps).get (Flt.fin 1)).isSome = true) := by
  have hmax : (ColorMap.new values steps).max_ = some (Flt.fin 1) := by rw [new_eq values steps hn]
  have hmin : (ColorMap.new values steps).min_ = some (Flt.fin 0) := by rw [new_eq values steps hn]
  refine ⟨?_, ?_, ?_⟩
  · intro t ht
    apply get_congr _ hmax hmin
    rw [clamp_position_below ht, clamp_position_fin, clamp01_zero]
  · intro t ht
    apply get_congr _ hmax hmin
    rw [clamp_position_above ht, clamp_position_fin, clamp01_one]
  · intro hs3
    have hs2 : steps < 2147483647 := by omega
    by_cases hs : 1 ≤ steps
    · exact ⟨(get_eq_calc values steps hn hs hs2 0).2, (get_eq_calc values steps hn hs hs2 1).2⟩
    · have h0 : steps = 0 := by omega
      subst h0
      obtain ⟨v, _, hv⟩ := head?_anchors values hn
      have hh : values.head? = some v := by
        cases values with
        | nil => simp at hn
        | cons a l => simp_all
      rw [get_zero_steps values hn 0, get_zero_steps values hn 1, hh]
      exact ⟨rfl, rfl⟩

theorem sample_clamps_witness :
    2 ≤ [rgb 255 0 0, rgb 0 0 255].length ∧
    (∀ t, Flt.lt t (Flt.fin 0) = true →
      (ColorMap.new [rgb 255 0 0, rgb 0 0 255] 4000).get t =
        (ColorMap.new [rgb 255 0 0, rgb 0 0 255] 4000).get (Flt.fin 0)) ∧
    (∀ t, Flt.lt (Flt.fin 1) t = true →
      (ColorMap.new [rgb 255 0 0, rgb 0 0 255] 4000).get t =
        (ColorMap.new [rgb 255 0 0, rgb 0 0 255] 4000).get (Flt.fin 1)) ∧
    (4000 ≤ 16777216 →
      ((ColorMap.new [rgb 255 0 0, rgb 0 0 255] 4000).get (Flt.fin 0)).isSome = true ∧
      ((ColorMap.new [rgb 255 0 0, rgb 0 0 255] 4000).get (Flt.fin 1)).isSome = true) :=
  ⟨by decide, sample_clamps [rgb 255 0 0, rgb 0 0 255] 4000 (by decide)⟩

/-! ## End to end -/

/-- C13.  On 4-byte pixels a sample that is not below `MAX_DEPTH` is used as a
histogram index as it is, neither clamped nor rejected: for the sample 65536
the increment `hist[65536] += 1` is outside the 65536 counters, and
`process_frame` has no result on the frame that holds this one sample, in
either byte order. -/
theorem four_byte_sample_unchecked :
    read_sample Endian.little 4 [0, 0, 1, 0] 0 = 65536 ∧
    read_sample Endian.big 4 [0, 1, 0, 0] 0 = 65536 ∧
    to_int 65536 = 65536 ∧
    hist_increment (memset_zero Colorizer.new.hist_data_) 65536 = none ∧
    process_frame Colorizer.new Endian.little [0, 0, 1, 0] 4 = none ∧
    process_frame Colorizer.new Endian.big [0, 1, 0, 0] 4 = none := by
  refine ⟨by decide, by decide, by decide, ?_, ?_, ?_⟩
  · exact hist_increment_out_of_range _ (by simp [memset_zero]) (by decide) (by decide)
  · apply process_frame_out_of_range Colorizer.new Endian.little _ rfl
    refine ⟨65536, ?_, by decide⟩
    rw [List.mem_iff_getElem?]
    exact ⟨0, by rw [getElem?_raw_depth_data]; decide⟩
  · apply process_frame_out_of_range Colorizer.new Endian.big _ rfl
    refine ⟨65536, ?_, by decide⟩
    rw [List.mem_iff_getElem?]
    exact ⟨0, by rw [getElem?_raw_depth_data]; decide⟩

theorem to_int_sample {d : Nat} (h : d < MAX_DEPTH) : to_int d = (d : Int) :=
  to_int_of_lt (by simp only [MAX_DEPTH] at h; omega)

/-- C14.  On 1-byte or 2-byte pixels, from a valid state and for every buffer,
`process_frame` returns, so every access it makes is inside its array; every
sample, the only index taken from the data, is within `0 .. MAX_DEPTH-1`;
whenever a pixel is nonzero, so that the quotient `hist[d] / hist[MAX_DEPTH-1]`
is evaluated, the counter `hist[MAX_DEPTH-1]` is positive; and a frame without
a pixel gives the empty buffer. -/
theorem narrow_frames_safe (s : Colorizer) (e : Endian) (buf : List Byte) (w : Nat)
    (hs : s.Valid) (hw : w = 1 ∨ w = 2) :
    ∃ s' out, process_frame s e buf w = some (s', out) ∧
      (∀ i, i < buf.length / w →
        0 ≤ to_int (read_sample e w buf i) ∧ to_int (read_sample e w buf i) < MAX_DEPTH) ∧
      (∀ i, i < buf.length / w → read_sample e w buf i ≠ 0 →
        ∃ pixels : Int, s'.hist_data_[MAX_DEPTH - 1]? = some pixels ∧ 0 < pixels) ∧
      (buf.length / w = 0 → out = []) := by
  have hsup : Supported e buf w := by
    rcases hw with h | h
    · exact Or.inl h
    · exact Or.inr (Or.inl h)
  have hlt := samples_lt hsup
  obtain ⟨s', out, cm, hp, _, _, _, _, _, hlen, _, _, hu, _⟩ :=
    process_frame_supported s e buf w hs hsup
  refine ⟨s', out, hp, ?_, ?_, ?_⟩
  · intro i hi
    have h1 := hlt _ (read_sample_mem e w buf hi)
    rw [to_int_sample h1]
    exact ⟨Int.natCast_nonneg _, by exact_mod_cast h1⟩
  · intro i hi hne
    obtain ⟨h, hu2, _, hv⟩ := update_histogram_spec s.hist_data_ _ hlt
    have hh : h = s'.hist_data_ := by
      rw [hu] at hu2
      exact (Option.some.inj hu2).symm
    subst hh
    have hmem := read_sample_mem e w buf hi
    have h1 := hlt _ hmem
    refine ⟨_, hv (MAX_DEPTH - 1) (by simp [MAX_DEPTH]), ?_⟩
    have hne0 : MAX_DEPTH - 1 ≠ 0 := by simp [MAX_DEPTH]
    simp only [hist_value, hne0, if_false]
    exact_mod_cast count_upto_pos _ hmem (by omega) (by omega)
  · intro h0
    rw [h0] at hlen
    exact List.length_eq_zero.1 (by simpa using hlen)

theorem narrow_frames_safe_witness :
    Colorizer.new.Valid ∧ ((2 : Nat) = 1 ∨ (2 : Nat) = 2) ∧
    ∃ s' out, process_frame Colorizer.new Endian.little [7] 2 = some (s', out) ∧
      (∀ i, i < ([7] : List Byte).length / 2 →
        0 ≤ to_int (read_sample Endian.little 2 [7] i) ∧
          to_int (read_sample Endian.little 2 [7] i) < MAX_DEPTH) ∧
      (∀ i, i < ([7] : List Byte).length / 2 → read_sample Endian.little 2 [7] i ≠ 0 →
        ∃ pixels : Int, s'.hist_data_[MAX_DEPTH - 1]? = some pixels ∧ 0 < pixels) ∧
      (([7] : List Byte).length / 2 = 0 → out = []) :=
  ⟨new_valid, Or.inr rfl,
    narrow_frames_safe Colorizer.new Endian.little [7] 2 new_valid (Or.inr rfl)⟩

/-! ## Normalization over the whole range of raw values -/

/-- The value of `coloring_function` at every raw value below `MAX_DEPTH`, for
a frame with a nonzero sample. -/
theorem normalized_eq_all (hist : Array Int) (ds : List Nat) (hd : ∀ d ∈ ds, d < MAX_DEPTH)
    (hnz : ∃ d ∈ ds, d ≠ 0) :
    ∃ h, update_histogram hist ds = some h ∧ 0 < count_upto ds (MAX_DEPTH - 1) ∧
      ∀ d, d < MAX_DEPTH →
        coloring_function h (Flt.ofNat d) =
          some (Flt.fin ((hist_value ds d : ℚ) / (count_upto ds (MAX_DEPTH - 1) : ℚ))) := by
  obtain ⟨h, hu, _, hv⟩ := update_histogram_spec hist ds hd
  obtain ⟨d0, hmem, hne⟩ := hnz
  have hpos : 0 < count_upto ds (MAX_DEPTH - 1) :=
    count_upto_pos ds hmem (by omega) (by have := hd d0 hmem; omega)
  refine ⟨h, hu, hpos, ?_⟩
  intro d hlt
  have hb : h[MAX_DEPTH - 1]? = some (count_upto ds (MAX_DEPTH - 1) : Int) := by
    rw [hv (MAX_DEPTH - 1) (by simp [MAX_DEPTH])]; simp [hist_value, MAX_DEPTH]
  rw [coloring_function_eq h hlt (hv d hlt) hb]
  simp only [Flt.ofInt, Int.cast_natCast]
  rw [div_fin_of_ne]
  exact_mod_cast hpos.ne'

/-- C18 (amended).  For every frame of samples below `MAX_DEPTH` with at least
one nonzero sample, and for every raw value in `1 .. MAX_DEPTH-1` (values
absent from the frame included), `normalized(raw_value)` is a finite number in
`[0, 1]`, and `normalized` is non-decreasing over `1 .. MAX_DEPTH-1`. -/
theorem normalized_monotone (hist : Array Int) (ds : List Nat)
    (hd : ∀ d ∈ ds, d < MAX_DEPTH) (hnz : ∃ d ∈ ds, d ≠ 0) :
    ∃ h, update_histogram hist ds = some h ∧
      (∀ d, 1 ≤ d → d ≤ MAX_DEPTH - 1 →
        ∃ q : ℚ, coloring_function h (Flt.ofNat d) = some (Flt.fin q) ∧ 0 ≤ q ∧ q ≤ 1) ∧
      (∀ d1 d2 (q1 q2 : ℚ), 1 ≤ d1 → d1 ≤ d2 → d2 ≤ MAX_DEPTH - 1 →
        coloring_function h (Flt.ofNat d1) = some (Flt.fin q1) →
        coloring_function h (Flt.ofNat d2) = some (Flt.fin q2) → q1 ≤ q2) := by
  obtain ⟨h, hu, hpos, hn⟩ := normalized_eq_all hist ds hd hnz
  have hposq : (0 : ℚ) < (count_upto ds (MAX_DEPTH - 1) : ℚ) := by exact_mod_cast hpos
  have hval : ∀ d, 1 ≤ d → d ≤ MAX_DEPTH - 1 →
      coloring_function h (Flt.ofNat d) =
        some (Flt.fin ((count_upto ds d : ℚ) / (count_upto ds (MAX_DEPTH - 1) : ℚ))) := by
    intro d h1 h2
    have hlt : d < MAX_DEPTH := by simp only [MAX_DEPTH] at h2 ⊢; omega
    have hne : d ≠ 0 := by omega
    rw [hn d hlt]
    simp [hist_value, hne]
  refine ⟨h, hu, ?_, ?_⟩
  · intro d h1 h2
    refine ⟨_, hval d h1 h2, by positivity, ?_⟩
    rw [div_le_one hposq]
    exact_mod_cast count_upto_mono ds h2
  · intro d1 d2 q1 q2 h1 h12 h2 hq1 hq2
    rw [hval d1 h1 (le_trans h12 h2)] at hq1
    rw [hval d2 (le_trans h1 h12) h2] at hq2
    have e1 := Flt.fin.inj (Option.some.inj hq1)
    have e2 := Flt.fin.inj (Option.some.inj hq2)
    rw [← e1, ← e2]
    apply div_le_div_of_nonneg_right _ hposq.le
    exact_mod_cast count_upto_mono ds h12

theorem normalized_monotone_witness :
    (∀ d ∈ [0, 0, 5], d < MAX_DEPTH) ∧ (∃ d ∈ [0, 0, 5], d ≠ 0) ∧
    ∃ h, update_histogram (mkArray MAX_DEPTH 0) [0, 0, 5] = some h ∧
      (∀ d, 1 ≤ d → d ≤ MAX_DEPTH - 1 →
        ∃ q : ℚ, coloring_function h (Flt.ofNat d) = some (Flt.fin q) ∧ 0 ≤ q ∧ q ≤ 1) ∧
      (∀ d1 d2 (q1 q2 : ℚ), 1 ≤ d1 → d1 ≤ d2 → d2 ≤ MAX_DEPTH - 1 →
        coloring_function h (Flt.ofNat d1) = some (Flt.fin q1) →
        coloring_function h (Flt.ofNat d2) = some (Flt.fin q2) → q1 ≤ q2) :=
  ⟨by decide, by decide,
    normalized_monotone (mkArray MAX_DEPTH 0) [0, 0, 5] (by decide) (by decide)⟩

/-- C18, as stated, fails at the raw value 0: in the frame `[0, 0, 5]` the
counter 0 holds the two zero samples and `hist[MAX_DEPTH-1]` the one nonzero
sample, so `normalized(0)` is 2, above 1 and above `normalized(1) = 0`. -/
theorem normalized_at_zero :
    ∃ h, update_histogram (mkArray MAX_DEPTH 0) [0, 0, 5] = some h ∧
      coloring_function h (Flt.ofNat 0) = some (Flt.fin 2) ∧
      coloring_function h (Flt.ofNat 1) = some (Flt.fin 0) ∧
      ¬ ((2 : ℚ) ≤ 1) ∧ ¬ ((2 : ℚ) ≤ 0) := by
  obtain ⟨h, hu, _, hn⟩ := normalized_eq_all (mkArray MAX_DEPTH 0) [0, 0, 5] (by decide)
    (by decide)
  have c0 : hist_value [0, 0, 5] 0 = 2 := by decide
  have c1 : hist_value [0, 0, 5] 1 = 0 := by decide
  have cm : count_upto [0, 0, 5] (MAX_DEPTH - 1) = 1 := by decide
  refine ⟨h, hu, ?_, ?_, by norm_num, by norm_num⟩
  · rw [hn 0 (by decide), c0, cm]
    norm_num
  · rw [hn 1 (by decide), c1, cm]
    norm_num

/-! ## The state invariant -/

theorem run_state_completes (e : Endian) (calls : List (List Byte × Nat)) :
    ∀ s : Colorizer, s.Valid → (∀ c ∈ calls, Completes e c) →
      ∃ s', run_state e s calls = some s' ∧ s'.Valid ∧
        ∀ last, calls.getLast? = some last → s'.pixel_cnt_ = last.1.length / last.2 := by
  induction calls with
  | nil => intro s hs _; exact ⟨s, rfl, hs, by simp⟩
  | cons c rest ih =>
    intro s hs hc
    have hcc := hc c (List.mem_cons_self _ _)
    have hstep : ∃ s1 out, process_frame s e c.1 c.2 = some (s1, out) ∧ s1.Valid ∧
        s1.pixel_cnt_ = c.1.length / c.2 := by
      rcases hcc with hsup | ⟨h0, h1, h2, h4⟩
      · obtain ⟨s1, out, _, hp, hv, _, hcnt, _⟩ := process_frame_supported s e c.1 c.2 hs hsup
        exact ⟨s1, out, hp, hv, hcnt⟩
      · obtain ⟨s1, hp, hmaps, hidx, hcnt, hlen⟩ :=
          process_frame_unsupported s e c.1 c.2 h0 h1 h2 h4
        obtain ⟨hv, cm, hcm, hg⟩ := hs
        exact ⟨s1, c.1, hp, ⟨hlen hv, cm, by rw [hmaps, hidx]; exact hcm, hg⟩, hcnt⟩
    obtain ⟨s1, out, hp, hv1, hcnt⟩ := hstep
    obtain ⟨s', hr, hv', hlast⟩ := ih s1 hv1 (fun x hx => hc x (List.mem_cons_of_mem _ hx))
    refine ⟨s', by simp [run_state, hp, hr], hv', ?_⟩
    intro last hl
    cases rest with
    | nil =>
      simp only [List.getLast?_singleton, Option.some.injEq] at hl
      subst hl
      simp only [run_state, Option.some.injEq] at hr
      subst hr
      exact hcnt
    | cons c2 rest2 =>
      apply hlast
      rw [← hl]
      simp [List.getLast?_cons_cons]

/-- The state invariant along calls that complete.  The output buffer of the
constructed `Colorizer` has length
`3 * pixel_cnt_`; and after every sequence of calls of `process_frame` from a
valid state, each call being a supported frame (1-byte or 2-byte pixels, or
4-byte pixels whose samples are all below `MAX_DEPTH`) or having an unsupported
width other than 0, the output buffer has length `3 * pixel_cnt_`, where
`pixel_cnt_` is the pixel count of the last call, and the next supported call
returns a buffer of three bytes per pixel. -/
theorem state_invariant (e : Endian) (s : Colorizer) (calls : List (List Byte × Nat))
    (hs : s.Valid) (hc : ∀ c ∈ calls, Completes e c) :
    Colorizer.new.rgb_pixel_data_.length = 3 * Colorizer.new.pixel_cnt_ ∧
    ∃ s', run_state e s calls = some s' ∧
      s'.rgb_pixel_data_.length = 3 * s'.pixel_cnt_ ∧
      (∀ last, calls.getLast? = some last → s'.pixel_cnt_ = last.1.length / last.2) ∧
      ∀ buf w, Supported e buf w →
        ∃ s'' out, process_frame s' e buf w = some (s'', out) ∧
          out.length = 3 * (buf.length / w) ∧
          s''.rgb_pixel_data_.length = 3 * s''.pixel_cnt_ := by
  obtain ⟨s', hr, hv, hlast⟩ := run_state_completes e calls s hs hc
  refine ⟨rfl, s', hr, by rw [hv.1]; omega, hlast, ?_⟩
  intro buf w hsup
  obtain ⟨s'', out, _, hp, hv2, _, _, _, _, hlen, _⟩ := process_frame_supported s' e buf w hv hsup
  exact ⟨s'', out, hp, hlen, by rw [hv2.1]; omega⟩

theorem state_invariant_witness :
    Colorizer.new.Valid ∧
    (∀ c ∈ [(([0, 10, 10, 20] : List Byte), 1), ([7, 7, 7, 7, 7, 7, 7], 3), ([1, 2], 1)],
      Completes Endian.little c) ∧
    Colorizer.new.rgb_pixel_data_.length = 3 * Colorizer.new.pixel_cnt_ ∧
    ∃ s', run_state Endian.little Colorizer.new
        [(([0, 10, 10, 20] : List Byte), 1), ([7, 7, 7, 7, 7, 7, 7], 3), ([1, 2], 1)] = some s' ∧
      s'.rgb_pixel_data_.length = 3 * s'.pixel_cnt_ ∧
      (∀ last,
        [(([0, 10, 10, 20] : List Byte), 1), ([7, 7, 7, 7, 7, 7, 7], 3), ([1, 2], 1)].getLast?
          = some last → s'.pixel_cnt_ = last.1.length / last.2) ∧
      ∀ buf w, Supported Endian.little buf w →
        ∃ s'' out, process_frame s' Endian.little buf w = some (s'', out) ∧
          out.length = 3 * (buf.length / w) ∧
          s''.rgb_pixel_data_.length = 3 * s''.pixel_cnt_ :=
  ⟨new_valid, by simp [Completes, Supported],
    state_invariant Endian.little Colorizer.new _ new_valid (by simp [Completes, Supported])⟩

/-- C19.  On 4-byte pixels the code misses the claim: the call on the single
sample `0x80000000`, whose conversion to `int` is negative, has no result,
hence no state after it in which the invariant could hold. -/
theorem state_invariant_out_of_range :
    read_sample Endian.little 4 [0, 0, 0, 128] 0 = 2147483648 ∧
    to_int 2147483648 = -2147483648 ∧
    ¬ ∃ s' out, process_frame Colorizer.new Endian.little [0, 0, 0, 128] 4 = some (s', out) ∧
      s'.rgb_pixel_data_.length = 3 * s'.pixel_cnt_ := by
  have h : process_frame Colorizer.new Endian.little [0, 0, 0, 128] 4 = none := by
    apply process_frame_out_of_range Colorizer.new Endian.little _ rfl
    refine ⟨2147483648, ?_, by decide⟩
    rw [List.mem_iff_getElem?]
    exact ⟨0, by rw [getElem?_raw_depth_data]; decide⟩
  refine ⟨by decide, by decide, ?_⟩
  rintro ⟨s', out, hp, _⟩
  rw [h] at hp
  exact absurd hp (by simp)

/-! ## Interpolation in exact arithmetic -/

theorem clamp01_of_mem {q : ℚ} (h0 : 0 ≤ q) (h1 : q ≤ 1) : clamp01 q = q := by
  simp [clamp01, max_eq_left h0, min_eq_left h1]

theorem mapM_mem {α β : Type} (f : α → Option β) :
    ∀ (l : List α) (bs : List β), l.mapM f = some bs → ∀ b ∈ bs, ∃ a ∈ l, f a = some b := by
  intro l
  induction l with
  | nil =>
    intro bs h b hb
    rw [List.mapM_nil] at h
    have : bs = [] := (Option.some.inj h).symm
    subst this
    simp at hb
  | cons a rest ih =>
    intro bs h b hb
    rw [List.mapM_cons] at h
    simp only [Option.bind_eq_bind, Option.bind_eq_some] at h
    obtain ⟨b0, hb0, bs0, hbs0, heq⟩ := h
    have : bs = b0 :: bs0 := (Option.some.inj heq).symm
    subst this
    rcases List.mem_cons.1 hb with rfl | hb'
    · exact ⟨a, List.mem_cons_self _ _, hb0⟩
    · obtain ⟨a', ha', hfa⟩ := ih bs0 hbs0 b hb'
      exact ⟨a', List.mem_cons_of_mem _ ha', hfa⟩

/-- The lookup `get` and its index on a gradient whose keys span `[0, 1]`, for
an argument whose clamped position is the number `clamp01 q`. -/
theorem index_of_clamp (cm : ColorMap) (steps : Nat) (cache : List float3)
    (hmax : cm.max_ = some (Flt.fin 1)) (hmin : cm.min_ = some (Flt.fin 0))
    (hsize : cm.size_ = some (steps + 1)) (hdata : cm.data_ = some cache)
    (hs : steps < 2147483647) (v : Flt) (q : ℚ)
    (hc : clamp_val (Flt.div (Flt.sub v (Flt.fin 0)) (Flt.sub (Flt.fin 1) (Flt.fin 0)))
      (Flt.ofInt 0) (Flt.ofInt 1) = Flt.fin (clamp01 q)) :
    cm.get_index v = some (slot steps q : Int) ∧ cm.get v = cache[slot steps q]? := by
  have h0 := floor_slot_nonneg steps q
  have hle := slot_le steps q
  have htr : Flt.trunc (clamp01 q * (steps : ℚ)) = ⌊clamp01 q * (steps : ℚ)⌋ := by
    have : 0 ≤ clamp01 q * (steps : ℚ) := mul_nonneg (clamp01_nonneg q) (Nat.cast_nonneg _)
    simp [Flt.trunc, this]
  have hcast : Flt.toInt (Flt.fin (clamp01 q * (steps : ℚ))) = some ⌊clamp01 q * (steps : ℚ)⌋ := by
    simp only [Flt.toInt, htr]
    rw [if_pos]
    unfold slot at hle
    omega
  have heq : Flt.eq (Flt.fin 1) (Flt.fin 0) = false := by
    simp [Flt.eq]
  have hnat : ((slot steps q : Nat) : Int) = ⌊clamp01 q * (steps : ℚ)⌋ := by
    unfold slot
    exact Int.toNat_of_nonneg h0
  constructor
  · simp only [ColorMap.get_index, hmax, hmin, hsize, Option.bind_eq_bind, Option.some_bind, hc,
      Nat.add_sub_cancel, Flt.ofNat, mul_fin, hcast, hnat]
  · simp only [ColorMap.get, hmax, hmin, hsize, hdata, heq, Option.bind_eq_bind,
      Option.some_bind, Bool.false_eq_true, if_false, hc, Nat.add_sub_cancel, Flt.ofNat, mul_fin,
      hcast, h0, if_true, slot]

/-- The clamped position of an argument that is not NaN is a number of `[0, 1]`. -/
theorem clamp_position_number {v : Flt} (hv : v ≠ Flt.nan) :
    ∃ q, clamp_val (Flt.div (Flt.sub v (Flt.fin 0)) (Flt.sub (Flt.fin 1) (Flt.fin 0)))
      (Flt.ofInt 0) (Flt.ofInt 1) = Flt.fin (clamp01 q) := by
  cases v with
  | nan => exact absurd rfl hv
  | fin q => exact ⟨q, clamp_position_fin q⟩
  | ninf =>
    refine ⟨0, ?_⟩
    rw [clamp01_zero]
    exact clamp_position_below (by simp [Flt.lt])
  | pinf =>
    refine ⟨1, ?_⟩
    rw [clamp01_one]
    exact clamp_position_above (by simp [Flt.lt])

/-- On a gradient whose keys differ, `get` and its index have no result at NaN:
the clamped position is NaN, whose conversion to `int` is undefined. -/
theorem get_nan (cm : ColorMap) (hmax : cm.max_ = some (Flt.fin 1))
    (hmin : cm.min_ = some (Flt.fin 0)) :
    cm.get_index Flt.nan = none ∧ cm.get Flt.nan = none := by
  have heq : Flt.eq (Flt.fin 1) (Flt.fin 0) = false := by
    simp [Flt.eq]
  have hc : clamp_val (Flt.div (Flt.sub Flt.nan (Flt.fin 0)) (Flt.sub (Flt.fin 1) (Flt.fin 0)))
      (Flt.ofInt 0) (Flt.ofInt 1) = Flt.nan := by
    simp [Flt.sub, Flt.neg, Flt.add, Flt.div, clamp_val, std_min, std_max, Flt.lt, Flt.ofInt]
  constructor
  · simp only [ColorMap.get_index, hmax, hmin, Option.bind_eq_bind, Option.some_bind, hc]
    cases cm.size_ with
    | none => rfl
    | some n => simp [Flt.mul, Flt.toInt]
  · simp only [ColorMap.get, hmax, hmin, heq, Option.bind_eq_bind, Option.some_bind,
      Bool.false_eq_true, if_false, hc]
    cases cm.size_ with
    | none => rfl
    | some n => simp [Flt.mul, Flt.toInt]

/-- C21 (amended).  For every gradient built from at least two colours with
`1 ≤ steps ≤ 2^24` (the range in which `size_ - 1` converts to `float`
exactly) and every argument `v` that is not NaN, infinite ones included: the
cache has `steps + 1` slots, `size_` is that length, the index
`(int)(clamp((v - min_) / (max_ - min_), 0, 1) * (size_ - 1))` that `get`
computes is defined and lies in `[0, cache_length - 1]`, and `get(v)` is the
slot at that index, so it has a result. -/
theorem lookup_index_in_cache (values : List float3) (steps : Nat) (hn : 2 ≤ values.length)
    (hs : 1 ≤ steps) (hs2 : steps ≤ 16777216) (v : Flt) (hv : v ≠ Flt.nan) :
    ∃ cache i, (ColorMap.new values steps).data_ = some cache ∧
      (ColorMap.new values steps).size_ = some cache.length ∧
      cache.length = steps + 1 ∧
      (ColorMap.new values steps).get_index v = some i ∧
      0 ≤ i ∧ i ≤ (cache.length : Int) - 1 ∧
      (ColorMap.new values steps).get v = cache[i.toNat]? ∧
      ((ColorMap.new values steps).get v).isSome = true := by
  obtain ⟨cache, hdata, hlen, hslots⟩ := cache_slots values steps hn hs
  obtain ⟨q, hq⟩ := clamp_position_number hv
  have hsize : (ColorMap.new values steps).size_ = some (steps + 1) := by
    rw [new_eq values steps hn]
  obtain ⟨hi, hg⟩ := index_of_clamp (ColorMap.new values steps) steps cache
    (by rw [new_eq values steps hn]) (by rw [new_eq values steps hn]) hsize hdata
    (by omega) v q hq
  have hle := slot_le steps q
  refine ⟨cache, (slot steps q : Int), hdata, ?_, hlen, hi, Int.natCast_nonneg _, ?_, ?_, ?_⟩
  · rw [hsize, hlen]
  · rw [hlen]
    push_cast
    omega
  · rw [hg, Int.toNat_natCast]
  · rw [hg]
    exact (hslots _ hle).2

theorem lookup_index_in_cache_witness :
    2 ≤ [rgb 0 0 0, rgb 255 255 255].length ∧ 1 ≤ 4000 ∧ 4000 ≤ 16777216 ∧
    Flt.pinf ≠ Flt.nan ∧
    ∃ cache i, (ColorMap.new [rgb 0 0 0, rgb 255 255 255] 4000).data_ = some cache ∧
      (ColorMap.new [rgb 0 0 0, rgb 255 255 255] 4000).size_ = some cache.length ∧
      cache.length = 4000 + 1 ∧
      (ColorMap.new [rgb 0 0 0, rgb 255 255 255] 4000).get_index Flt.pinf = some i ∧
      0 ≤ i ∧ i ≤ (cache.length : Int) - 1 ∧
      (ColorMap.new [rgb 0 0 0, rgb 255 255 255] 4000).get Flt.pinf = cache[i.toNat]? ∧
      ((ColorMap.new [rgb 0 0 0, rgb 255 255 255] 4000).get Flt.pinf).isSome = true :=
  ⟨by decide, by decide, by decide, fun h => Flt.noConfusion h,
    lookup_index_in_cache [rgb 0 0 0, rgb 255 255 255] 4000 (by decide) (by decide)
      (by decide) Flt.pinf (fun h => Flt.noConfusion h)⟩

/-- C21, the case the claim misses.  On the gradient built from black and
white with 4000 steps the index that `get` computes at NaN is undefined, and so
is the result of `get`: the clamped position of NaN is NaN, and the conversion
of NaN to `int` has no defined value. -/
theorem lookup_index_nan :
    (ColorMap.new [rgb 0 0 0, rgb 255 255 255] 4000).get_index Flt.nan = none ∧
    (ColorMap.new [rgb 0 0 0, rgb 255 255 255] 4000).get Flt.nan = none :=
  get_nan _ (by rw [new_eq _ _ (by decide)]) (by rw [new_eq _ _ (by decide)])

/-! ## Bytes are truncated, not rounded -/

namespace binary32

theorem rne_sub_le (x : ℚ) : (rne x : ℚ) - x ≤ 1 / 2 ∧ x - (rne x : ℚ) ≤ 1 / 2 := by
  have h0 := Int.floor_le x
  have h1 := Int.lt_floor_add_one x
  unfold rne
  split_ifs <;> push_cast <;> constructor <;> linarith

theorem rne_intCast (n : Int) : rne (n : ℚ) = n := by
  simp [rne]

theorem rne_eq_of_abs_lt {x : ℚ} {n : Int} (h : |x - n| < 1 / 2) : rne x = n := by
  rw [abs_lt] at h
  obtain ⟨h1, h2⟩ := h
  by_cases hx : (n : ℚ) ≤ x
  · have hfl : ⌊x⌋ = n := by
      rw [Int.floor_eq_iff]
      constructor <;> linarith
    unfold rne
    rw [hfl, if_pos (by linarith)]
  · have hfl : ⌊x⌋ = n - 1 := by
      rw [Int.floor_eq_iff]
      push_cast
      constructor <;> linarith
    unfold rne
    rw [hfl, if_neg (by push_cast; linarith), if_pos (by push_cast; linarith)]
    ring

theorem rne_mono {x y : ℚ} (h : x ≤ y) : rne x ≤ rne y := by
  by_contra hc
  push_neg at hc
  have h1 : (rne y : ℚ) + 1 ≤ (rne x : ℚ) := by exact_mod_cast hc
  have hx := rne_sub_le x
  have hy := rne_sub_le y
  have hxy : x = y := by linarith [hx.1, hy.2]
  rw [hxy] at hc
  exact lt_irrefl _ hc

theorem rne_zero : rne 0 = 0 := by
  have := rne_intCast 0
  simpa using this

theorem exponent_ge (q : ℚ) : -126 ≤ exponent q := by
  unfold exponent
  split_ifs
  · exact le_refl _
  · exact le_max_right _ _

theorem ulp_pos (q : ℚ) : 0 < ulp q := by
  unfold ulp
  positivity

theorem abs_lt_zpow_exponent (q : ℚ) : |q| < 2 ^ (exponent q + 1) := by
  unfold exponent
  split_ifs with h
  · rw [h, abs_zero]
    positivity
  · have h1 := Int.lt_zpow_succ_log_self (b := 2) (by norm_num) |q|
    have h2 : ((2 : ℕ) : ℚ) ^ (Int.log 2 |q| + 1) ≤ (2 : ℚ) ^ (max (Int.log 2 |q|) (-126) + 1) := by
      rw [Nat.cast_ofNat]
      apply zpow_le_zpow_right₀ (by norm_num)
      have := le_max_left (Int.log 2 |q|) (-126)
      omega
    exact lt_of_lt_of_le h1 h2

theorem zpow_exponent_le {q : ℚ} (h : exponent q ≠ -126) : 2 ^ exponent q ≤ |q| := by
  unfold exponent at h ⊢
  split_ifs at h ⊢ with h0
  · exact absurd rfl h
  · have hm : max (Int.log 2 |q|) (-126) = Int.log 2 |q| := by
      rcases max_cases (Int.log 2 |q|) (-126) with ⟨h1, _⟩ | ⟨h1, _⟩
      · exact h1
      · exact absurd h1 h
    rw [hm]
    have := Int.zpow_log_le_self (b := 2) (by norm_num) (abs_pos.2 h0)
    rwa [Nat.cast_ofNat] at this

theorem exponent_le_of_lt {q : ℚ} {k : Int} (hk : -125 ≤ k) (h : |q| < 2 ^ k) :
    exponent q ≤ k - 1 := by
  unfold exponent
  split_ifs with h0
  · omega
  · have h1 : Int.log 2 |q| < k := by
      rw [← Int.lt_zpow_iff_log_lt (by norm_num) (abs_pos.2 h0), Nat.cast_ofNat]
      exact h
    exact max_le (by omega) (by omega)

theorem exponent_mono {q q' : ℚ} (h : |q| ≤ |q'|) : exponent q ≤ exponent q' := by
  unfold exponent
  split_ifs with h0 h1 h1
  · exact le_refl _
  · exact le_max_right _ _
  · exfalso
    rw [h1, abs_zero] at h
    exact h0 (abs_eq_zero.1 (le_antisymm h (abs_nonneg q)))
  · exact max_le_max (Int.log_mono_right (abs_pos.2 h0) h) (le_refl _)

theorem nearest_zero : nearest 0 = 0 := by
  simp [nearest, rne_zero]

theorem abs_nearest_sub_le (q : ℚ) : |nearest q - q| ≤ ulp q / 2 := by
  have hu := ulp_pos q
  have h := rne_sub_le (q / ulp q)
  have e : nearest q - q = ((rne (q / ulp q) : ℚ) - q / ulp q) * ulp q := by
    unfold nearest
    field_simp
  rw [e, abs_mul, abs_of_pos hu]
  have : |(rne (q / ulp q) : ℚ) - q / ulp q| ≤ 1 / 2 := by
    rw [abs_le]
    constructor <;> linarith [h.1, h.2]
  calc |(rne (q / ulp q) : ℚ) - q / ulp q| * ulp q ≤ 1 / 2 * ulp q :=
        mul_le_mul_of_nonneg_right this hu.le
    _ = ulp q / 2 := by ring

theorem nearest_nonneg {q : ℚ} (h : 0 ≤ q) : 0 ≤ nearest q := by
  unfold nearest
  apply mul_nonneg _ (ulp_pos q).le
  have : rne 0 ≤ rne (q / ulp q) := rne_mono (div_nonneg h (ulp_pos q).le)
  rw [rne_zero] at this
  exact_mod_cast this

theorem nearest_nonpos {q : ℚ} (h : q ≤ 0) : nearest q ≤ 0 := by
  unfold nearest
  apply mul_nonpos_of_nonpos_of_nonneg _ (ulp_pos q).le
  have : rne (q / ulp q) ≤ rne 0 := rne_mono (div_nonpos_of_nonpos_of_nonneg h (ulp_pos q).le)
  rw [rne_zero] at this
  exact_mod_cast this

theorem two_zpow_mul_ulp (q : ℚ) (k : Int) : (2 : ℚ) ^ k * ulp q = 2 ^ (exponent q + (k - 23)) := by
  unfold ulp
  rw [← zpow_add₀ (by norm_num : (2 : ℚ) ≠ 0)]
  congr 1
  ring

theorem abs_div_ulp_lt (q : ℚ) : |q / ulp q| < 2 ^ (24 : Int) := by
  have hu := ulp_pos q
  rw [abs_div, abs_of_pos hu, div_lt_iff₀ hu, two_zpow_mul_ulp]
  have := abs_lt_zpow_exponent q
  have e : exponent q + (24 - 23) = exponent q + 1 := by ring
  rw [e]
  exact this

theorem le_abs_div_ulp {q : ℚ} (h : exponent q ≠ -126) : 2 ^ (23 : Int) ≤ |q / ulp q| := by
  have hu := ulp_pos q
  rw [abs_div, abs_of_pos hu, le_div_iff₀ hu, two_zpow_mul_ulp]
  have := zpow_exponent_le h
  have e : exponent q + (23 - 23) = exponent q := by ring
  rw [e]
  exact this

theorem nearest_le_zpow {q : ℚ} (h : 0 ≤ q) : nearest q ≤ 2 ^ (exponent q + 1) := by
  have hu := ulp_pos q
  have h1 : q / ulp q ≤ ((2 ^ 24 : Int) : ℚ) := by
    have := abs_div_ulp_lt q
    rw [abs_of_nonneg (div_nonneg h hu.le)] at this
    push_cast
    exact_mod_cast this.le
  have h2 : rne (q / ulp q) ≤ 2 ^ 24 := by
    have := rne_mono h1
    rwa [rne_intCast] at this
  have h3 : (rne (q / ulp q) : ℚ) ≤ 2 ^ (24 : Int) := by exact_mod_cast h2
  have e : (2 : ℚ) ^ (exponent q + 1) = 2 ^ (24 : Int) * ulp q := by
    rw [two_zpow_mul_ulp]
    congr 1
  unfold nearest
  rw [e]
  exact mul_le_mul_of_nonneg_right h3 hu.le

theorem zpow_le_nearest {q : ℚ} (h : 0 ≤ q) (he : exponent q ≠ -126) :
    2 ^ exponent q ≤ nearest q := by
  have hu := ulp_pos q
  have h1 : ((2 ^ 23 : Int) : ℚ) ≤ q / ulp q := by
    have := le_abs_div_ulp he
    rw [abs_of_nonneg (div_nonneg h hu.le)] at this
    push_cast
    exact_mod_cast this
  have h2 : 2 ^ 23 ≤ rne (q / ulp q) := by
    have := rne_mono h1
    rwa [rne_intCast] at this
  have h3 : (2 : ℚ) ^ (23 : Int) ≤ (rne (q / ulp q) : ℚ) := by exact_mod_cast h2
  have e : (2 : ℚ) ^ exponent q = 2 ^ (23 : Int) * ulp q := by
    rw [two_zpow_mul_ulp]
    congr 1
    ring
  unfold nearest
  rw [e]
  exact mul_le_mul_of_nonneg_right h3 hu.le

/-- Rounding is monotone on the non-negative numbers. -/
theorem nearest_mono {q q' : ℚ} (h0 : 0 ≤ q) (h : q ≤ q') : nearest q ≤ nearest q' := by
  have h0' : 0 ≤ q' := le_trans h0 h
  have he : exponent q ≤ exponent q' := by
    apply exponent_mono
    rw [abs_of_nonneg h0, abs_of_nonneg h0']
    exact h
  rcases eq_or_lt_of_le he with heq | hlt
  · have hu : ulp q = ulp q' := by unfold ulp; rw [heq]
    unfold nearest
    rw [hu]
    apply mul_le_mul_of_nonneg_right _ (ulp_pos q').le
    have := rne_mono (div_le_div_of_nonneg_right h (ulp_pos q').le)
    exact_mod_cast this
  · have h1 := nearest_le_zpow h0
    have hne : exponent q' ≠ -126 := by
      have := exponent_ge q
      omega
    have h2 := zpow_le_nearest h0' hne
    have h3 : (2 : ℚ) ^ (exponent q + 1) ≤ 2 ^ exponent q' :=
      zpow_le_zpow_right₀ (by norm_num) (by omega)
    linarith

theorem nearest_of_int_mul {q : ℚ} (n : Int) (h : q = (n : ℚ) * ulp q) : nearest q = q := by
  have hu := ulp_pos q
  have e : q / ulp q = (n : ℚ) := by
    rw [div_eq_iff hu.ne']
    exact h
  unfold nearest
  rw [e, rne_intCast]
  exact h.symm

/-- A number `n * 2^k` with fewer than 24 significant bits, `k` not below the
exponent of the least subnormal number, is its own rounding. -/
theorem nearest_of_rep_lt (n k : Int) (hn : |n| < 2 ^ 24) (hk : -149 ≤ k) :
    nearest ((n : ℚ) * 2 ^ k) = (n : ℚ) * 2 ^ k := by
  by_cases h0 : (n : ℚ) * 2 ^ k = 0
  · rw [h0, nearest_zero]
  have hq : |(n : ℚ) * 2 ^ k| < 2 ^ (24 + k) := by
    rw [abs_mul, abs_of_pos (by positivity : (0 : ℚ) < 2 ^ k), zpow_add₀ (by norm_num)]
    apply mul_lt_mul_of_pos_right _ (by positivity)
    have : ((|n| : Int) : ℚ) < ((2 ^ 24 : Int) : ℚ) := by exact_mod_cast hn
    push_cast at this
    exact_mod_cast this
  have he : exponent ((n : ℚ) * 2 ^ k) ≤ 24 + k - 1 := exponent_le_of_lt (by omega) hq
  obtain ⟨m, hm⟩ : ∃ m : Nat, (m : Int) = k - (exponent ((n : ℚ) * 2 ^ k) - 23) :=
    ⟨(k - (exponent ((n : ℚ) * 2 ^ k) - 23)).toNat, Int.toNat_of_nonneg (by omega)⟩
  apply nearest_of_int_mul (n * 2 ^ m)
  unfold ulp
  push_cast
  rw [mul_assoc, ← zpow_natCast, ← zpow_add₀ (by norm_num : (2 : ℚ) ≠ 0), hm]
  congr 2
  ring

theorem nearest_of_rep (n k : Int) (hn : |n| ≤ 2 ^ 24) (hk : -149 ≤ k) :
    nearest ((n : ℚ) * 2 ^ k) = (n : ℚ) * 2 ^ k := by
  rcases lt_or_eq_of_le hn with h | h
  · exact nearest_of_rep_lt n k h hk
  · have hn2 : n = 2 ^ 24 ∨ n = -2 ^ 24 := by
      rcases abs_cases n with ⟨h1, _⟩ | ⟨h1, _⟩ <;> omega
    have e : (n : ℚ) * 2 ^ k = ((n / 2 : Int) : ℚ) * 2 ^ (k + 1) := by
      rw [zpow_add₀ (by norm_num : (2 : ℚ) ≠ 0)]
      rcases hn2 with h1 | h1 <;> rw [h1] <;> norm_num <;> ring
    rw [e]
    apply nearest_of_rep_lt _ _ _ (by omega)
    rcases hn2 with h1 | h1 <;> rw [h1] <;> norm_num

theorem abs_rne_div_ulp_le (q : ℚ) : |rne (q / ulp q)| ≤ 2 ^ 24 := by
  have h := abs_div_ulp_lt q
  rw [abs_lt] at h
  have h1 : rne (q / ulp q) ≤ 2 ^ 24 := by
    have : q / ulp q ≤ ((2 ^ 24 : Int) : ℚ) := by push_cast; exact_mod_cast h.2.le
    have := rne_mono this
    rwa [rne_intCast] at this
  have h2 : -2 ^ 24 ≤ rne (q / ulp q) := by
    have : ((-2 ^ 24 : Int) : ℚ) ≤ q / ulp q := by push_cast; exact_mod_cast h.1.le
    have := rne_mono this
    rwa [rne_intCast] at this
  rw [abs_le]
  exact ⟨h2, h1⟩

/-- Rounding is idempotent. -/
theorem nearest_nearest (q : ℚ) : nearest (nearest q) = nearest q := by
  have h : nearest q = (rne (q / ulp q) : ℚ) * 2 ^ (exponent q - 23) := rfl
  rw [h]
  exact nearest_of_rep _ _ (abs_rne_div_ulp_le q) (by have := exponent_ge q; omega)

theorem nearest_natCast {n : Nat} (h : n ≤ 16777216) : nearest (n : ℚ) = (n : ℚ) := by
  have := nearest_of_rep (n : Int) 0 (by rw [abs_of_nonneg (by omega)]; norm_num; omega) (by norm_num)
  simpa using this

theorem nearest_one : nearest 1 = 1 := by
  have := @nearest_natCast 1 (by norm_num)
  simpa using this

/-- The rounding error below `2^k`: at most half a unit of the binade below. -/
theorem abs_nearest_sub_le_zpow {q : ℚ} {k : Int} (hk : -125 ≤ k) (h : |q| < 2 ^ k) :
    |nearest q - q| ≤ 2 ^ (k - 25) := by
  have he := exponent_le_of_lt hk h
  have h1 := abs_nearest_sub_le q
  have h2 : ulp q ≤ 2 ^ (k - 24) := by
    unfold ulp
    exact zpow_le_zpow_right₀ (by norm_num) (by omega)
  have h3 : (2 : ℚ) ^ (k - 24) = 2 * 2 ^ (k - 25) := by
    rw [show k - 24 = 1 + (k - 25) by ring, zpow_add₀ (by norm_num : (2 : ℚ) ≠ 0)]
    norm_num
  linarith

/-- The rounding error on `[0, 1]`. -/
theorem abs_nearest_sub_le_unit {q : ℚ} (h0 : 0 ≤ q) (h1 : q ≤ 1) :
    |nearest q - q| ≤ 1 / 33554432 := by
  rcases eq_or_lt_of_le h1 with h | h
  · rw [h, nearest_one]
    norm_num
  · have := @abs_nearest_sub_le_zpow q 0 (by norm_num) (by rw [abs_of_nonneg h0]; simpa using h)
    norm_num at this
    exact this

theorem nearest_le_of_le_natCast {q : ℚ} {n : Nat} (hn : n ≤ 16777216) (h0 : 0 ≤ q)
    (h : q ≤ (n : ℚ)) : nearest q ≤ (n : ℚ) := by
  have := nearest_mono h0 h
  rwa [nearest_natCast hn] at this

theorem natCast_le_nearest {q : ℚ} {n : Nat} (hn : n ≤ 16777216) (h : (n : ℚ) ≤ q) :
    (n : ℚ) ≤ nearest q := by
  have := nearest_mono (Nat.cast_nonneg n) h
  rwa [nearest_natCast hn] at this

theorem round32_of_lt {q : ℚ} (h : |nearest q| < 2 ^ 128) : round32 q = Flt.fin (nearest q) := by
  unfold round32
  rw [if_neg (not_le.2 h)]

theorem round32_of_mem {q : ℚ} (h0 : 0 ≤ q) (h1 : q ≤ 16777216) :
    round32 q = Flt.fin (nearest q) := by
  apply round32_of_lt
  have h2 : nearest q ≤ ((16777216 : Nat) : ℚ) :=
    nearest_le_of_le_natCast (le_refl _) h0 (by exact_mod_cast h1)
  rw [abs_of_nonneg (nearest_nonneg h0)]
  have : ((16777216 : Nat) : ℚ) < 2 ^ 128 := by norm_num
  linarith

/-- Evaluation of a rounding: `n * 2^(e - 23)` is the rounding of every `q` of
the binade `e` that is less than half a unit away. -/
theorem nearest_eval {q : ℚ} (e n : Int) (he : -126 ≤ e) (h1 : 2 ^ e ≤ |q|)
    (h2 : |q| < 2 ^ (e + 1)) (hn : |q / 2 ^ (e - 23) - n| < 1 / 2) :
    nearest q = (n : ℚ) * 2 ^ (e - 23) := by
  have h0 : q ≠ 0 := by
    intro h
    rw [h, abs_zero] at h1
    exact absurd h1 (not_le.2 (by positivity))
  have hlog : Int.log 2 |q| = e := by
    apply le_antisymm
    · have : Int.log 2 |q| < e + 1 := by
        rw [← Int.lt_zpow_iff_log_lt (by norm_num) (abs_pos.2 h0), Nat.cast_ofNat]
        exact h2
      omega
    · rw [← Int.zpow_le_iff_le_log (by norm_num) (abs_pos.2 h0), Nat.cast_ofNat]
      exact h1
  have hexp : exponent q = e := by
    unfold exponent
    rw [if_neg h0, hlog]
    exact max_eq_left he
  unfold nearest ulp
  rw [hexp, rne_eq_of_abs_lt hn]

/-! ## Binary32 arithmetic on finite values -/

theorem round32_zero : round32 0 = Flt.fin 0 := by
  rw [round32_of_mem (le_refl _) (by norm_num), nearest_zero]

theorem round32_natCast {n : Nat} (h : n ≤ 16777216) : round32 (n : ℚ) = Flt.fin (n : ℚ) := by
  rw [round32_of_mem (Nat.cast_nonneg n) (by exact_mod_cast h), nearest_natCast h]

theorem ofNat_eq {n : Nat} (h : n ≤ 16777216) : ofNat n = Flt.fin (n : ℚ) := round32_natCast h

theorem ofInt_zero : ofInt 0 = Flt.fin 0 := by
  simp [ofInt, round32_zero]

theorem ofInt_one : ofInt 1 = Flt.fin 1 := by
  have := @round32_natCast 1 (by norm_num)
  simpa [ofInt] using this

theorem add_fin32 (a b : ℚ) : add (Flt.fin a) (Flt.fin b) = round32 (a + b) := rfl

theorem sub_fin32 (a b : ℚ) : sub (Flt.fin a) (Flt.fin b) = round32 (a - b) := by
  simp [sub, Flt.sub, Flt.neg, Flt.add, rnd, sub_eq_add_neg]

theorem mul_fin32 (a b : ℚ) : mul (Flt.fin a) (Flt.fin b) = round32 (a * b) := rfl

theorem div_fin32 {a b : ℚ} (h : b ≠ 0) : div (Flt.fin a) (Flt.fin b) = round32 (a / b) := by
  simp [div, Flt.div, h, rnd]

theorem nearest_mem_unit {q : ℚ} (h0 : 0 ≤ q) (h1 : q ≤ 1) : 0 ≤ nearest q ∧ nearest q ≤ 1 := by
  refine ⟨nearest_nonneg h0, ?_⟩
  have := @nearest_le_of_le_natCast q 1 (by norm_num) h0 (by simpa using h1)
  simpa using this

theorem round32_unit {q : ℚ} (h0 : 0 ≤ q) (h1 : q ≤ 1) : round32 q = Flt.fin (nearest q) :=
  round32_of_mem h0 (by linarith)

/-! ## The positions of the anchors -/

theorem position_mem_unit {n i : Nat} (hn : 2 ≤ n) (hi : i < n) :
    0 ≤ position n i ∧ position n i ≤ 1 := by
  have hM : (0 : ℚ) < ((n - 1 : Nat) : ℚ) := by
    have : 0 < n - 1 := by omega
    exact_mod_cast this
  apply nearest_mem_unit (div_nonneg (Nat.cast_nonneg i) hM.le)
  rw [div_le_one hM]
  have : i ≤ n - 1 := by omega
  exact_mod_cast this

theorem anchor_key_fin32 {n i : Nat} (hn : 2 ≤ n) (hn2 : n ≤ 16777216) (hi : i < n) :
    anchor_key n i = Flt.fin (position n i) := by
  have hM : (0 : ℚ) < ((n - 1 : Nat) : ℚ) := by
    have : 0 < n - 1 := by omega
    exact_mod_cast this
  unfold anchor_key position
  rw [ofNat_eq (by omega), ofNat_eq (by omega), div_fin32 hM.ne']
  apply round32_unit (div_nonneg (Nat.cast_nonneg i) hM.le)
  rw [div_le_one hM]
  have : i ≤ n - 1 := by omega
  exact_mod_cast this

theorem position_zero (n : Nat) : position n 0 = 0 := by
  simp [position, nearest_zero]

theorem position_last {n : Nat} (hn : 2 ≤ n) : position n (n - 1) = 1 := by
  have hM : ((n - 1 : Nat) : ℚ) ≠ 0 := by
    have : n - 1 ≠ 0 := by omega
    exact_mod_cast this
  unfold position
  rw [div_self hM, nearest_one]

/-- Neighbouring positions are at least `2^(-48)` apart. -/
theorem position_gap {n i : Nat} (hn : 2 ≤ n) (hn2 : n ≤ 16777216) (hi : i + 1 < n) :
    position n i + 1 / 281474976710656 ≤ position n (i + 1) := by
  have hM : (0 : ℚ) < ((n - 1 : Nat) : ℚ) := by
    have : 0 < n - 1 := by omega
    exact_mod_cast this
  have hM2 : ((n - 1 : Nat) : ℚ) ≤ 16777215 := by
    have : n - 1 ≤ 16777215 := by omega
    exact_mod_cast this
  have ha0 : (0 : ℚ) ≤ (i : ℚ) / ((n - 1 : Nat) : ℚ) := div_nonneg (Nat.cast_nonneg i) hM.le
  have hb0 : (0 : ℚ) ≤ ((i + 1 : Nat) : ℚ) / ((n - 1 : Nat) : ℚ) :=
    div_nonneg (Nat.cast_nonneg _) hM.le
  have ha1 : (i : ℚ) / ((n - 1 : Nat) : ℚ) ≤ 1 := by
    rw [div_le_one hM]
    have : i ≤ n - 1 := by omega
    exact_mod_cast this
  have hb1 : ((i + 1 : Nat) : ℚ) / ((n - 1 : Nat) : ℚ) ≤ 1 := by
    rw [div_le_one hM]
    have : i + 1 ≤ n - 1 := by omega
    exact_mod_cast this
  have ea := abs_le.1 (abs_nearest_sub_le_unit ha0 ha1)
  have eb := abs_le.1 (abs_nearest_sub_le_unit hb0 hb1)
  have hd : ((i + 1 : Nat) : ℚ) / ((n - 1 : Nat) : ℚ) - (i : ℚ) / ((n - 1 : Nat) : ℚ)
      = 1 / ((n - 1 : Nat) : ℚ) := by
    rw [Nat.cast_add, Nat.cast_one]
    ring
  have hinv : (1 : ℚ) / 16777215 ≤ 1 / ((n - 1 : Nat) : ℚ) :=
    one_div_le_one_div_of_le hM hM2
  unfold position
  have : (1 : ℚ) / 16777215 - 1 / 33554432 - 1 / 33554432 ≥ 1 / 281474976710656 := by norm_num
  linarith [ea.1, ea.2, eb.1, eb.2]

theorem position_lt {n i j : Nat} (hn : 2 ≤ n) (hn2 : n ≤ 16777216) (hij : i < j) (hj : j < n) :
    position n i + 1 / 281474976710656 ≤ position n j := by
  induction j with
  | zero => omega
  | succ k ih =>
    rcases Nat.lt_succ_iff_lt_or_eq.1 hij with h | h
    · have h1 := ih h (by omega)
      have h2 := @position_gap n k hn hn2 hj
      linarith
    · rw [h]
      exact position_gap hn hn2 hj

theorem position_strict {n i j : Nat} (hn : 2 ≤ n) (hn2 : n ≤ 16777216) (hij : i < j)
    (hj : j < n) : position n i < position n j := by
  have := position_lt hn hn2 hij hj
  linarith

theorem position_le {n i j : Nat} (hn : 2 ≤ n) (hn2 : n ≤ 16777216) (hij : i ≤ j)
    (hj : j < n) : position n i ≤ position n j := by
  rcases Nat.lt_or_eq_of_le hij with h | h
  · exact (position_strict hn hn2 h hj).le
  · rw [h]

/-! ## The map that the constructor builds, in binary32 arithmetic -/

theorem fill_map_eq32 {n : Nat} (hn : 2 ≤ n) (hn2 : n ≤ 16777216) (vs : List float3) :
    ∀ (i : Nat) (m : FloatMap), i + vs.length ≤ n →
      (vs ≠ [] → ∀ p ∈ m, Flt.lt p.1 (anchor_key n i) = true) →
      fill_map n i vs m = m ++ anchors_from n i vs := by
  induction vs with
  | nil => intro i m _ _; simp [fill_map, anchors_from]
  | cons v rest ih =>
    intro i m hlen h
    simp only [List.length_cons] at hlen
    simp only [fill_map, anchors_from]
    rw [map_assign_append _ _ m (h (List.cons_ne_nil _ _)), ih (i + 1)]
    · simp
    · omega
    · intro hrest p hp
      have hr : 1 ≤ rest.length := by
        cases rest with
        | nil => exact absurd rfl hrest
        | cons a l => simp
      have hi1 : i + 1 < n := by omega
      rw [anchor_key_fin32 hn hn2 hi1]
      rcases List.mem_append.1 hp with hp | hp
      · have := h (List.cons_ne_nil _ _) p hp
        rw [anchor_key_fin32 hn hn2 (by omega)] at this
        exact lt_of_lt_fin this (position_strict hn hn2 (Nat.lt_succ_self i) hi1)
      · rw [List.mem_singleton] at hp
        subst hp
        rw [anchor_key_fin32 hn hn2 (by omega)]
        simpa using position_strict hn hn2 (Nat.lt_succ_self i) hi1

theorem length_anchors_from32 (n : Nat) (vs : List float3) :
    ∀ i, (anchors_from n i vs).length = vs.length := by
  induction vs with
  | nil => intro i; rfl
  | cons v rest ih => intro i; simp [anchors_from, ih]

theorem getElem?_anchors_from32 (n : Nat) (vs : List float3) :
    ∀ i j, (anchors_from n i vs)[j]? = (vs[j]?).map (fun v => (anchor_key n (i + j), v)) := by
  induction vs with
  | nil => intro i j; simp [anchors_from]
  | cons v rest ih =>
    intro i j
    cases j with
    | zero => simp [anchors_from]
    | succ j =>
      simp only [anchors_from, List.getElem?_cons_succ]
      rw [ih (i + 1) j]
      have : i + 1 + j = i + (j + 1) := by omega
      rw [this]

/-- Entry `j` of the map of a gradient: the position and the colour `j`. -/
theorem getElem?_anchors32 (values : List float3) (hn : 2 ≤ values.length)
    (hn2 : values.length ≤ 16777216) {j : Nat} (hj : j < values.length) :
    (anchors_from values.length 0 values)[j]? =
      some (Flt.fin (position values.length j), values[j]) := by
  rw [getElem?_anchors_from32, List.getElem?_eq_getElem hj, zero_add, anchor_key_fin32 hn hn2 hj]
  rfl

theorem mem_anchors32 {values : List float3} (hn : 2 ≤ values.length)
    (hn2 : values.length ≤ 16777216) {p : Flt × float3}
    (hp : p ∈ anchors_from values.length 0 values) :
    ∃ j, ∃ hj : j < values.length, p = (Flt.fin (position values.length j), values[j]) := by
  obtain ⟨j, hj⟩ := List.mem_iff_getElem?.1 hp
  have hjl : j < values.length := by
    have := (List.getElem?_eq_some_iff.1 hj).1
    rwa [length_anchors_from32] at this
  rw [getElem?_anchors32 values hn hn2 hjl] at hj
  exact ⟨j, hjl, (Option.some.inj hj).symm⟩

theorem finiteKeys_anchors32 {values : List float3} (hn : 2 ≤ values.length)
    (hn2 : values.length ≤ 16777216) : FiniteKeys (anchors_from values.length 0 values) := by
  intro p hp
  obtain ⟨j, hj, rfl⟩ := mem_anchors32 hn hn2 hp
  exact ⟨_, rfl⟩

theorem anchors_ne_nil32 {values : List float3} (hn : 2 ≤ values.length) :
    anchors_from values.length 0 values ≠ [] := by
  intro h
  have := length_anchors_from32 values.length values 0
  rw [h] at this
  simp at this
  omega

theorem head?_anchors32 (values : List float3) (hn : 2 ≤ values.length)
    (hn2 : values.length ≤ 16777216) :
    ∃ v, values[0]? = some v ∧
      (anchors_from values.length 0 values).head? = some (Flt.fin 0, v) := by
  have h0 : 0 < values.length := by omega
  refine ⟨values[0], List.getElem?_eq_getElem h0, ?_⟩
  rw [List.head?_eq_getElem?, getElem?_anchors32 values hn hn2 h0, position_zero]

theorem getLast?_anchors32 (values : List float3) (hn : 2 ≤ values.length)
    (hn2 : values.length ≤ 16777216) :
    ∃ v, values[values.length - 1]? = some v ∧
      (anchors_from values.length 0 values).getLast? = some (Flt.fin 1, v) := by
  have hlt : values.length - 1 < values.length := by omega
  refine ⟨values[values.length - 1], List.getElem?_eq_getElem hlt, ?_⟩
  rw [List.getLast?_eq_getElem?, length_anchors_from32, getElem?_anchors32 values hn hn2 hlt,
    position_last hn]

theorem initialize_cache_eq32 (cm : ColorMap) (steps : Nat) {first last : Flt × float3}
    (h1 : cm.map_.head? = some first) (h2 : cm.map_.getLast? = some last) :
    initialize_cache cm steps =
      { cm with
        min_ := some first.1
        max_ := some last.1
        cache_ := (List.range (steps + 1)).mapM (cache_entry cm.map_ first.1 last.1 steps)
        size_ := some (steps + 1)
        data_ := (List.range (steps + 1)).mapM (cache_entry cm.map_ first.1 last.1 steps) } := by
  simp [initialize_cache, h1, h2]

/-- The members of a gradient built from 2 to `2^24` colours. -/
theorem new_eq32 (values : List float3) (steps : Nat) (hn : 2 ≤ values.length)
    (hn2 : values.length ≤ 16777216) :
    new values steps =
      { map_ := anchors_from values.length 0 values
        min_ := some (Flt.fin 0)
        max_ := some (Flt.fin 1)
        cache_ := (List.range (steps + 1)).mapM
          (cache_entry (anchors_from values.length 0 values) (Flt.fin 0) (Flt.fin 1) steps)
        size_ := some (steps + 1)
        data_ := (List.range (steps + 1)).mapM
          (cache_entry (anchors_from values.length 0 values) (Flt.fin 0) (Flt.fin 1) steps) } := by
  have h := fill_map_eq32 hn hn2 values 0 [] (by omega) (by simp)
  simp only [List.nil_append] at h
  obtain ⟨v0, _, hhead⟩ := head?_anchors32 values hn hn2
  obtain ⟨v1, _, hlast⟩ := getLast?_anchors32 values hn hn2
  unfold new
  rw [h, initialize_cache_eq32 _ steps hhead hlast]

/-! ## `calc` in binary32 arithmetic -/

/-- The value of `calc` on a non-empty map with finite keys at a finite
argument: the colour of an entry, or the interpolation of two entries whose
keys enclose the argument. -/
theorem calc_cases32 (m : FloatMap) (hm : m ≠ []) (hk : FiniteKeys m) (x : ℚ) :
    (∃ p ∈ m, ColorMap_calc m (Flt.fin x) = some p.2) ∨
    (∃ a ∈ m, ∃ b ∈ m, ∃ ka kb : ℚ, a.1 = Flt.fin ka ∧ b.1 = Flt.fin kb ∧ ka ≤ x ∧ x < kb ∧
      ColorMap_calc m (Flt.fin x) =
        some (lerp a.2 b.2
          (div (sub (Flt.fin x) (Flt.fin ka)) (sub (Flt.fin kb) (Flt.fin ka))))) := by
  have hlen : m.length ≠ 0 := by simpa using hm
  unfold ColorMap_calc
  simp only [hlen, if_false]
  by_cases hfind : find m (Flt.fin x) = m.length
  · simp only [hfind, ne_eq, not_true_eq_false, if_false]
    obtain ⟨first, hfirst⟩ : ∃ first, m.head? = some first := by
      cases m with
      | nil => exact absurd rfl hm
      | cons a l => exact ⟨a, rfl⟩
    obtain ⟨last, hlast⟩ : ∃ last, m.getLast? = some last := by
      cases h : m.getLast? with
      | none => exact absurd (List.getLast?_eq_none_iff.1 h) hm
      | some a => exact ⟨a, rfl⟩
    have hfmem : first ∈ m := List.mem_of_mem_head? hfirst
    have hlmem : last ∈ m := List.mem_of_mem_getLast? hlast
    simp only [hfirst, hlast, Option.bind_eq_bind, Option.some_bind]
    by_cases h1 : Flt.lt (Flt.fin x) first.1 = true
    · simp only [h1, if_true]
      exact Or.inl ⟨first, hfmem, rfl⟩
    simp only [h1, if_false]
    by_cases h2 : Flt.lt last.1 (Flt.fin x) = true
    · simp only [h2, if_true]
      exact Or.inl ⟨last, hlmem, rfl⟩
    simp only [h2, if_false]
    right
    rcases find_end hfind with hlb | ⟨p, hp, hplt⟩
    · exfalso
      have := (List.findIdx_eq_length.1 hlb) last hlmem
      simp only [Bool.not_eq_false'] at this
      exact h2 this
    · have hlblt : lower_bound m (Flt.fin x) < m.length := (List.getElem?_eq_some_iff.1 hp).1
      have hpmem : p ∈ m := by
        obtain ⟨h, rfl⟩ := List.getElem?_eq_some_iff.1 hp
        exact List.getElem_mem _
      have hublt : upper_bound m (Flt.fin x) < m.length :=
        List.findIdx_lt_length_of_exists ⟨p, hpmem, hplt⟩
      have hub : Flt.lt (Flt.fin x) (m[upper_bound m (Flt.fin x)]).1 = true :=
        @List.findIdx_getElem _ (fun q : Flt × float3 => Flt.lt (Flt.fin x) q.1) m hublt
      have hlolt : (if lower_bound m (Flt.fin x) = 0 then 0 else lower_bound m (Flt.fin x) - 1)
          < m.length := by
        split <;> omega
      obtain ⟨ka, hka⟩ := hk _ (List.getElem_mem hlolt)
      obtain ⟨kb, hkb⟩ := hk _ (List.getElem_mem hublt)
      obtain ⟨kf, hkf⟩ := hk _ hfmem
      have hxb : x < kb := by simpa [hkb] using hub
      have hax : ka ≤ x := by
        by_cases h0 : lower_bound m (Flt.fin x) = 0
        · have hidx : m[if lower_bound m (Flt.fin x) = 0 then 0
              else lower_bound m (Flt.fin x) - 1]? = some first := by
            simp only [h0, if_true]
            rw [← List.head?_eq_getElem?]
            exact hfirst
          rw [List.getElem?_eq_getElem hlolt] at hidx
          have hfk : ka = kf := by
            have h3 := congrArg Prod.fst (Option.some.inj hidx)
            rw [hka, hkf] at h3
            exact Flt.fin.inj h3
          rw [hkf] at h1
          simp only [lt_fin, decide_eq_true_eq, not_lt] at h1
          rw [hfk]
          exact h1
        · have hlt : lower_bound m (Flt.fin x) - 1 < lower_bound m (Flt.fin x) := by omega
          have h3 := @List.not_of_lt_findIdx _ (fun q : Flt × float3 => !(Flt.lt q.1 (Flt.fin x)))
            m _ hlt
          simp only [h0, if_false] at hka
          simp only [Bool.not_eq_false'] at h3
          rw [hka] at h3
          simp only [lt_fin, decide_eq_true_eq] at h3
          exact h3.le
      refine ⟨_, List.getElem_mem hlolt, _, List.getElem_mem hublt, ka, kb, hka, hkb, hax, hxb, ?_⟩
      rw [List.getElem?_eq_getElem hlolt, List.getElem?_eq_getElem hublt]
      simp only [Option.some_bind, hka, hkb, Bool.false_eq_true, if_false]
  · have hlt : find m (Flt.fin x) < m.length := lt_of_le_of_ne (find_le m _) hfind
    simp only [ne_eq, hfind, not_false_eq_true, if_true]
    left
    refine ⟨m[find m (Flt.fin x)], List.getElem_mem hlt, ?_⟩
    simp [map_at, List.getElem?_eq_getElem hlt]

theorem calc_nan32 (m : FloatMap) (first : Flt × float3) (h : m.head? = some first) :
    ColorMap_calc m Flt.nan = some first.2 := by
  cases m with
  | nil => simp at h
  | cons a rest =>
    simp only [List.head?_cons, Option.some.injEq] at h
    subst h
    have hlb : lower_bound (a :: rest) Flt.nan = 0 := by
      cases ha : a.1 <;> simp [lower_bound, List.findIdx_cons, Flt.lt, ha]
    have hlt : Flt.lt Flt.nan a.1 = false := by
      cases ha : a.1 <;> simp [Flt.lt]
    have hfind : find (a :: rest) Flt.nan = 0 := by
      simp [find, hlb, hlt]
    simp [ColorMap_calc, map_at, hfind]

theorem calc_pinf32 (m : FloatMap) (hk : FiniteKeys m) (last : Flt × float3)
    (hl : m.getLast? = some last) : ColorMap_calc m Flt.pinf = some last.2 := by
  have hm : m ≠ [] := by
    intro h
    rw [h] at hl
    simp at hl
  have hlen : m.length ≠ 0 := by simpa using hm
  have hlb : lower_bound m Flt.pinf = m.length := by
    unfold lower_bound
    rw [List.findIdx_eq_length]
    intro p hp
    obtain ⟨k, hk'⟩ := hk p hp
    simp [hk', Flt.lt]
  have hfind : find m Flt.pinf = m.length := by
    unfold find
    rw [hlb, List.getElem?_eq_none (le_refl _)]
  obtain ⟨first, hfirst⟩ : ∃ first, m.head? = some first := by
    cases m with
    | nil => exact absurd rfl hm
    | cons a l => exact ⟨a, rfl⟩
  obtain ⟨kl, hkl⟩ := hk last (List.mem_of_mem_getLast? hl)
  have h1 : Flt.lt Flt.pinf first.1 = false := by
    cases first.1 <;> rfl
  have h2 : Flt.lt last.1 Flt.pinf = true := by
    rw [hkl]
    rfl
  unfold ColorMap_calc
  simp [hlen, hfind, hfirst, hl, h1, h2]

theorem calc_ninf32 (m : FloatMap) (hk : FiniteKeys m) (first : Flt × float3)
    (hf : m.head? = some first) : ColorMap_calc m Flt.ninf = some first.2 := by
  cases m with
  | nil => simp at hf
  | cons a rest =>
    simp only [List.head?_cons, Option.some.injEq] at hf
    subst hf
    obtain ⟨k, hk'⟩ := hk a (List.mem_cons_self _ _)
    have hlb : lower_bound (a :: rest) Flt.ninf = 0 := by
      simp [lower_bound, List.findIdx_cons, hk', Flt.lt]
    have h1 : Flt.lt Flt.ninf a.1 = true := by
      rw [hk']
      rfl
    have hfind : find (a :: rest) Flt.ninf = (a :: rest).length := by
      simp [find, hlb, h1]
    unfold ColorMap_calc
    rw [hfind]
    simp [h1]

theorem calc_nan_key32 (c : float3) (t : Flt) : ColorMap_calc [(Flt.nan, c)] t = some c := by
  have h1 : Flt.lt Flt.nan t = false := by cases t <;> rfl
  have h2 : Flt.lt t Flt.nan = false := by cases t <;> rfl
  have hlb : lower_bound [(Flt.nan, c)] t = 0 := by
    simp [lower_bound, List.findIdx_cons, h1]
  have hfind : find [(Flt.nan, c)] t = 0 := by
    simp [find, hlb, h2]
  simp [ColorMap_calc, map_at, hfind]

/-- Strictly between the positions of two neighbouring colours `j` and `j + 1`,
`calc` interpolates these two colours. -/
theorem calc_between32 (values : List float3) (hn : 2 ≤ values.length)
    (hn2 : values.length ≤ 16777216) (j : Nat) (hj : j + 1 < values.length) (x : ℚ)
    (h1 : position values.length j < x) (h2 : x < position values.length (j + 1)) :
    ColorMap_calc (anchors_from values.length 0 values) (Flt.fin x) =
      some (lerp values[j] values[j + 1]
        (div (sub (Flt.fin x) (Flt.fin (position values.length j)))
          (sub (Flt.fin (position values.length (j + 1)))
            (Flt.fin (position values.length j))))) := by
  have hlen := length_anchors_from32 values.length values 0
  have hj1m : j + 1 < (anchors_from values.length 0 values).length := by rw [hlen]; exact hj
  have hjm : j < (anchors_from values.length 0 values).length := by omega
  have hjv : j < values.length := by omega
  have hkey : ∀ i (h : i < (anchors_from values.length 0 values).length),
      (anchors_from values.length 0 values)[i].1 = Flt.fin (position values.length i) := by
    intro i h
    have hi : i < values.length := by rwa [hlen] at h
    have := getElem?_anchors32 values hn hn2 hi
    rw [List.getElem?_eq_getElem h] at this
    rw [Option.some.inj this]
  have hbelow : ∀ i, i < j + 1 → position values.length i < x := by
    intro i hi
    exact lt_of_le_of_lt (position_le hn hn2 (Nat.lt_succ_iff.1 hi) hjv) h1
  have hlb : lower_bound (anchors_from values.length 0 values) (Flt.fin x) = j + 1 := by
    unfold lower_bound
    rw [List.findIdx_eq hj1m]
    constructor
    · rw [hkey]
      simpa using h2.le
    · intro i hij
      rw [hkey]
      simpa using hbelow i hij
  have hub : upper_bound (anchors_from values.length 0 values) (Flt.fin x) = j + 1 := by
    unfold upper_bound
    rw [List.findIdx_eq hj1m]
    constructor
    · rw [hkey]
      simpa using h2
    · intro i hij
      rw [hkey]
      simpa using (hbelow i hij).le
  have hfind : find (anchors_from values.length 0 values) (Flt.fin x) =
      (anchors_from values.length 0 values).length := by
    unfold find
    rw [hlb, List.getElem?_eq_getElem hj1m]
    have : Flt.lt (Flt.fin x) ((anchors_from values.length 0 values)[j + 1]).1 = true := by
      rw [hkey]
      simpa using h2
    simp only [this, if_true]
  obtain ⟨v0, _, hhead⟩ := head?_anchors32 values hn hn2
  obtain ⟨v1, _, hlast⟩ := getLast?_anchors32 values hn hn2
  have hx0 : 0 < x := by
    have := hbelow 0 (by omega)
    rwa [position_zero] at this
  have hx1 : x < 1 := by
    have hle : position values.length (j + 1) ≤ position values.length (values.length - 1) :=
      position_le hn hn2 (by omega) (by omega)
    rw [position_last hn] at hle
    exact lt_of_lt_of_le h2 hle
  have hne : (anchors_from values.length 0 values).length ≠ 0 := by omega
  have e0 := getElem?_anchors32 values hn hn2 hjv
  have e1 := getElem?_anchors32 values hn hn2 hj
  unfold ColorMap_calc
  rw [hfind, hlb, hub]
  simp only [hne, if_false, ne_eq, not_true_eq_false, hhead, hlast, Option.bind_eq_bind,
    Option.some_bind, lt_fin, decide_eq_true_eq, not_lt.2 hx0.le, not_lt.2 hx1.le,
    Nat.add_one_ne_zero, Nat.add_sub_cancel, e0, e1]

/-- At the position of colour `j`, `calc` returns colour `j`. -/
theorem calc_at_anchor32 (values : List float3) (hn : 2 ≤ values.length)
    (hn2 : values.length ≤ 16777216) (j : Nat) (hj : j < values.length) :
    ColorMap_calc (anchors_from values.length 0 values) (Flt.fin (position values.length j)) =
      some values[j] := by
  have hlen := length_anchors_from32 values.length values 0
  have hjm : j < (anchors_from values.length 0 values).length := by rw [hlen]; exact hj
  have hkey : ∀ i (h : i < (anchors_from values.length 0 values).length),
      (anchors_from values.length 0 values)[i].1 = Flt.fin (position values.length i) := by
    intro i h
    have hi : i < values.length := by rwa [hlen] at h
    have := getElem?_anchors32 values hn hn2 hi
    rw [List.getElem?_eq_getElem h] at this
    rw [Option.some.inj this]
  have hlb : lower_bound (anchors_from values.length 0 values)
      (Flt.fin (position values.length j)) = j := by
    unfold lower_bound
    rw [List.findIdx_eq hjm]
    constructor
    · rw [hkey]
      simp
    · intro i hij
      rw [hkey]
      simpa using position_strict hn hn2 hij hj
  have hfind : find (anchors_from values.length 0 values)
      (Flt.fin (position values.length j)) = j := by
    unfold find
    rw [hlb, List.getElem?_eq_getElem hjm]
    have : Flt.lt (Flt.fin (position values.length j))
        ((anchors_from values.length 0 values)[j]).1 = false := by
      rw [hkey]
      simp
    simp only [this]
    simp
  have hne : (anchors_from values.length 0 values).length ≠ 0 := by omega
  unfold ColorMap_calc
  simp only [hne, if_false, hfind]
  have hne2 : j ≠ (anchors_from values.length 0 values).length := by omega
  simp only [ne_eq, hne2, not_false_eq_true, if_true, map_at, hfind]
  rw [getElem?_anchors32 values hn hn2 hj]
  rfl

/-! ## The range of the colours in binary32 arithmetic -/

/-- The interpolation fraction of `calc` between two keys of `[0, 1]` that are
at least `2^(-48)` apart is a number of `[0, 1]`. -/
theorem fraction_unit {x ka kb : ℚ} (h0 : 0 ≤ ka) (h1 : kb ≤ 1) (hax : ka ≤ x) (hxb : x < kb)
    (hgap : ka + 1 / 281474976710656 ≤ kb) :
    ∃ t : ℚ, div (sub (Flt.fin x) (Flt.fin ka)) (sub (Flt.fin kb) (Flt.fin ka)) = Flt.fin t ∧
      0 ≤ t ∧ t ≤ 1 := by
  have hA0 : 0 ≤ x - ka := by linarith
  have hA1 : x - ka ≤ 1 := by linarith
  have hB0 : 0 ≤ kb - ka := by linarith
  have hB1 : kb - ka ≤ 1 := by linarith
  have hmin : nearest (1 / 281474976710656) = 1 / 281474976710656 := by
    have := nearest_of_rep 1 (-48) (by norm_num) (by norm_num)
    norm_num at this
    exact this
  have hBpos : 0 < nearest (kb - ka) := by
    have := nearest_mono (by norm_num : (0 : ℚ) ≤ 1 / 281474976710656)
      (by linarith : (1 : ℚ) / 281474976710656 ≤ kb - ka)
    rw [hmin] at this
    have : (0 : ℚ) < 1 / 281474976710656 := by norm_num
    linarith
  have hAB : nearest (x - ka) ≤ nearest (kb - ka) := nearest_mono hA0 (by linarith)
  have hA : 0 ≤ nearest (x - ka) := nearest_nonneg hA0
  have hq0 : 0 ≤ nearest (x - ka) / nearest (kb - ka) := div_nonneg hA hBpos.le
  have hq1 : nearest (x - ka) / nearest (kb - ka) ≤ 1 := by
    rw [div_le_one hBpos]
    exact hAB
  refine ⟨nearest (nearest (x - ka) / nearest (kb - ka)), ?_, nearest_mem_unit hq0 hq1⟩
  rw [sub_fin32, sub_fin32, round32_unit hA0 hA1, round32_unit hB0 hB1, div_fin32 hBpos.ne',
    round32_unit hq0 hq1]

/-- One channel of `lerp` on colours of `[0, 255]` at a fraction of `[0, 1]`:
the result is finite and lies in `[0, 255 + 2^(-15)]`. -/
theorem lerp_channel32 {a b t : ℚ} (ha : 0 ≤ a ∧ a ≤ 255) (hb : 0 ≤ b ∧ b ≤ 255)
    (h0 : 0 ≤ t) (h1 : t ≤ 1) :
    ∃ r : ℚ, add (mul (Flt.fin b) (Flt.fin t)) (mul (Flt.fin a) (sub (ofInt 1) (Flt.fin t)))
        = Flt.fin r ∧ 0 ≤ r ∧ r ≤ 255 + 1 / 32768 := by
  have hs0 : 0 ≤ 1 - t := by linarith
  have hs1 : 1 - t ≤ 1 := by linarith
  obtain ⟨hS0, hS1⟩ := nearest_mem_unit hs0 hs1
  have hSe := abs_le.1 (abs_nearest_sub_le_unit hs0 hs1)
  have hbt0 : 0 ≤ b * t := mul_nonneg hb.1 h0
  have hbt1 : b * t ≤ 255 := by nlinarith [mul_nonneg h0 (sub_nonneg.2 hb.2)]
  have has0 : 0 ≤ a * nearest (1 - t) := mul_nonneg ha.1 hS0
  have has1 : a * nearest (1 - t) ≤ 255 := by
    nlinarith [mul_nonneg hS0 (sub_nonneg.2 ha.2)]
  have hPe := abs_le.1 (@abs_nearest_sub_le_zpow (b * t) 8 (by norm_num)
    (by rw [abs_of_nonneg hbt0]; norm_num; linarith))
  have hQe := abs_le.1 (@abs_nearest_sub_le_zpow (a * nearest (1 - t)) 8 (by norm_num)
    (by rw [abs_of_nonneg has0]; norm_num; linarith))
  have hP0 := nearest_nonneg hbt0
  have hQ0 := nearest_nonneg has0
  have e17 : (2 : ℚ) ^ ((8 : Int) - 25) = 1 / 131072 := by norm_num
  rw [e17] at hPe hQe
  have hlin : b * t + a * (1 - t) ≤ 255 := (lerp_channel_within ha hb h0 h1).2
  have hsum0 : 0 ≤ nearest (b * t) + nearest (a * nearest (1 - t)) := by linarith
  have hsum1 : nearest (b * t) + nearest (a * nearest (1 - t)) ≤ 255 + 3 / 131072 := by
    have h3 : a * nearest (1 - t) ≤ a * (1 - t) + 255 / 33554432 := by
      nlinarith [mul_nonneg ha.1 (by linarith [hSe.2] : (0 : ℚ) ≤ 1 / 33554432 - (nearest (1 - t) - (1 - t))),
        mul_nonneg (sub_nonneg.2 ha.2) (by norm_num : (0 : ℚ) ≤ 1 / 33554432)]
    linarith [hPe.2, hQe.2]
  have hRe := abs_le.1 (@abs_nearest_sub_le_zpow
    (nearest (b * t) + nearest (a * nearest (1 - t))) 8 (by norm_num)
    (by rw [abs_of_nonneg hsum0]; norm_num; linarith))
  rw [e17] at hRe
  refine ⟨nearest (nearest (b * t) + nearest (a * nearest (1 - t))), ?_,
    nearest_nonneg hsum0, by linarith [hRe.2]⟩
  rw [ofInt_one, sub_fin32, round32_unit hs0 hs1, mul_fin32, mul_fin32,
    round32_of_mem hbt0 (by linarith), round32_of_mem has0 (by linarith), add_fin32,
    round32_of_mem hsum0 (by linarith)]

/-- The interpolation of two colours of `[0, 255]` at a fraction of `[0, 1]`
lies in `[0, 255 + 2^(-15)]`. -/
theorem lerp_within32 {a b : float3} {t : ℚ} (ha : a.within 0 255 = true)
    (hb : b.within 0 255 = true) (h0 : 0 ≤ t) (h1 : t ≤ 1) :
    (lerp a b (Flt.fin t)).within 0 (255 + 1 / 32768) = true := by
  simp only [float3.within, Bool.and_eq_true] at ha hb
  obtain ⟨⟨hax, hay⟩, haz⟩ := ha
  obtain ⟨⟨hbx, hby⟩, hbz⟩ := hb
  obtain ⟨ax, eax, hax⟩ := within_fin hax
  obtain ⟨ay, eay, hay⟩ := within_fin hay
  obtain ⟨az, eaz, haz⟩ := within_fin haz
  obtain ⟨bx, ebx, hbx⟩ := within_fin hbx
  obtain ⟨bz, ebz, hbz⟩ := within_fin hbz
  obtain ⟨bY, eby, hby⟩ := within_fin hby
  obtain ⟨rx, erx, hrx⟩ := lerp_channel32 hax hbx h0 h1
  obtain ⟨ry, ery, hry⟩ := lerp_channel32 hay hby h0 h1
  obtain ⟨rz, erz, hrz⟩ := lerp_channel32 haz hbz h0 h1
  simp only [lerp, float3_add, float3_smul, float3.within, eax, eay, eaz, ebx, eby, ebz,
    erx, ery, erz, Flt.within, Bool.and_eq_true, decide_eq_true_eq]
  exact ⟨⟨hrx, hry⟩, hrz⟩

theorem within_mono {c : float3} (h : c.within 0 255 = true) :
    c.within 0 (255 + 1 / 32768) = true := by
  simp only [float3.within, Bool.and_eq_true] at h ⊢
  obtain ⟨⟨hx, hy⟩, hz⟩ := h
  obtain ⟨x, ex, hx⟩ := within_fin hx
  obtain ⟨y, ey, hy⟩ := within_fin hy
  obtain ⟨z, ez, hz⟩ := within_fin hz
  simp only [ex, ey, ez, Flt.within, decide_eq_true_eq]
  refine ⟨⟨⟨hx.1, ?_⟩, ⟨hy.1, ?_⟩⟩, ⟨hz.1, ?_⟩⟩ <;> linarith [hx.2, hy.2, hz.2]

/-- On the map of a gradient built from 2 to `2^24` colours of `[0, 255]`,
`calc` has a result at every argument, NaN and the infinities included, and the
result lies in `[0, 255 + 2^(-15)]`. -/
theorem calc_within32 (values : List float3) (hn : 2 ≤ values.length)
    (hn2 : values.length ≤ 16777216) (hc : ∀ c ∈ values, c.within 0 255 = true) (v : Flt) :
    ∃ c, ColorMap_calc (anchors_from values.length 0 values) v = some c ∧
      c.within 0 (255 + 1 / 32768) = true := by
  have hk := @finiteKeys_anchors32 values hn hn2
  have hm := @anchors_ne_nil32 values hn
  obtain ⟨v0, hv0, hhead⟩ := head?_anchors32 values hn hn2
  obtain ⟨v1, hv1, hlast⟩ := getLast?_anchors32 values hn hn2
  have hmem : ∀ p ∈ anchors_from values.length 0 values, p.2.within 0 255 = true := by
    intro p hp
    obtain ⟨j, hj, rfl⟩ := mem_anchors32 hn hn2 hp
    exact hc _ (List.getElem_mem hj)
  cases v with
  | nan => exact ⟨_, calc_nan32 _ _ hhead, within_mono (hmem _ (List.mem_of_mem_head? hhead))⟩
  | ninf =>
    exact ⟨_, calc_ninf32 _ hk _ hhead, within_mono (hmem _ (List.mem_of_mem_head? hhead))⟩
  | pinf =>
    exact ⟨_, calc_pinf32 _ hk _ hlast, within_mono (hmem _ (List.mem_of_mem_getLast? hlast))⟩
  | fin x =>
    rcases calc_cases32 _ hm hk x with ⟨p, hp, h⟩ | ⟨a, ha, b, hb, ka, kb, eka, ekb, hax, hxb, h⟩
    · exact ⟨_, h, within_mono (hmem p hp)⟩
    · obtain ⟨i, hi, rfl⟩ := mem_anchors32 hn hn2 ha
      obtain ⟨j, hj, rfl⟩ := mem_anchors32 hn hn2 hb
      have e1 : ka = position values.length i := (Flt.fin.inj eka).symm
      have e2 : kb = position values.length j := (Flt.fin.inj ekb).symm
      have hij : i < j := by
        by_contra hcon
        have := position_le hn hn2 (not_lt.1 hcon) hi
        rw [← e1, ← e2] at this
        linarith
      have hgap := position_lt hn hn2 hij hj
      rw [← e1, ← e2] at hgap
      have hka0 : 0 ≤ ka := by rw [e1]; exact (position_mem_unit hn hi).1
      have hkb1 : kb ≤ 1 := by rw [e2]; exact (position_mem_unit hn hj).2
      obtain ⟨t, et, ht0, ht1⟩ := fraction_unit hka0 hkb1 hax hxb hgap
      rw [et] at h
      exact ⟨_, h, lerp_within32 (hc _ (List.getElem_mem hi)) (hc _ (List.getElem_mem hj))
        ht0 ht1⟩

/-! ## The cache and the lookup in binary32 arithmetic -/

theorem calc_some32 (m : FloatMap) (hm : m ≠ []) (hk : FiniteKeys m) (v : Flt) :
    ∃ c, ColorMap_calc m v = some c := by
  obtain ⟨first, hfirst⟩ : ∃ first, m.head? = some first := by
    cases m with
    | nil => exact absurd rfl hm
    | cons a l => exact ⟨a, rfl⟩
  obtain ⟨last, hlast⟩ : ∃ last, m.getLast? = some last := by
    cases h : m.getLast? with
    | none => exact absurd (List.getLast?_eq_none_iff.1 h) hm
    | some a => exact ⟨a, rfl⟩
  cases v with
  | nan => exact ⟨_, calc_nan32 m first hfirst⟩
  | ninf => exact ⟨_, calc_ninf32 m hk first hfirst⟩
  | pinf => exact ⟨_, calc_pinf32 m hk last hlast⟩
  | fin x =>
    rcases calc_cases32 m hm hk x with ⟨p, _, h⟩ | ⟨a, _, b, _, ka, kb, _, _, _, _, h⟩
    · exact ⟨_, h⟩
    · exact ⟨_, h⟩

/-- The cache of a gradient built from 2 to `2^24` colours: slot `i` holds the
colour that `initialize` computes for it. -/
theorem cache_slots32 (values : List float3) (steps : Nat) (hn : 2 ≤ values.length)
    (hn2 : values.length ≤ 16777216) :
    ∃ cache, (new values steps).data_ = some cache ∧ cache.length = steps + 1 ∧
      ∀ i, i ≤ steps →
        cache[i]? = cache_entry (anchors_from values.length 0 values) (Flt.fin 0) (Flt.fin 1)
          steps i ∧ (cache[i]?).isSome = true := by
  have hk := @finiteKeys_anchors32 values hn hn2
  have hm := @anchors_ne_nil32 values hn
  have hall : ∀ a ∈ List.range (steps + 1), ∃ b,
      cache_entry (anchors_from values.length 0 values) (Flt.fin 0) (Flt.fin 1) steps a
        = some b := by
    intro a _
    exact calc_some32 _ hm hk _
  obtain ⟨cache, hc, hlen, hget⟩ := mapM_option _ _ hall
  refine ⟨cache, ?_, by simpa using hlen, ?_⟩
  · rw [new_eq32 values steps hn hn2]
    exact hc
  · intro i hi
    have hlt : i < steps + 1 := by omega
    have h1 : cache[i]? = cache_entry (anchors_from values.length 0 values) (Flt.fin 0)
        (Flt.fin 1) steps i := by
      rw [hget i, List.getElem?_range hlt, Option.some_bind]
    refine ⟨h1, ?_⟩
    have hlt2 : i < cache.length := by rw [hlen]; simpa using hlt
    rw [List.getElem?_eq_getElem hlt2]
    rfl

theorem clamp_fin32 (q : ℚ) :
    clamp_val (Flt.fin q) (ofInt 0) (ofInt 1) = Flt.fin (clamp01 q) := by
  have := clamp_val_fin q
  simpa [ofInt_zero, ofInt_one, Flt.ofInt] using this

theorem sub_one_zero : sub (Flt.fin 1) (Flt.fin 0) = Flt.fin 1 := by
  rw [sub_fin32, sub_zero, round32_unit (by norm_num) (le_refl _), nearest_one]

/-- The rounding of a rounded number changes nothing. -/
theorem round32_nearest {q : ℚ} (h : round32 q = Flt.fin (nearest q)) :
    round32 (nearest q) = Flt.fin (nearest q) := by
  by_cases hc : 2 ^ 128 ≤ |nearest q|
  · exfalso
    unfold round32 at h
    rw [if_pos hc] at h
    unfold Flt.signedInf at h
    split at h <;> cases h
  · have := @round32_of_lt (nearest q) (by rw [nearest_nearest]; exact not_le.1 hc)
    rw [this, nearest_nearest]

/-- The clamped position that `get` computes for an argument that is not NaN,
on keys that span `[0, 1]`: a number of `[0, 1]`, which is the rounding of the
argument when that lies in `[0, 1]`. -/
theorem clamp_position32 {v : Flt} (hv : v ≠ Flt.nan) :
    ∃ τ : ℚ, clamp_val (div (sub v (Flt.fin 0)) (sub (Flt.fin 1) (Flt.fin 0)))
        (ofInt 0) (ofInt 1) = Flt.fin τ ∧ 0 ≤ τ ∧ τ ≤ 1 ∧
      ∀ q, v = Flt.fin q → 0 ≤ q → q ≤ 1 → τ = nearest q := by
  rw [sub_one_zero]
  have hcl0 : clamp_val Flt.ninf (ofInt 0) (ofInt 1) = Flt.fin 0 := by
    have h1 : ¬ (1 : ℚ) < 0 := by norm_num
    simp [ofInt_zero, ofInt_one, clamp_val, std_min, std_max, Flt.lt, h1]
  have hcl1 : clamp_val Flt.pinf (ofInt 0) (ofInt 1) = Flt.fin 1 := by
    simp [ofInt_zero, ofInt_one, clamp_val, std_min, std_max, Flt.lt]
  cases v with
  | nan => exact absurd rfl hv
  | ninf =>
    refine ⟨0, ?_, le_refl _, by norm_num, fun q h => by cases h⟩
    have e : div (sub Flt.ninf (Flt.fin 0)) (Flt.fin 1) = Flt.ninf := by
      have h1 : ¬ (1 : ℚ) < 0 := by norm_num
      simp [div, sub, Flt.sub, Flt.neg, Flt.add, Flt.div, rnd, Flt.signedInf, h1]
    rw [e, hcl0]
  | pinf =>
    refine ⟨1, ?_, by norm_num, le_refl _, fun q h => by cases h⟩
    have e : div (sub Flt.pinf (Flt.fin 0)) (Flt.fin 1) = Flt.pinf := by
      have h1 : (0 : ℚ) ≤ 1 := by norm_num
      simp [div, sub, Flt.sub, Flt.neg, Flt.add, Flt.div, rnd, Flt.signedInf, h1]
    rw [e, hcl1]
  | fin q =>
    rw [sub_fin32, sub_zero]
    by_cases hfin : 2 ^ 128 ≤ |nearest q|
    · have hr : round32 q = Flt.signedInf (decide (0 < q)) := by
        unfold round32
        rw [if_pos hfin]
      rw [hr]
      by_cases hq : 0 < q
      · refine ⟨1, ?_, by norm_num, le_refl _, ?_⟩
        · have e : div (Flt.signedInf (decide (0 < q))) (Flt.fin 1) = Flt.pinf := by
            have h1 : (0 : ℚ) ≤ 1 := by norm_num
            simp [div, Flt.div, rnd, Flt.signedInf, hq, h1]
          rw [e, hcl1]
        · intro q' hq' h0 h1
          exfalso
          have hq2 : q = q' := Flt.fin.inj hq'
          subst hq2
          have := (nearest_mem_unit h0 h1).2
          rw [abs_of_nonneg (nearest_nonneg h0)] at hfin
          have h3 : (1 : ℚ) < 2 ^ 128 := by norm_num
          linarith
      · refine ⟨0, ?_, le_refl _, by norm_num, ?_⟩
        · have e : div (Flt.signedInf (decide (0 < q))) (Flt.fin 1) = Flt.ninf := by
            have h1 : ¬ (1 : ℚ) < 0 := by norm_num
            simp [div, Flt.div, rnd, Flt.signedInf, hq, h1]
          rw [e, hcl0]
        · intro q' hq' h0 h1
          exfalso
          have hq2 : q = q' := Flt.fin.inj hq'
          subst hq2
          have := (nearest_mem_unit h0 h1).2
          rw [abs_of_nonneg (nearest_nonneg h0)] at hfin
          have h3 : (1 : ℚ) < 2 ^ 128 := by norm_num
          linarith
    · have hr : round32 q = Flt.fin (nearest q) := round32_of_lt (not_le.1 hfin)
      have e : div (round32 q) (Flt.fin 1) = Flt.fin (nearest q) := by
        rw [hr, div_fin32 one_ne_zero, div_one]
        exact round32_nearest hr
      rw [e, clamp_fin32]
      refine ⟨clamp01 (nearest q), rfl, clamp01_nonneg _, clamp01_le_one _, ?_⟩
      intro q' hq' h0 h1
      have hq2 : q = q' := Flt.fin.inj hq'
      subst hq2
      obtain ⟨h2, h3⟩ := nearest_mem_unit h0 h1
      exact clamp01_of_mem h2 h3

/-- The index that `get` computes from a clamped position `τ` of `[0, 1]`, for
a cache of `steps + 1` slots with `steps ≤ 2^24`: the integer part of the
rounded product, which is at most `steps`. -/
theorem index_of_position32 {τ : ℚ} (h0 : 0 ≤ τ) (h1 : τ ≤ 1) {steps : Nat}
    (hs : steps ≤ 16777216) :
    mul (Flt.fin τ) (ofNat (steps + 1 - 1)) = Flt.fin (nearest (τ * (steps : ℚ))) ∧
    Flt.toInt (Flt.fin (nearest (τ * (steps : ℚ)))) = some ⌊nearest (τ * (steps : ℚ))⌋ ∧
    0 ≤ ⌊nearest (τ * (steps : ℚ))⌋ ∧ ⌊nearest (τ * (steps : ℚ))⌋ ≤ (steps : Int) := by
  have hS : (0 : ℚ) ≤ (steps : ℚ) := Nat.cast_nonneg _
  have hx0 : 0 ≤ τ * (steps : ℚ) := mul_nonneg h0 hS
  have hx1 : τ * (steps : ℚ) ≤ (steps : ℚ) := by nlinarith
  have hp0 : 0 ≤ nearest (τ * (steps : ℚ)) := nearest_nonneg hx0
  have hp1 : nearest (τ * (steps : ℚ)) ≤ (steps : ℚ) := nearest_le_of_le_natCast hs hx0 hx1
  have hfl0 : 0 ≤ ⌊nearest (τ * (steps : ℚ))⌋ := Int.floor_nonneg.2 hp0
  have hfl1 : ⌊nearest (τ * (steps : ℚ))⌋ ≤ (steps : Int) := by
    have := Int.floor_le_floor hp1
    simpa using this
  refine ⟨?_, ?_, hfl0, hfl1⟩
  · rw [Nat.add_sub_cancel, ofNat_eq hs, mul_fin32]
    exact round32_of_mem hx0 (le_trans hx1 (by exact_mod_cast hs))
  · have htr : Flt.trunc (nearest (τ * (steps : ℚ))) = ⌊nearest (τ * (steps : ℚ))⌋ := by
      simp [Flt.trunc, hp0]
    simp only [Flt.toInt, htr]
    rw [if_pos]
    omega

/-- The lookup `get` and its index on a gradient whose keys span `[0, 1]`, for
an argument that is not NaN. -/
theorem get_of_fields32 (cm : ColorMap) (steps : Nat) (cache : List float3)
    (hmax : cm.max_ = some (Flt.fin 1)) (hmin : cm.min_ = some (Flt.fin 0))
    (hsize : cm.size_ = some (steps + 1)) (hdata : cm.data_ = some cache)
    (hs : steps ≤ 16777216) {v : Flt} {τ : ℚ}
    (hτ : clamp_val (div (sub v (Flt.fin 0)) (sub (Flt.fin 1) (Flt.fin 0)))
      (ofInt 0) (ofInt 1) = Flt.fin τ) (h0 : 0 ≤ τ) (h1 : τ ≤ 1) :
    get_index cm v = some ⌊nearest (τ * (steps : ℚ))⌋ ∧
    get cm v = cache[⌊nearest (τ * (steps : ℚ))⌋.toNat]? := by
  obtain ⟨hmul, hcast, hfl0, _⟩ := @index_of_position32 τ h0 h1 steps hs
  have heq : Flt.eq (Flt.fin 1) (Flt.fin 0) = false := by
    simp [Flt.eq]
  constructor
  · simp only [get_index, hmax, hmin, hsize, Option.bind_eq_bind, Option.some_bind, hτ, hmul,
      hcast]
  · simp only [get, hmax, hmin, hsize, hdata, heq, Option.bind_eq_bind, Option.some_bind,
      Bool.false_eq_true, if_false, hτ, hmul, hcast, hfl0, if_true]

/-- The key at which `initialize` computes slot `k` of the cache, on keys that
span `[0, 1]`: the rounding of `k / steps`. -/
theorem slot_key32 {steps k : Nat} (hs : 1 ≤ steps) (hs2 : steps ≤ 16777216) (hk : k ≤ steps) :
    add (Flt.fin 0) (mul (div (ofNat k) (ofNat steps)) (sub (Flt.fin 1) (Flt.fin 0))) =
      Flt.fin (nearest ((k : ℚ) / (steps : ℚ))) := by
  have hS : (0 : ℚ) < (steps : ℚ) := by
    have : 0 < steps := by omega
    exact_mod_cast this
  have hq0 : 0 ≤ (k : ℚ) / (steps : ℚ) := div_nonneg (Nat.cast_nonneg k) hS.le
  have hq1 : (k : ℚ) / (steps : ℚ) ≤ 1 := by
    rw [div_le_one hS]
    exact_mod_cast hk
  have hr := round32_unit hq0 hq1
  rw [sub_one_zero, ofNat_eq (by omega), ofNat_eq hs2, div_fin32 hS.ne', hr, mul_fin32, mul_one,
    round32_nearest hr, add_fin32, zero_add, round32_nearest hr]

end binary32

/-! ## The cached lookup and direct interpolation -/

namespace binary32

/-- The integer part of the rounding of a number of `[0, S]`, `S ≤ 2^24`, is
less than 1 away from the number. -/
theorem floor_nearest_near {x : ℚ} {S : Nat} (hS : S ≤ 16777216) (h0 : 0 ≤ x)
    (h1 : x ≤ (S : ℚ)) : |(⌊nearest x⌋ : ℚ) - x| < 1 := by
  have hfl0 : 0 ≤ ⌊x⌋ := Int.floor_nonneg.2 h0
  have hflS : ⌊x⌋ ≤ (S : Int) := by
    have := Int.floor_le_floor h1
    simpa using this
  have hceS : ⌈x⌉ ≤ (S : Int) := by
    rw [Int.ceil_le]
    exact_mod_cast h1
  have hce0 : 0 ≤ ⌈x⌉ := Int.ceil_nonneg h0
  have hlow : (⌊x⌋ : ℚ) ≤ nearest x := by
    have e : ((⌊x⌋.toNat : Nat) : ℚ) = (⌊x⌋ : ℚ) := by
      have : ((⌊x⌋.toNat : Nat) : Int) = ⌊x⌋ := Int.toNat_of_nonneg hfl0
      exact_mod_cast this
    have := @natCast_le_nearest x ⌊x⌋.toNat (by omega) (by rw [e]; exact Int.floor_le x)
    rwa [e] at this
  have hup : nearest x ≤ (⌈x⌉ : ℚ) := by
    have e : ((⌈x⌉.toNat : Nat) : ℚ) = (⌈x⌉ : ℚ) := by
      have : ((⌈x⌉.toNat : Nat) : Int) = ⌈x⌉ := Int.toNat_of_nonneg hce0
      exact_mod_cast this
    have := @nearest_le_of_le_natCast x ⌈x⌉.toNat (by omega) h0 (by rw [e]; exact Int.le_ceil x)
    rwa [e] at this
  have h2 : (⌊x⌋ : ℚ) ≤ (⌊nearest x⌋ : ℚ) := by
    have : ⌊x⌋ ≤ ⌊nearest x⌋ := Int.le_floor.2 hlow
    exact_mod_cast this
  have h3 : (⌊nearest x⌋ : ℚ) ≤ nearest x := Int.floor_le _
  have h4 : x < (⌊x⌋ : ℚ) + 1 := Int.lt_floor_add_one x
  have h5 : (⌈x⌉ : ℚ) < x + 1 := Int.ceil_lt_add_one x
  rw [abs_lt]
  constructor <;> linarith

/-- The key of the slot that `get` reads for an argument `q` of `[0, 1]` is
less than `1 / steps + 2^(-24)` away from `q`. -/
theorem slot_error32 {steps : Nat} (hs : 1 ≤ steps) (hs2 : steps ≤ 16777216) {q : ℚ}
    (h0 : 0 ≤ q) (h1 : q ≤ 1) :
    |nearest ((⌊nearest (nearest q * (steps : ℚ))⌋.toNat : ℚ) / (steps : ℚ)) - q| <
      1 / (steps : ℚ) + 1 / 16777216 := by
  have hS : (0 : ℚ) < (steps : ℚ) := by
    have : 0 < steps := by omega
    exact_mod_cast this
  obtain ⟨ht0, ht1⟩ := nearest_mem_unit h0 h1
  have hte := abs_le.1 (abs_nearest_sub_le_unit h0 h1)
  have hx0 : 0 ≤ nearest q * (steps : ℚ) := mul_nonneg ht0 hS.le
  have hx1 : nearest q * (steps : ℚ) ≤ (steps : ℚ) := by nlinarith
  have hk := abs_lt.1 (floor_nearest_near hs2 hx0 hx1)
  have hfl0 : 0 ≤ ⌊nearest (nearest q * (steps : ℚ))⌋ := Int.floor_nonneg.2 (nearest_nonneg hx0)
  have hflS : ⌊nearest (nearest q * (steps : ℚ))⌋ ≤ (steps : Int) := by
    have := Int.floor_le_floor (nearest_le_of_le_natCast hs2 hx0 hx1)
    simpa using this
  have e : ((⌊nearest (nearest q * (steps : ℚ))⌋.toNat : Nat) : ℚ) =
      (⌊nearest (nearest q * (steps : ℚ))⌋ : ℚ) := by
    have : ((⌊nearest (nearest q * (steps : ℚ))⌋.toNat : Nat) : Int) =
        ⌊nearest (nearest q * (steps : ℚ))⌋ := Int.toNat_of_nonneg hfl0
    exact_mod_cast this
  rw [e]
  have hq0 : 0 ≤ (⌊nearest (nearest q * (steps : ℚ))⌋ : ℚ) / (steps : ℚ) :=
    div_nonneg (by exact_mod_cast hfl0) hS.le
  have hq1 : (⌊nearest (nearest q * (steps : ℚ))⌋ : ℚ) / (steps : ℚ) ≤ 1 := by
    rw [div_le_one hS]
    exact_mod_cast hflS
  have hke := abs_le.1 (abs_nearest_sub_le_unit hq0 hq1)
  have hd1 : (⌊nearest (nearest q * (steps : ℚ))⌋ : ℚ) / (steps : ℚ) - nearest q <
      1 / (steps : ℚ) := by
    rw [div_sub' _ _ _ hS.ne', div_lt_div_iff_of_pos_right hS]
    linarith [hk.2]
  have hd2 : -(1 / (steps : ℚ)) <
      (⌊nearest (nearest q * (steps : ℚ))⌋ : ℚ) / (steps : ℚ) - nearest q := by
    rw [div_sub' _ _ _ hS.ne', neg_div' , div_lt_div_iff_of_pos_right hS]
    linarith [hk.1]
  rw [abs_lt]
  constructor <;> linarith [hke.1, hke.2, hte.1, hte.2]

theorem get_nan32 (cm : ColorMap) (hmax : cm.max_ = some (Flt.fin 1))
    (hmin : cm.min_ = some (Flt.fin 0)) : get_index cm Flt.nan = none ∧ get cm Flt.nan = none := by
  have heq : Flt.eq (Flt.fin 1) (Flt.fin 0) = false := by
    simp [Flt.eq]
  have hc : clamp_val (div (sub Flt.nan (Flt.fin 0)) (sub (Flt.fin 1) (Flt.fin 0)))
      (ofInt 0) (ofInt 1) = Flt.nan := by
    rw [sub_one_zero]
    simp [div, sub, rnd, Flt.sub, Flt.neg, Flt.add, Flt.div, clamp_val, std_min, std_max, Flt.lt,
      ofInt_zero, ofInt_one]
  constructor
  · simp only [get_index, hmax, hmin, Option.bind_eq_bind, Option.some_bind, hc]
    cases cm.size_ with
    | none => rfl
    | some n => simp [mul, rnd, Flt.mul, Flt.toInt]
  · simp only [get, hmax, hmin, heq, Option.bind_eq_bind, Option.some_bind,
      Bool.false_eq_true, if_false, hc]
    cases cm.size_ with
    | none => rfl
    | some n => simp [mul, rnd, Flt.mul, Flt.toInt]

/-- C17 (amended).  In binary32 arithmetic, for every gradient built from 2 to
`2^24` colours with `1 ≤ steps ≤ 2^24` and every argument `v` that is not NaN:
the positions span `[0, 1]`; the index `k = (int)(t * (size_ - 1))` that `get`
computes from the clamped position `t` is at most `steps`; `get(v)` has a
result, which is `calc` at the key `min + (k / steps) * (max - min)`, every
operation rounded; and for `v` in `[0, 1]` this key is a number that differs
from `v` by less than `(max - min) / steps + 2^(-24)`. -/
theorem cached_lookup_quantized (values : List float3) (steps : Nat) (hn : 2 ≤ values.length)
    (hn2 : values.length ≤ 16777216) (hs : 1 ≤ steps) (hs2 : steps ≤ 16777216) (v : Flt)
    (hv : v ≠ Flt.nan) :
    (new values steps).min_ = some (Flt.fin 0) ∧
    (new values steps).max_ = some (Flt.fin 1) ∧
    ∃ (k : Nat) (c : float3), k ≤ steps ∧
      get_index (new values steps) v = some (k : Int) ∧
      get (new values steps) v = some c ∧
      ColorMap_calc (new values steps).map_
        (add (Flt.fin 0) (mul (div (ofNat k) (ofNat steps)) (sub (Flt.fin 1) (Flt.fin 0))))
        = some c ∧
      ∀ q : ℚ, v = Flt.fin q → 0 ≤ q → q ≤ 1 →
        ∃ κ : ℚ,
          add (Flt.fin 0) (mul (div (ofNat k) (ofNat steps)) (sub (Flt.fin 1) (Flt.fin 0)))
            = Flt.fin κ ∧
          |κ - q| < (1 - 0) / (steps : ℚ) + 1 / 16777216 := by
  have hmin : (new values steps).min_ = some (Flt.fin 0) := by rw [new_eq32 values steps hn hn2]
  have hmax : (new values steps).max_ = some (Flt.fin 1) := by rw [new_eq32 values steps hn hn2]
  have hsize : (new values steps).size_ = some (steps + 1) := by
    rw [new_eq32 values steps hn hn2]
  have hmap : (new values steps).map_ = anchors_from values.length 0 values := by
    rw [new_eq32 values steps hn hn2]
  obtain ⟨cache, hdata, hlen, hslots⟩ := cache_slots32 values steps hn hn2
  obtain ⟨τ, hτ, h0, h1, hτq⟩ := clamp_position32 hv
  obtain ⟨hidx, hget⟩ := get_of_fields32 _ steps cache hmax hmin hsize hdata hs2 hτ h0 h1
  obtain ⟨_, _, hfl0, hflS⟩ := @index_of_position32 τ h0 h1 steps hs2
  have hk : ⌊nearest (τ * (steps : ℚ))⌋.toNat ≤ steps := by omega
  have hkc : ((⌊nearest (τ * (steps : ℚ))⌋.toNat : Nat) : Int) = ⌊nearest (τ * (steps : ℚ))⌋ :=
    Int.toNat_of_nonneg hfl0
  obtain ⟨hs1, hs2'⟩ := hslots _ hk
  cases hc : cache[⌊nearest (τ * (steps : ℚ))⌋.toNat]? with
  | none => rw [hc] at hs2'; simp at hs2'
  | some c =>
    refine ⟨hmin, hmax, ⌊nearest (τ * (steps : ℚ))⌋.toNat, c, hk, ?_, ?_, ?_, ?_⟩
    · rw [hidx, hkc]
    · rw [hget, hc]
    · rw [hmap, ← hc, hs1]
      rfl
    · intro q hq hq0 hq1
      refine ⟨_, slot_key32 hs hs2 hk, ?_⟩
      rw [hτq q hq hq0 hq1, sub_zero]
      exact slot_error32 hs hs2 hq0 hq1

theorem cached_lookup_quantized_witness :
    2 ≤ [rgb 255 0 0, rgb 0 0 255].length ∧ [rgb 255 0 0, rgb 0 0 255].length ≤ 16777216 ∧
    1 ≤ 4000 ∧ 4000 ≤ 16777216 ∧ Flt.fin (11744051 / 16777216) ≠ Flt.nan ∧
    (new [rgb 255 0 0, rgb 0 0 255] 4000).min_ = some (Flt.fin 0) ∧
    (new [rgb 255 0 0, rgb 0 0 255] 4000).max_ = some (Flt.fin 1) ∧
    ∃ (k : Nat) (c : float3), k ≤ 4000 ∧
      get_index (new [rgb 255 0 0, rgb 0 0 255] 4000) (Flt.fin (11744051 / 16777216)) = some (k : Int) ∧
      get (new [rgb 255 0 0, rgb 0 0 255] 4000) (Flt.fin (11744051 / 16777216)) = some c ∧
      ColorMap_calc (new [rgb 255 0 0, rgb 0 0 255] 4000).map_
        (add (Flt.fin 0) (mul (div (ofNat k) (ofNat 4000)) (sub (Flt.fin 1) (Flt.fin 0))))
        = some c ∧
      ∀ q : ℚ, Flt.fin (11744051 / 16777216) = Flt.fin q → 0 ≤ q → q ≤ 1 →
        ∃ κ : ℚ,
          add (Flt.fin 0) (mul (div (ofNat k) (ofNat 4000)) (sub (Flt.fin 1) (Flt.fin 0)))
            = Flt.fin κ ∧
          |κ - q| < (1 - 0) / ((4000 : Nat) : ℚ) + 1 / 16777216 :=
  ⟨by decide, by decide, by decide, by decide, fun h => Flt.noConfusion h,
    cached_lookup_quantized [rgb 255 0 0, rgb 0 0 255] 4000 (by decide) (by decide) (by decide)
      (by decide) (Flt.fin (11744051 / 16777216)) (fun h => Flt.noConfusion h)⟩

/-- C17, as stated, fails.  For the gradient from black to white built with
4000 steps and the `float` `v = 11744051 / 2^24` nearest to 0.7, the product
`v * 4000` rounds to 2800, so `get` reads slot 2800, whereas
`floor(v * 4000)` is 2799.  With 97 steps and the `float`
`v = 11069503 / 2^27` of `[0, 1]`: the product `v * 97` rounds to
`8 - 2^(-21)`, so the index is 7; the key of slot 7 is the rounding
`9685815 / 2^27` of `7 / 97`; and this key differs from `v` by
`1383688 / 2^27`, which is more than `1 / 97`.  And at NaN `get` has no
result. -/
theorem cached_lookup_bound_exceeded :
    get_index (new [rgb 0 0 0, rgb 255 255 255] 4000) (Flt.fin (11744051 / 16777216))
      = some 2800 ∧
    ⌊clamp01 (((11744051 / 16777216 : ℚ) - 0) / (1 - 0)) * 4000⌋ = 2799 ∧
    get_index (new [rgb 0 0 0, rgb 255 255 255] 97) (Flt.fin (11069503 / 134217728)) = some 7 ∧
    add (Flt.fin 0) (mul (div (ofNat 7) (ofNat 97)) (sub (Flt.fin 1) (Flt.fin 0)))
      = Flt.fin (9685815 / 134217728) ∧
    ¬ |(9685815 / 134217728 : ℚ) - 11069503 / 134217728| < (1 - 0) / 97 ∧
    get (new [rgb 0 0 0, rgb 255 255 255] 97) Flt.nan = none := by
  have hn : 2 ≤ [rgb 0 0 0, rgb 255 255 255].length := by decide
  have hn2 : [rgb 0 0 0, rgb 255 255 255].length ≤ 16777216 := by decide
  have hmin : (new [rgb 0 0 0, rgb 255 255 255] 97).min_ = some (Flt.fin 0) := by
    rw [new_eq32 _ 97 hn hn2]
  have hmax : (new [rgb 0 0 0, rgb 255 255 255] 97).max_ = some (Flt.fin 1) := by
    rw [new_eq32 _ 97 hn hn2]
  have hsize : (new [rgb 0 0 0, rgb 255 255 255] 97).size_ = some (97 + 1) := by
    rw [new_eq32 _ 97 hn hn2]
  obtain ⟨cache, hdata, _, _⟩ := cache_slots32 [rgb 0 0 0, rgb 255 255 255] 97 hn hn2
  obtain ⟨τ, hτ, h0, h1, hτq⟩ :=
    @clamp_position32 (Flt.fin (11069503 / 134217728)) (fun h => Flt.noConfusion h)
  have hv : nearest (11069503 / 134217728 : ℚ) = 11069503 / 134217728 := by
    have := nearest_of_rep 11069503 (-27) (by norm_num) (by norm_num)
    norm_num at this
    exact this
  have hτ2 : τ = 11069503 / 134217728 := by
    rw [hτq _ rfl (by norm_num) (by norm_num), hv]
  subst hτ2
  have hp : nearest ((11069503 / 134217728 : ℚ) * ((97 : Nat) : ℚ)) = 16777215 / 2097152 := by
    have := @nearest_eval ((11069503 / 134217728 : ℚ) * ((97 : Nat) : ℚ)) 2 16777215
      (by norm_num) (by norm_num [abs_of_pos]) (by norm_num [abs_of_pos])
      (by norm_num [abs_lt])
    rw [this]
    norm_num
  have hfl : ⌊(16777215 / 2097152 : ℚ)⌋ = 7 := by
    rw [Int.floor_eq_iff]
    norm_num
  obtain ⟨hidx, _⟩ := get_of_fields32 _ 97 cache hmax hmin hsize hdata (by norm_num) hτ h0 h1
  rw [hp, hfl] at hidx
  have hkey : nearest (((7 : Nat) : ℚ) / ((97 : Nat) : ℚ)) = 9685815 / 134217728 := by
    have := @nearest_eval (((7 : Nat) : ℚ) / ((97 : Nat) : ℚ)) (-4) 9685815
      (by norm_num) (by norm_num [abs_of_pos]) (by norm_num [abs_of_pos])
      (by norm_num [abs_lt])
    rw [this]
    norm_num
  refine ⟨?_, ?_, hidx, ?_, ?_, (get_nan32 _ hmax hmin).2⟩
  · have hmin4 : (new [rgb 0 0 0, rgb 255 255 255] 4000).min_ = some (Flt.fin 0) := by
      rw [new_eq32 _ 4000 hn hn2]
    have hmax4 : (new [rgb 0 0 0, rgb 255 255 255] 4000).max_ = some (Flt.fin 1) := by
      rw [new_eq32 _ 4000 hn hn2]
    have hsize4 : (new [rgb 0 0 0, rgb 255 255 255] 4000).size_ = some (4000 + 1) := by
      rw [new_eq32 _ 4000 hn hn2]
    obtain ⟨cache4, hdata4, _, _⟩ := cache_slots32 [rgb 0 0 0, rgb 255 255 255] 4000 hn hn2
    obtain ⟨σ, hσ, g0, g1, hσq⟩ :=
      @clamp_position32 (Flt.fin (11744051 / 16777216)) (fun h => Flt.noConfusion h)
    have hv4 : nearest (11744051 / 16777216 : ℚ) = 11744051 / 16777216 := by
      have := nearest_of_rep 11744051 (-24) (by norm_num) (by norm_num)
      norm_num at this
      exact this
    have hσ2 : σ = 11744051 / 16777216 := by
      rw [hσq _ rfl (by norm_num) (by norm_num), hv4]
    subst hσ2
    have hp4 : nearest ((11744051 / 16777216 : ℚ) * ((4000 : Nat) : ℚ)) = 2800 := by
      have := @nearest_eval ((11744051 / 16777216 : ℚ) * ((4000 : Nat) : ℚ)) 11 11468800
        (by norm_num) (by norm_num [abs_of_pos]) (by norm_num [abs_of_pos])
        (by norm_num [abs_lt])
      rw [this]
      norm_num
    have hfl4 : ⌊(2800 : ℚ)⌋ = 2800 := by
      rw [Int.floor_eq_iff]
      norm_num
    obtain ⟨hidx4, _⟩ :=
      get_of_fields32 _ 4000 cache4 hmax4 hmin4 hsize4 hdata4 (by norm_num) hσ g0 g1
    rw [hp4, hfl4] at hidx4
    exact hidx4
  · rw [Int.floor_eq_iff]
    norm_num [clamp01]
  · rw [@slot_key32 97 7 (by norm_num) (by norm_num) (by norm_num), hkey]
  · norm_num [abs_lt]

end binary32

/-! ## Interpolation between two neighbouring anchors -/

namespace binary32

/-- Evaluation of a rounding to `float` of a non-negative number of the binade
`e`: the multiple `n * 2^(e - 23)` less than half a unit away. -/
theorem round32_eval {q : ℚ} (e n : Int) (r : ℚ) (he : -126 ≤ e) (hq : q ≤ 16777216)
    (h1 : 2 ^ e ≤ q) (h2 : q < 2 ^ (e + 1)) (hn : |q / 2 ^ (e - 23) - n| < 1 / 2)
    (hr : (n : ℚ) * 2 ^ (e - 23) = r) : round32 q = Flt.fin r := by
  have h0 : 0 ≤ q := le_trans (by positivity) h1
  rw [round32_of_mem h0 hq, ← hr]
  congr 1
  apply nearest_eval e n he
  · rwa [abs_of_nonneg h0]
  · rwa [abs_of_nonneg h0]
  · exact hn

/-- The index of the anchor interval that holds a number strictly between 0
and 1 that is no anchor position. -/
theorem position_interval {n : Nat} (hn : 2 ≤ n) (hn2 : n ≤ 16777216) (x : ℚ) (h0 : 0 < x)
    (h1 : x < 1) (hne : ∀ i, i < n → x ≠ position n i) :
    ∃ j, j + 1 < n ∧ position n j < x ∧ x < position n (j + 1) := by
  have hex : ∃ i, x < position n i := ⟨n - 1, by rw [position_last hn]; exact h1⟩
  have hfind := Nat.find_spec hex
  have hmin := @Nat.find_min _ _ hex
  have hle : Nat.find hex ≤ n - 1 := Nat.find_min' hex (by rw [position_last hn]; exact h1)
  have hpos : Nat.find hex ≠ 0 := by
    intro h
    rw [h, position_zero] at hfind
    linarith
  obtain ⟨j, hj⟩ : ∃ j, Nat.find hex = j + 1 := ⟨Nat.find hex - 1, by omega⟩
  refine ⟨j, by omega, ?_, by rw [← hj]; exact hfind⟩
  have h2 : ¬ x < position n j := hmin (by omega)
  rcases lt_or_eq_of_le (not_lt.1 h2) with h3 | h3
  · exact h3
  · exact absurd h3.symm (hne j (by omega))

/-- C16 (amended).  In binary32 arithmetic, for every gradient built from 2 to
`2^24` colours: the position of colour `i` is the key `i / (n - 1)` rounded to
`float`, the positions increase strictly from 0 to 1, and for every `t`
strictly between 0 and 1 that is no position, `calc` takes as `lower` the
anchor of the greatest position below `t` and as `upper` the anchor of the
least position above `t`, and returns `lerp(lower, upper, f)` with
`f = (t - lower.position) / (upper.position - lower.position)`, which is
`upper * f + lower * (1 - f)` channel by channel, every operation rounded; at
the position of an anchor it returns the colour of that anchor. -/
theorem color_at_interpolates (values : List float3) (steps : Nat) (hn : 2 ≤ values.length)
    (hn2 : values.length ≤ 16777216) (x : ℚ) (h0 : 0 < x) (h1 : x < 1)
    (hne : ∀ i, i < values.length → x ≠ position values.length i) :
    (∃ j lower upper, j + 1 < values.length ∧
      values[j]? = some lower ∧ values[j + 1]? = some upper ∧
      position values.length j < x ∧ x < position values.length (j + 1) ∧
      (∀ i, i < values.length → position values.length i < x →
        position values.length i ≤ position values.length j) ∧
      (∀ i, i < values.length → x < position values.length i →
        position values.length (j + 1) ≤ position values.length i) ∧
      ColorMap_calc (new values steps).map_ (Flt.fin x) =
        some (lerp lower upper
          (div (sub (Flt.fin x) (Flt.fin (position values.length j)))
            (sub (Flt.fin (position values.length (j + 1)))
              (Flt.fin (position values.length j))))) ∧
      ∀ f : Flt, lerp lower upper f =
        ⟨add (mul upper.x f) (mul lower.x (sub (ofInt 1) f)),
          add (mul upper.y f) (mul lower.y (sub (ofInt 1) f)),
          add (mul upper.z f) (mul lower.z (sub (ofInt 1) f))⟩) ∧
    (∀ i, i < values.length →
      anchor_key values.length i = Flt.fin (position values.length i) ∧
      ColorMap_calc (new values steps).map_ (Flt.fin (position values.length i)) = values[i]?) ∧
    (∀ i j, i < j → j < values.length → position values.length i < position values.length j) ∧
    position values.length 0 = 0 ∧ position values.length (values.length - 1) = 1 := by
  have hmap : (new values steps).map_ = anchors_from values.length 0 values := by
    rw [new_eq32 values steps hn hn2]
  rw [hmap]
  refine ⟨?_, ?_, fun i j hij hj => position_strict hn hn2 hij hj, position_zero _,
    position_last hn⟩
  · obtain ⟨j, hj, hl, hu⟩ := position_interval hn hn2 x h0 h1 hne
    have hjv : j < values.length := by omega
    refine ⟨j, values[j], values[j + 1], hj, List.getElem?_eq_getElem hjv,
      List.getElem?_eq_getElem hj, hl, hu, ?_, ?_, calc_between32 values hn hn2 j hj x hl hu,
      fun f => rfl⟩
    · intro i hi hix
      apply position_le hn hn2 _ hjv
      by_contra hc
      have h3 : j + 1 ≤ i := by omega
      have := position_le hn hn2 h3 hi
      linarith
    · intro i hi hxi
      apply position_le hn hn2 _ hi
      by_contra hc
      have h3 : i ≤ j := by omega
      have := position_le hn hn2 h3 hjv
      linarith
  · intro i hi
    refine ⟨anchor_key_fin32 hn hn2 hi, ?_⟩
    rw [calc_at_anchor32 values hn hn2 i hi, List.getElem?_eq_getElem hi]

theorem color_at_interpolates_witness :
    2 ≤ [rgb 255 0 0, rgb 0 255 0, rgb 0 0 255].length ∧
    [rgb 255 0 0, rgb 0 255 0, rgb 0 0 255].length ≤ 16777216 ∧
    (0 : ℚ) < 3 / 4 ∧ (3 / 4 : ℚ) < 1 ∧
    (∀ i, i < [rgb 255 0 0, rgb 0 255 0, rgb 0 0 255].length →
      (3 / 4 : ℚ) ≠ position [rgb 255 0 0, rgb 0 255 0, rgb 0 0 255].length i) ∧
    ∃ j lower upper, j + 1 < [rgb 255 0 0, rgb 0 255 0, rgb 0 0 255].length ∧
      [rgb 255 0 0, rgb 0 255 0, rgb 0 0 255][j]? = some lower ∧
      [rgb 255 0 0, rgb 0 255 0, rgb 0 0 255][j + 1]? = some upper ∧
      ColorMap_calc (new [rgb 255 0 0, rgb 0 255 0, rgb 0 0 255] 4000).map_ (Flt.fin (3 / 4)) =
        some (lerp lower upper
          (div (sub (Flt.fin (3 / 4))
              (Flt.fin (position [rgb 255 0 0, rgb 0 255 0, rgb 0 0 255].length j)))
            (sub (Flt.fin (position [rgb 255 0 0, rgb 0 255 0, rgb 0 0 255].length (j + 1)))
              (Flt.fin (position [rgb 255 0 0, rgb 0 255 0, rgb 0 0 255].length j))))) := by
  have hp0 : position 3 0 = 0 := position_zero 3
  have hp1 : position 3 1 = 1 / 2 := by
    have := nearest_of_rep 1 (-1) (by norm_num) (by norm_num)
    norm_num at this
    simp only [position]
    norm_num
    exact this
  have hp2 : position 3 2 = 1 := @position_last 3 (by norm_num)
  have hne : ∀ i, i < [rgb 255 0 0, rgb 0 255 0, rgb 0 0 255].length →
      (3 / 4 : ℚ) ≠ position [rgb 255 0 0, rgb 0 255 0, rgb 0 0 255].length i := by
    intro i hi
    simp only [List.length_cons, List.length_nil] at hi ⊢
    interval_cases i
    · rw [hp0]; norm_num
    · rw [hp1]; norm_num
    · rw [hp2]; norm_num
  obtain ⟨⟨j, lower, upper, hj, hlo, hup, _, _, _, _, hcalc, _⟩, _⟩ :=
    color_at_interpolates [rgb 255 0 0, rgb 0 255 0, rgb 0 0 255] 4000 (by decide) (by decide)
      (3 / 4) (by norm_num) (by norm_num) hne
  exact ⟨by decide, by decide, by norm_num, by norm_num, hne, j, lower, upper, hj, hlo, hup,
    hcalc⟩

theorem position_quarter : position 5 1 = 1 / 4 := by
  have := nearest_of_rep 1 (-2) (by norm_num) (by norm_num)
  norm_num at this
  simp only [position]
  norm_num
  exact this

/-- C16, as stated, fails.  On the map of the gradient `jet` the `float`
`t = 8589935 / 2^32` nearest to 0.002 lies strictly between the positions 0
and 1/4 of the colours `(0, 0, 255)` and `(0, 255, 255)`; the fraction is
`f = 8589935 / 2^30`, and the blue channel that `calc` returns is
`16711679 / 65536 = 255 - 2^(-16)`, whereas `lower * (1 - f) + upper * f` is
255 for the blue channels 255 and 255. -/
theorem color_at_rounded :
    ColorMap_calc
        (new [rgb 0 0 255, rgb 0 255 255, rgb 255 255 0, rgb 255 0 0, rgb 50 0 0] 4000).map_
        (Flt.fin (8589935 / 4294967296)) =
      some (rgb 0 (8556381 / 4194304) (16711679 / 65536)) ∧
    div (sub (Flt.fin (8589935 / 4294967296)) (Flt.fin 0)) (sub (Flt.fin (1 / 4)) (Flt.fin 0)) =
      Flt.fin (8589935 / 1073741824) ∧
    (255 : ℚ) * (1 - 8589935 / 1073741824) + 255 * (8589935 / 1073741824) = 255 ∧
    (16711679 / 65536 : ℚ) < 255 := by
  have hn : 2 ≤ [rgb 0 0 255, rgb 0 255 255, rgb 255 255 0, rgb 255 0 0, rgb 50 0 0].length := by
    decide
  have hn2 : [rgb 0 0 255, rgb 0 255 255, rgb 255 255 0, rgb 255 0 0, rgb 50 0 0].length
      ≤ 16777216 := by decide
  have hmap : (new [rgb 0 0 255, rgb 0 255 255, rgb 255 255 0, rgb 255 0 0, rgb 50 0 0] 4000).map_
      = anchors_from 5 0 [rgb 0 0 255, rgb 0 255 255, rgb 255 255 0, rgb 255 0 0, rgb 50 0 0] := by
    rw [new_eq32 _ 4000 hn hn2]
    rfl
  have hf : div (sub (Flt.fin (8589935 / 4294967296)) (Flt.fin 0))
      (sub (Flt.fin (1 / 4)) (Flt.fin 0)) = Flt.fin (8589935 / 1073741824) := by
    have ha : sub (Flt.fin (8589935 / 4294967296)) (Flt.fin 0) = Flt.fin (8589935 / 4294967296) := by
      rw [sub_fin32]
      exact round32_eval (-9) 8589935 _ (by norm_num) (by norm_num) (by norm_num) (by norm_num)
        (by norm_num [abs_lt]) (by norm_num)
    have hb : sub (Flt.fin (1 / 4)) (Flt.fin 0) = Flt.fin (1 / 4) := by
      rw [sub_fin32]
      exact round32_eval (-2) 8388608 _ (by norm_num) (by norm_num) (by norm_num) (by norm_num)
        (by norm_num [abs_lt]) (by norm_num)
    rw [ha, hb, div_fin32 (by norm_num)]
    exact round32_eval (-7) 8589935 _ (by norm_num) (by norm_num) (by norm_num) (by norm_num)
      (by norm_num [abs_lt]) (by norm_num)
  have hs : sub (ofInt 1) (Flt.fin (8589935 / 1073741824)) = Flt.fin (8321499 / 8388608) := by
    rw [ofInt_one, sub_fin32]
    exact round32_eval (-1) 16642998 _ (by norm_num) (by norm_num) (by norm_num) (by norm_num)
      (by norm_num [abs_lt]) (by norm_num)
  have hP : mul (Flt.fin 255) (Flt.fin (8589935 / 1073741824)) = Flt.fin (8556381 / 4194304) := by
    rw [mul_fin32]
    exact round32_eval 1 8556381 _ (by norm_num) (by norm_num) (by norm_num) (by norm_num)
      (by norm_num [abs_lt]) (by norm_num)
  have hQ : mul (Flt.fin 255) (Flt.fin (8321499 / 8388608)) = Flt.fin (8288993 / 32768) := by
    rw [mul_fin32]
    exact round32_eval 7 16577986 _ (by norm_num) (by norm_num) (by norm_num) (by norm_num)
      (by norm_num [abs_lt]) (by norm_num)
  have hz : add (Flt.fin (8556381 / 4194304)) (Flt.fin (8288993 / 32768)) =
      Flt.fin (16711679 / 65536) := by
    rw [add_fin32]
    exact round32_eval 7 16711679 _ (by norm_num) (by norm_num) (by norm_num) (by norm_num)
      (by norm_num [abs_lt]) (by norm_num)
  have h00 : ∀ q : ℚ, mul (Flt.fin 0) (Flt.fin q) = Flt.fin 0 := by
    intro q
    rw [mul_fin32, zero_mul, round32_zero]
  have hy : add (Flt.fin (8556381 / 4194304)) (Flt.fin 0) = Flt.fin (8556381 / 4194304) := by
    rw [add_fin32, add_zero]
    exact round32_eval 1 8556381 _ (by norm_num) (by norm_num) (by norm_num) (by norm_num)
      (by norm_num [abs_lt]) (by norm_num)
  have hx : add (Flt.fin 0) (Flt.fin 0) = Flt.fin 0 := by
    rw [add_fin32, add_zero, round32_zero]
  refine ⟨?_, hf, by norm_num, by norm_num⟩
  rw [hmap]
  have hc := calc_between32 [rgb 0 0 255, rgb 0 255 255, rgb 255 255 0, rgb 255 0 0, rgb 50 0 0]
    hn hn2 0 (by decide) (8589935 / 4294967296)
    (by rw [show ([rgb 0 0 255, rgb 0 255 255, rgb 255 255 0, rgb 255 0 0, rgb 50 0 0] :
        List float3).length = 5 from rfl, position_zero]; norm_num)
    (by rw [show ([rgb 0 0 255, rgb 0 255 255, rgb 255 255 0, rgb 255 0 0, rgb 50 0 0] :
        List float3).length = 5 from rfl, position_quarter]; norm_num)
  simp only [show ([rgb 0 0 255, rgb 0 255 255, rgb 255 255 0, rgb 255 0 0, rgb 50 0 0] :
      List float3).length = 5 from rfl, position_zero, position_quarter, zero_add] at hc
  rw [hc, hf]
  simp only [List.getElem_cons_zero, List.getElem_cons_succ, lerp, float3_add, float3_smul, rgb,
    hs, hP, hQ, hz, h00, hy, hx]

end binary32

/-! ## The counters and the quotient of `normalized` -/

namespace binary32

theorem ofInt_natCast {n : Nat} (h : n ≤ 16777216) : ofInt (n : Int) = Flt.fin (n : ℚ) := by
  simp only [ofInt, Int.cast_natCast]
  exact round32_natCast h

/-- The quotient that `coloring_function` returns at a raw value below
`MAX_DEPTH`. -/
theorem coloring_function_eq32 (h : Array Int) {d : Nat} {a b : Int} (hd : d < MAX_DEPTH)
    (ha : h[d]? = some a) (hb : h[MAX_DEPTH - 1]? = some b) :
    coloring_function h (ofNat d) = some (div (ofInt a) (ofInt b)) := by
  have hd2 : d ≤ 16777216 := by
    simp only [MAX_DEPTH] at hd
    omega
  have htr : Flt.trunc (d : ℚ) = (d : Int) := by
    simp [Flt.trunc]
  have hcast : Flt.toInt (Flt.fin (d : ℚ)) = some (d : Int) := by
    simp only [Flt.toInt, htr]
    rw [if_pos]
    simp only [MAX_DEPTH] at hd
    omega
  simp only [coloring_function, ofNat_eq hd2, hcast, Option.bind_eq_bind, Option.some_bind,
    Int.toNat_ofNat, ha, hb]
  simp

/-- The `float` quotient of two counts `a ≤ b` of at most `2^24` samples is the
`float` nearest to the fraction `a / b`, at most `2^(-25)` away from it. -/
theorem div_counts {a b : Nat} (hab : a ≤ b) (hb0 : 0 < b) (hb : b ≤ 16777216) :
    div (ofInt (a : Int)) (ofInt (b : Int)) = Flt.fin (nearest ((a : ℚ) / (b : ℚ))) ∧
    |nearest ((a : ℚ) / (b : ℚ)) - (a : ℚ) / (b : ℚ)| ≤ 1 / 33554432 := by
  have hbq : (0 : ℚ) < (b : ℚ) := by exact_mod_cast hb0
  have h0 : (0 : ℚ) ≤ (a : ℚ) / (b : ℚ) := div_nonneg (Nat.cast_nonneg _) hbq.le
  have h1 : (a : ℚ) / (b : ℚ) ≤ 1 := by
    rw [div_le_one hbq]
    exact_mod_cast hab
  refine ⟨?_, abs_nearest_sub_le_unit h0 h1⟩
  rw [ofInt_natCast (le_trans hab hb), ofInt_natCast hb, div_fin32 hbq.ne']
  exact round32_unit h0 h1

theorem count_upto_top32 (ds : List Nat) (hd : ∀ d ∈ ds, d < MAX_DEPTH) :
    count_upto ds (MAX_DEPTH - 1) = ds.countP (fun v => decide (v ≠ 0)) := by
  unfold count_upto
  apply List.countP_congr
  intro x hx
  have := hd x hx
  simp only [decide_eq_true_eq]
  omega

theorem countP_range_le (ds : List Nat) (d : Nat) :
    ds.countP (fun v => decide (1 ≤ v ∧ v ≤ d)) ≤ ds.countP (fun v => decide (v ≠ 0)) := by
  apply List.countP_mono_left
  intro x _ hx
  simp only [decide_eq_true_eq] at hx ⊢
  omega

/-- C15 (amended).  After `update_histogram` on samples below `MAX_DEPTH`:
counter 0 is the number of samples equal to 0; counter `i`, for `i` in
`1 .. MAX_DEPTH-1`, is the number of samples `v` with `1 ≤ v ≤ i`; counter
`MAX_DEPTH-1` is the number of nonzero samples; and when there is a nonzero
sample, `normalized(d)` for `d ≥ 1` is the `float` quotient of the number of
samples in `1 .. d` by the number of nonzero samples, which for a frame of at
most `2^24` samples is the `float` nearest to the fraction of nonzero samples
whose value is at most `d`, at most `2^(-25)` away from it. -/
theorem histogram_counts (hist : Array Int) (ds : List Nat) (hd : ∀ d ∈ ds, d < MAX_DEPTH) :
    ∃ h, update_histogram hist ds = some h ∧
      h[0]? = some (ds.count 0 : Int) ∧
      (∀ i, 1 ≤ i → i ≤ MAX_DEPTH - 1 →
        h[i]? = some (ds.countP (fun v => decide (1 ≤ v ∧ v ≤ i)) : Int)) ∧
      h[MAX_DEPTH - 1]? = some (ds.countP (fun v => decide (v ≠ 0)) : Int) ∧
      (0 < ds.countP (fun v => decide (v ≠ 0)) →
        ∀ d, 1 ≤ d → d ≤ MAX_DEPTH - 1 →
          coloring_function h (ofNat d) =
            some (div (ofInt (ds.countP (fun v => decide (1 ≤ v ∧ v ≤ d)) : Int))
              (ofInt (ds.countP (fun v => decide (v ≠ 0)) : Int))) ∧
          (ds.length ≤ 16777216 →
            coloring_function h (ofNat d) =
              some (Flt.fin (nearest ((ds.countP (fun v => decide (1 ≤ v ∧ v ≤ d)) : ℚ) /
                (ds.countP (fun v => decide (v ≠ 0)) : ℚ)))) ∧
            |nearest ((ds.countP (fun v => decide (1 ≤ v ∧ v ≤ d)) : ℚ) /
                  (ds.countP (fun v => decide (v ≠ 0)) : ℚ)) -
                (ds.countP (fun v => decide (1 ≤ v ∧ v ≤ d)) : ℚ) /
                  (ds.countP (fun v => decide (v ≠ 0)) : ℚ)| ≤ 1 / 33554432)) := by
  obtain ⟨h, hu, _, hv⟩ := update_histogram_spec hist ds hd
  have hi : ∀ i, 1 ≤ i → i ≤ MAX_DEPTH - 1 →
      h[i]? = some (ds.countP (fun v => decide (1 ≤ v ∧ v ≤ i)) : Int) := by
    intro i h1 h2
    have hlt : i < MAX_DEPTH := by simp only [MAX_DEPTH] at h2 ⊢; omega
    have hne : i ≠ 0 := by omega
    rw [hv i hlt]
    simp only [hist_value, hne, if_false, count_upto]
  have htop : h[MAX_DEPTH - 1]? = some (ds.countP (fun v => decide (v ≠ 0)) : Int) := by
    rw [hv (MAX_DEPTH - 1) (by simp [MAX_DEPTH])]
    have hne : MAX_DEPTH - 1 ≠ 0 := by simp [MAX_DEPTH]
    simp only [hist_value, hne, if_false, count_upto_top32 ds hd]
  refine ⟨h, hu, ?_, hi, htop, ?_⟩
  · rw [hv 0 (by simp [MAX_DEPTH])]
    simp [hist_value]
  · intro hpos d h1 h2
    have hlt : d < MAX_DEPTH := by simp only [MAX_DEPTH] at h2 ⊢; omega
    have hcf := coloring_function_eq32 h hlt (hi d h1 h2) htop
    refine ⟨hcf, fun hlen => ?_⟩
    have htot : ds.countP (fun v => decide (v ≠ 0)) ≤ 16777216 :=
      le_trans (List.countP_le_length _) hlen
    obtain ⟨hq, he⟩ := div_counts (countP_range_le ds d) hpos htot
    exact ⟨by rw [hcf, hq], he⟩

theorem histogram_counts_witness :
    (∀ d ∈ [0, 10, 10, 20], d < MAX_DEPTH) ∧
    ∃ h, update_histogram (mkArray MAX_DEPTH 5) [0, 10, 10, 20] = some h ∧
      h[0]? = some (([0, 10, 10, 20] : List Nat).count 0 : Int) ∧
      (∀ i, 1 ≤ i → i ≤ MAX_DEPTH - 1 →
        h[i]? = some (([0, 10, 10, 20] : List Nat).countP (fun v => decide (1 ≤ v ∧ v ≤ i)) : Int)) ∧
      h[MAX_DEPTH - 1]? = some (([0, 10, 10, 20] : List Nat).countP (fun v => decide (v ≠ 0)) : Int) ∧
      (0 < ([0, 10, 10, 20] : List Nat).countP (fun v => decide (v ≠ 0)) →
        ∀ d, 1 ≤ d → d ≤ MAX_DEPTH - 1 →
          coloring_function h (ofNat d) =
            some (div
              (ofInt (([0, 10, 10, 20] : List Nat).countP (fun v => decide (1 ≤ v ∧ v ≤ d)) : Int))
              (ofInt (([0, 10, 10, 20] : List Nat).countP (fun v => decide (v ≠ 0)) : Int))) ∧
          (([0, 10, 10, 20] : List Nat).length ≤ 16777216 →
            coloring_function h (ofNat d) =
              some (Flt.fin (nearest
                ((([0, 10, 10, 20] : List Nat).countP (fun v => decide (1 ≤ v ∧ v ≤ d)) : ℚ) /
                  (([0, 10, 10, 20] : List Nat).countP (fun v => decide (v ≠ 0)) : ℚ)))) ∧
            |nearest
                  ((([0, 10, 10, 20] : List Nat).countP (fun v => decide (1 ≤ v ∧ v ≤ d)) : ℚ) /
                    (([0, 10, 10, 20] : List Nat).countP (fun v => decide (v ≠ 0)) : ℚ)) -
                (([0, 10, 10, 20] : List Nat).countP (fun v => decide (1 ≤ v ∧ v ≤ d)) : ℚ) /
                  (([0, 10, 10, 20] : List Nat).countP (fun v => decide (v ≠ 0)) : ℚ)|
              ≤ 1 / 33554432)) :=
  ⟨by decide, histogram_counts (mkArray MAX_DEPTH 5) [0, 10, 10, 20] (by decide)⟩

/-- C15, as stated, fails.  On the frame of samples `0, 10, 10, 20`, two of the
three nonzero samples are at most 10, and `normalized(10)` is the `float`
`11184811 / 2^24`, which is not the fraction `2 / 3`. -/
theorem normalized_rounded :
    ∃ h, update_histogram (mkArray MAX_DEPTH 0) [0, 10, 10, 20] = some h ∧
      h[10]? = some 2 ∧ h[MAX_DEPTH - 1]? = some 3 ∧
      coloring_function h (ofNat 10) = some (Flt.fin (11184811 / 16777216)) ∧
      ((([0, 10, 10, 20] : List Nat).countP (fun v => decide (1 ≤ v ∧ v ≤ 10)) : ℚ) /
        (([0, 10, 10, 20] : List Nat).countP (fun v => decide (v ≠ 0)) : ℚ)) = 2 / 3 ∧
      (11184811 / 16777216 : ℚ) ≠ 2 / 3 := by
  obtain ⟨h, hu, _, hv⟩ := update_histogram_spec (mkArray MAX_DEPTH 0) [0, 10, 10, 20]
    (by decide)
  have h10 : h[10]? = some 2 := by
    rw [hv 10 (by decide)]
    rfl
  have htop : h[MAX_DEPTH - 1]? = some 3 := by
    rw [hv (MAX_DEPTH - 1) (by decide)]
    rfl
  refine ⟨h, hu, h10, htop, ?_, ?_, by norm_num⟩
  · rw [coloring_function_eq32 h (by decide) h10 htop]
    have h2 : ofInt 2 = Flt.fin 2 := @ofInt_natCast 2 (by norm_num)
    have h3 : ofInt 3 = Flt.fin 3 := @ofInt_natCast 3 (by norm_num)
    rw [h2, h3, div_fin32 (by norm_num),
      round32_eval (-1) 11184811 (11184811 / 16777216) (by norm_num) (by norm_num)
        (by norm_num) (by norm_num) (by norm_num [abs_lt]) (by norm_num)]
  · simp [List.countP_cons]

end binary32

/-! ## The range of the colours handed to `colorize_pixel` -/

/-- The list `palette_values` holds the arguments of the ten constructor calls
of `colorizer.cpp`. -/
theorem palette_values_eq :
    Colorizer.new.color_maps_ = palette_values.map (fun p => ColorMap.new p.1 p.2) := rfl

theorem palette_values_good : ∀ p ∈ palette_values,
    2 ≤ p.1.length ∧ p.1.length ≤ 16777216 ∧ 1 ≤ p.2 ∧ p.2 ≤ 16777216 ∧
      ∀ c ∈ p.1, c.within 0 255 = true := by
  decide

namespace binary32

theorem toUInt8_within32 {f : Flt} (h : Flt.within 0 (255 + 1 / 32768) f = true) :
    ∃ q : ℚ, f = Flt.fin q ∧ 0 ≤ q ∧ q ≤ 255 + 1 / 32768 ∧
      (Flt.toUInt8 f).map Fin.val = some ⌊q⌋.toNat := by
  obtain ⟨q, rfl, h0, h1⟩ := within_fin h
  refine ⟨q, rfl, h0, h1, ?_⟩
  have htr : Flt.trunc q = ⌊q⌋ := by simp [Flt.trunc, h0]
  have hf0 : 0 ≤ ⌊q⌋ := Int.floor_nonneg.2 h0
  have hf1 : ⌊q⌋ < 256 := by
    rw [Int.floor_lt]
    norm_num
    linarith
  simp only [Flt.toUInt8, htr]
  rw [dif_pos ⟨hf0, hf1⟩]
  rfl

/-- The three conversions to `uint8_t` of a colour whose channels lie in
`[0, 255 + 2^(-15)]` are defined. -/
theorem byte_range32 {c : float3} (h : c.within 0 (255 + 1 / 32768) = true) :
    ∃ r g b : Byte, Flt.toUInt8 c.x = some r ∧ Flt.toUInt8 c.y = some g ∧
      Flt.toUInt8 c.z = some b := by
  simp only [float3.within, Bool.and_eq_true] at h
  obtain ⟨⟨hx, hy⟩, hz⟩ := h
  obtain ⟨_, _, _, _, hr⟩ := toUInt8_within32 hx
  obtain ⟨_, _, _, _, hg⟩ := toUInt8_within32 hy
  obtain ⟨_, _, _, _, hb⟩ := toUInt8_within32 hz
  cases hxr : Flt.toUInt8 c.x with
  | none => rw [hxr] at hr; simp at hr
  | some r =>
    cases hxg : Flt.toUInt8 c.y with
    | none => rw [hxg] at hg; simp at hg
    | some g =>
      cases hxb : Flt.toUInt8 c.z with
      | none => rw [hxb] at hb; simp at hb
      | some b => exact ⟨r, g, b, rfl, rfl, rfl⟩

theorem initialize_cache_map32 (cm : ColorMap) (steps : Nat) :
    (initialize_cache cm steps).map_ = cm.map_ := by
  unfold initialize_cache
  split <;> rfl

theorem new_map_eq32 (values : List float3) (steps : Nat) :
    (new values steps).map_ = fill_map values.length 0 values [] := by
  unfold new
  rw [initialize_cache_map32]

theorem div_zero_zero : div (Flt.fin 0) (Flt.fin 0) = Flt.nan := by
  simp only [binary32.div, Flt.div]
  simp [rnd]

/-- The key of the only colour of a gradient built from one colour is
`0.0f / 0`, which is NaN. -/
theorem new_map_single32 (c : float3) (steps : Nat) :
    (new [c] steps).map_ = [(Flt.nan, c)] := by
  rw [new_map_eq32]
  have h0 : ofNat 0 = Flt.fin 0 := by
    have := @ofNat_eq 0 (by norm_num)
    simpa using this
  have hk : anchor_key 1 0 = Flt.nan := by
    show div (ofNat 0) (ofNat 0) = Flt.nan
    rw [h0]
    exact div_zero_zero
  show fill_map 1 0 [c] [] = _
  simp only [fill_map, map_assign, hk]

/-- The map of a gradient built from 1 to `2^24` colours whose channels lie in
`[0, 255]`: `calc` has a result at every argument, with channels in
`[0, 255 + 2^(-15)]`. -/
theorem new_calc_within32 (values : List float3) (steps : Nat) (hv : values ≠ [])
    (hn2 : values.length ≤ 16777216) (hb : ∀ c ∈ values, c.within 0 255 = true) (t : Flt) :
    ∃ c, ColorMap_calc (new values steps).map_ t = some c ∧
      c.within 0 (255 + 1 / 32768) = true := by
  by_cases hn : 2 ≤ values.length
  · have hmap : (new values steps).map_ = anchors_from values.length 0 values := by
      rw [new_eq32 values steps hn hn2]
    rw [hmap]
    exact calc_within32 values hn hn2 hb t
  · cases values with
    | nil => exact absurd rfl hv
    | cons c rest =>
      cases rest with
      | cons c2 rest2 =>
        simp only [List.length_cons] at hn
        omega
      | nil =>
        rw [new_map_single32, calc_nan_key32]
        exact ⟨c, rfl, within_mono (hb c (List.mem_cons_self _ _))⟩

/-- Every slot of the cache of a constructed gradient is a value of `calc` on
its map. -/
theorem cache_mem32 (values : List float3) (steps : Nat) (cache : List float3)
    (hd : (new values steps).data_ = some cache) :
    ∀ c ∈ cache, ∃ t, ColorMap_calc (new values steps).map_ t = some c := by
  intro c hc
  rw [new_map_eq32]
  unfold new initialize_cache at hd
  split at hd
  · simp only at hd
    obtain ⟨i, _, hi⟩ := mapM_mem _ _ _ hd c hc
    exact ⟨_, hi⟩
  · simp at hd

/-- A result of `get` is a slot of the cache. -/
theorem get_mem32 (cm : ColorMap) (t : Flt) (c : float3) (h : get cm t = some c) :
    ∃ cache, cm.data_ = some cache ∧ c ∈ cache := by
  unfold get at h
  simp only [Option.bind_eq_bind, Option.bind_eq_some] at h
  obtain ⟨mx, _, mn, _, h⟩ := h
  split at h
  · simp only [Option.bind_eq_some] at h
    obtain ⟨cache, hcache, hc⟩ := h
    exact ⟨cache, hcache, List.getElem?_mem hc⟩
  · simp only [Option.bind_eq_some] at h
    obtain ⟨_, _, i, _, cache, hcache, hc⟩ := h
    split at hc
    · exact ⟨cache, hcache, List.getElem?_mem hc⟩
    · simp at hc

theorem within_of_calc32 (values : List float3) (steps : Nat) (hv : values ≠ [])
    (hn2 : values.length ≤ 16777216) (hb : ∀ c ∈ values, c.within 0 255 = true) {t : Flt}
    {c : float3} (h : ColorMap_calc (new values steps).map_ t = some c) :
    c.within 0 (255 + 1 / 32768) = true := by
  obtain ⟨c', hc', hw⟩ := new_calc_within32 values steps hv hn2 hb t
  rw [h] at hc'
  rw [Option.some.inj hc']
  exact hw

theorem within_of_get32 (values : List float3) (steps : Nat) (hv : values ≠ [])
    (hn2 : values.length ≤ 16777216) (hb : ∀ c ∈ values, c.within 0 255 = true) {t : Flt}
    {c : float3} (h : get (new values steps) t = some c) :
    c.within 0 (255 + 1 / 32768) = true := by
  obtain ⟨cache, hd, hc⟩ := get_mem32 _ t c h
  obtain ⟨t', ht'⟩ := cache_mem32 values steps cache hd c hc
  exact within_of_calc32 values steps hv hn2 hb ht'

/-- The lookup `get` of a gradient built from 2 to `2^24` colours with at most
`2^24` steps has a result at every argument that is not NaN. -/
theorem get_isSome32 (values : List float3) (steps : Nat) (hn : 2 ≤ values.length)
    (hn2 : values.length ≤ 16777216) (hs2 : steps ≤ 16777216) {v : Flt} (hv : v ≠ Flt.nan) :
    (get (new values steps) v).isSome = true := by
  have hmin : (new values steps).min_ = some (Flt.fin 0) := by rw [new_eq32 values steps hn hn2]
  have hmax : (new values steps).max_ = some (Flt.fin 1) := by rw [new_eq32 values steps hn hn2]
  have hsize : (new values steps).size_ = some (steps + 1) := by
    rw [new_eq32 values steps hn hn2]
  obtain ⟨cache, hdata, hlen, hslots⟩ := cache_slots32 values steps hn hn2
  obtain ⟨τ, hτ, h0, h1, _⟩ := clamp_position32 hv
  obtain ⟨_, hget⟩ := get_of_fields32 _ steps cache hmax hmin hsize hdata hs2 hτ h0 h1
  obtain ⟨_, _, hfl0, hflS⟩ := @index_of_position32 τ h0 h1 steps hs2
  have hk : ⌊nearest (τ * (steps : ℚ))⌋.toNat ≤ steps := by omega
  rw [hget]
  exact (hslots _ hk).2

/-- C20 (amended).  In binary32 arithmetic, for every gradient built from 1 to
`2^24` colours whose channels lie in `[0, 255]` and for every argument `t`,
NaN and the infinities included: `calc(t)` has a result whose channels lie in
`[0, 255 + 2^(-15)]`; so does every slot of the cache and every result of
`get(t)`, whose three conversions to `uint8_t` are therefore defined; with at
least two colours and at most `2^24` steps `get(t)` has a result unless `t` is
NaN.  All of this holds of each of the ten gradients of the palette. -/
theorem colours_between_anchors (values : List float3) (steps : Nat) (hv : values ≠ [])
    (hn2 : values.length ≤ 16777216) (hb : ∀ c ∈ values, c.within 0 255 = true) (t : Flt) :
    (∃ c, ColorMap_calc (new values steps).map_ t = some c ∧
      c.within 0 (255 + 1 / 32768) = true) ∧
    (∀ cache, (new values steps).data_ = some cache →
      ∀ c ∈ cache, c.within 0 (255 + 1 / 32768) = true) ∧
    (∀ c, get (new values steps) t = some c →
      c.within 0 (255 + 1 / 32768) = true ∧
        ∃ r g b : Byte, Flt.toUInt8 c.x = some r ∧ Flt.toUInt8 c.y = some g ∧
          Flt.toUInt8 c.z = some b) ∧
    (2 ≤ values.length → steps ≤ 16777216 → t ≠ Flt.nan →
      (get (new values steps) t).isSome = true) ∧
    palette_values.length = 10 ∧
    (∀ p ∈ palette_values,
      (t ≠ Flt.nan → (get (new p.1 p.2) t).isSome = true) ∧
      ∀ c, get (new p.1 p.2) t = some c →
        c.within 0 (255 + 1 / 32768) = true ∧
          ∃ r g b : Byte, Flt.toUInt8 c.x = some r ∧ Flt.toUInt8 c.y = some g ∧
            Flt.toUInt8 c.z = some b) := by
  refine ⟨new_calc_within32 values steps hv hn2 hb t, ?_, ?_, ?_, rfl, ?_⟩
  · intro cache hd c hc
    obtain ⟨t', ht'⟩ := cache_mem32 values steps cache hd c hc
    exact within_of_calc32 values steps hv hn2 hb ht'
  · intro c hc
    have hw := within_of_get32 values steps hv hn2 hb hc
    exact ⟨hw, byte_range32 hw⟩
  · intro hn hs2 ht
    exact get_isSome32 values steps hn hn2 hs2 ht
  · intro p hp
    obtain ⟨hn, hl, _, hs2, hw⟩ := palette_values_good p hp
    have hne : p.1 ≠ [] := by
      intro h
      rw [h] at hn
      simp at hn
    refine ⟨fun ht => get_isSome32 p.1 p.2 hn hl hs2 ht, fun c hc => ?_⟩
    have hw' := within_of_get32 p.1 p.2 hne hl hw hc
    exact ⟨hw', byte_range32 hw'⟩

theorem colours_between_anchors_witness :
    [rgb 0 0 255, rgb 0 255 255, rgb 255 255 0, rgb 255 0 0, rgb 50 0 0] ≠ [] ∧
    [rgb 0 0 255, rgb 0 255 255, rgb 255 255 0, rgb 255 0 0, rgb 50 0 0].length ≤ 16777216 ∧
    (∀ c ∈ [rgb 0 0 255, rgb 0 255 255, rgb 255 255 0, rgb 255 0 0, rgb 50 0 0],
      c.within 0 255 = true) ∧
    (∃ c, ColorMap_calc
        (new [rgb 0 0 255, rgb 0 255 255, rgb 255 255 0, rgb 255 0 0, rgb 50 0 0] 4000).map_
        (Flt.fin (15339169 / 4294967296)) = some c ∧
      c.within 0 (255 + 1 / 32768) = true) ∧
    (∀ c, get (new [rgb 0 0 255, rgb 0 255 255, rgb 255 255 0, rgb 255 0 0, rgb 50 0 0] 4000)
        (Flt.fin (15339169 / 4294967296)) = some c →
      c.within 0 (255 + 1 / 32768) = true ∧
        ∃ r g b : Byte, Flt.toUInt8 c.x = some r ∧ Flt.toUInt8 c.y = some g ∧
          Flt.toUInt8 c.z = some b) ∧
    (get (new [rgb 0 0 255, rgb 0 255 255, rgb 255 255 0, rgb 255 0 0, rgb 50 0 0] 4000)
        (Flt.fin (15339169 / 4294967296))).isSome = true := by
  have h := colours_between_anchors
    [rgb 0 0 255, rgb 0 255 255, rgb 255 255 0, rgb 255 0 0, rgb 50 0 0] 4000 (by simp)
    (by decide) (by decide) (Flt.fin (15339169 / 4294967296))
  exact ⟨by simp, by decide, by decide, h.1, h.2.2.1,
    h.2.2.2.1 (by decide) (by decide) (fun e => Flt.noConfusion e)⟩

/-- The colour that `calc` returns on the map of the gradient `jet` at the key
`7516193 / 2^31` of cache slot 14. -/
theorem jet_slot_colour :
    ColorMap_calc
        (anchors_from 5 0 [rgb 0 0 255, rgb 0 255 255, rgb 255 255 0, rgb 255 0 0, rgb 50 0 0])
        (Flt.fin (7516193 / 2147483648)) =
      some (rgb 0 (7486833 / 2097152) (16711681 / 65536)) := by
  have hn : 2 ≤ [rgb 0 0 255, rgb 0 255 255, rgb 255 255 0, rgb 255 0 0, rgb 50 0 0].length := by
    decide
  have hn2 : [rgb 0 0 255, rgb 0 255 255, rgb 255 255 0, rgb 255 0 0, rgb 50 0 0].length
      ≤ 16777216 := by decide
  have hf : div (sub (Flt.fin (7516193 / 2147483648)) (Flt.fin 0))
      (sub (Flt.fin (1 / 4)) (Flt.fin 0)) = Flt.fin (7516193 / 536870912) := by
    have ha : sub (Flt.fin (7516193 / 2147483648)) (Flt.fin 0) = Flt.fin (7516193 / 2147483648) := by
      rw [sub_fin32]
      exact round32_eval (-9) 15032386 _ (by norm_num) (by norm_num) (by norm_num) (by norm_num)
        (by norm_num [abs_lt]) (by norm_num)
    have hb : sub (Flt.fin (1 / 4)) (Flt.fin 0) = Flt.fin (1 / 4) := by
      rw [sub_fin32]
      exact round32_eval (-2) 8388608 _ (by norm_num) (by norm_num) (by norm_num) (by norm_num)
        (by norm_num [abs_lt]) (by norm_num)
    rw [ha, hb, div_fin32 (by norm_num)]
    exact round32_eval (-7) 15032386 _ (by norm_num) (by norm_num) (by norm_num) (by norm_num)
      (by norm_num [abs_lt]) (by norm_num)
  have hs : sub (ofInt 1) (Flt.fin (7516193 / 536870912)) = Flt.fin (16542335 / 16777216) := by
    rw [ofInt_one, sub_fin32]
    exact round32_eval (-1) 16542335 _ (by norm_num) (by norm_num) (by norm_num) (by norm_num)
      (by norm_num [abs_lt]) (by norm_num)
  have hP : mul (Flt.fin 255) (Flt.fin (7516193 / 536870912)) = Flt.fin (7486833 / 2097152) := by
    rw [mul_fin32]
    exact round32_eval 1 14973666 _ (by norm_num) (by norm_num) (by norm_num) (by norm_num)
      (by norm_num [abs_lt]) (by norm_num)
  have hQ : mul (Flt.fin 255) (Flt.fin (16542335 / 16777216)) = Flt.fin (16477717 / 65536) := by
    rw [mul_fin32]
    exact round32_eval 7 16477717 _ (by norm_num) (by norm_num) (by norm_num) (by norm_num)
      (by norm_num [abs_lt]) (by norm_num)
  have hz : add (Flt.fin (7486833 / 2097152)) (Flt.fin (16477717 / 65536)) =
      Flt.fin (16711681 / 65536) := by
    rw [add_fin32]
    exact round32_eval 7 16711681 _ (by norm_num) (by norm_num) (by norm_num) (by norm_num)
      (by norm_num [abs_lt]) (by norm_num)
  have h00 : ∀ q : ℚ, mul (Flt.fin 0) (Flt.fin q) = Flt.fin 0 := by
    intro q
    rw [mul_fin32, zero_mul, round32_zero]
  have hy : add (Flt.fin (7486833 / 2097152)) (Flt.fin 0) = Flt.fin (7486833 / 2097152) := by
    rw [add_fin32, add_zero]
    exact round32_eval 1 14973666 _ (by norm_num) (by norm_num) (by norm_num) (by norm_num)
      (by norm_num [abs_lt]) (by norm_num)
  have hx : add (Flt.fin 0) (Flt.fin 0) = Flt.fin 0 := by
    rw [add_fin32, add_zero, round32_zero]
  have hc := calc_between32 [rgb 0 0 255, rgb 0 255 255, rgb 255 255 0, rgb 255 0 0, rgb 50 0 0]
    hn hn2 0 (by decide) (7516193 / 2147483648)
    (by rw [show ([rgb 0 0 255, rgb 0 255 255, rgb 255 255 0, rgb 255 0 0, rgb 50 0 0] :
        List float3).length = 5 from rfl, position_zero]; norm_num)
    (by rw [show ([rgb 0 0 255, rgb 0 255 255, rgb 255 255 0, rgb 255 0 0, rgb 50 0 0] :
        List float3).length = 5 from rfl, position_quarter]; norm_num)
  simp only [show ([rgb 0 0 255, rgb 0 255 255, rgb 255 255 0, rgb 255 0 0, rgb 50 0 0] :
      List float3).length = 5 from rfl, position_zero, position_quarter, zero_add] at hc
  rw [hc, hf]
  simp only [List.getElem_cons_zero, List.getElem_cons_succ, lerp, float3_add, float3_smul, rgb,
    hs, hP, hQ, hz, h00, hy, hx]

/-- C20, as stated, fails.  Every channel of the five colours of the gradient
`jet` lies in `[0, 255]`.  On the 8-bit frame of one sample 1 and 279 samples
2, `normalized(1)` is the `float` `15339169 / 2^32` nearest to `1 / 280`; `get`
of `jet` reads slot 14 there, which holds the value of `calc` at the key
`7516193 / 2^31`, and its blue channel is `16711681 / 65536 = 255 + 2^(-16)`,
above the maximum 255 of the blue channels of the anchors. -/
theorem colours_exceed_anchors :
    (∀ c ∈ [rgb 0 0 255, rgb 0 255 255, rgb 255 255 0, rgb 255 0 0, rgb 50 0 0],
      c.between (0, 0, 0) (255, 255, 255) = true) ∧
    (∃ h, update_histogram (mkArray MAX_DEPTH 0) (1 :: List.replicate 279 2) = some h ∧
      coloring_function h (ofNat 1) = some (Flt.fin (15339169 / 4294967296))) ∧
    get_index (new [rgb 0 0 255, rgb 0 255 255, rgb 255 255 0, rgb 255 0 0, rgb 50 0 0] 4000)
        (Flt.fin (15339169 / 4294967296)) = some 14 ∧
    get (new [rgb 0 0 255, rgb 0 255 255, rgb 255 255 0, rgb 255 0 0, rgb 50 0 0] 4000)
        (Flt.fin (15339169 / 4294967296)) =
      some (rgb 0 (7486833 / 2097152) (16711681 / 65536)) ∧
    ColorMap_calc
        (new [rgb 0 0 255, rgb 0 255 255, rgb 255 255 0, rgb 255 0 0, rgb 50 0 0] 4000).map_
        (Flt.fin (7516193 / 2147483648)) =
      some (rgb 0 (7486833 / 2097152) (16711681 / 65536)) ∧
    (rgb 0 (7486833 / 2097152) (16711681 / 65536)).between (0, 0, 0) (255, 255, 255) = false ∧
    (255 : ℚ) < 16711681 / 65536 := by
  have hn : 2 ≤ [rgb 0 0 255, rgb 0 255 255, rgb 255 255 0, rgb 255 0 0, rgb 50 0 0].length := by
    decide
  have hn2 : [rgb 0 0 255, rgb 0 255 255, rgb 255 255 0, rgb 255 0 0, rgb 50 0 0].length
      ≤ 16777216 := by decide
  have hmin : (new [rgb 0 0 255, rgb 0 255 255, rgb 255 255 0, rgb 255 0 0, rgb 50 0 0]
      4000).min_ = some (Flt.fin 0) := by rw [new_eq32 _ 4000 hn hn2]
  have hmax : (new [rgb 0 0 255, rgb 0 255 255, rgb 255 255 0, rgb 255 0 0, rgb 50 0 0]
      4000).max_ = some (Flt.fin 1) := by rw [new_eq32 _ 4000 hn hn2]
  have hsize : (new [rgb 0 0 255, rgb 0 255 255, rgb 255 255 0, rgb 255 0 0, rgb 50 0 0]
      4000).size_ = some (4000 + 1) := by rw [new_eq32 _ 4000 hn hn2]
  have hmap : (new [rgb 0 0 255, rgb 0 255 255, rgb 255 255 0, rgb 255 0 0, rgb 50 0 0] 4000).map_
      = anchors_from 5 0 [rgb 0 0 255, rgb 0 255 255, rgb 255 255 0, rgb 255 0 0, rgb 50 0 0] := by
    rw [new_eq32 _ 4000 hn hn2]
    rfl
  obtain ⟨cache, hdata, _, hslots⟩ := cache_slots32
    [rgb 0 0 255, rgb 0 255 255, rgb 255 255 0, rgb 255 0 0, rgb 50 0 0] 4000 hn hn2
  obtain ⟨τ, hτ, h0, h1, hτq⟩ :=
    @clamp_position32 (Flt.fin (15339169 / 4294967296)) (fun h => Flt.noConfusion h)
  have hv : nearest (15339169 / 4294967296 : ℚ) = 15339169 / 4294967296 := by
    have := nearest_of_rep 15339169 (-32) (by norm_num) (by norm_num)
    norm_num at this
    exact this
  have hτ2 : τ = 15339169 / 4294967296 := by
    rw [hτq _ rfl (by norm_num) (by norm_num), hv]
  subst hτ2
  have hp : nearest ((15339169 / 4294967296 : ℚ) * ((4000 : Nat) : ℚ)) = 14979657 / 1048576 := by
    have := @nearest_eval ((15339169 / 4294967296 : ℚ) * ((4000 : Nat) : ℚ)) 3 14979657
      (by norm_num) (by norm_num [abs_of_pos]) (by norm_num [abs_of_pos])
      (by norm_num [abs_lt])
    rw [this]
    norm_num
  have hfl : ⌊(14979657 / 1048576 : ℚ)⌋ = 14 := by
    rw [Int.floor_eq_iff]
    norm_num
  obtain ⟨hidx, hget⟩ := get_of_fields32 _ 4000 cache hmax hmin hsize hdata (by norm_num) hτ h0 h1
  rw [hp, hfl] at hidx hget
  have hkey : nearest (((14 : Nat) : ℚ) / ((4000 : Nat) : ℚ)) = 7516193 / 2147483648 := by
    have := @nearest_eval (((14 : Nat) : ℚ) / ((4000 : Nat) : ℚ)) (-9) 15032386
      (by norm_num) (by norm_num [abs_of_pos]) (by norm_num [abs_of_pos])
      (by norm_num [abs_lt])
    rw [this]
    norm_num
  have hslot : cache[14]? = some (rgb 0 (7486833 / 2097152) (16711681 / 65536)) := by
    rw [(hslots 14 (by norm_num)).1]
    show ColorMap_calc _ (add (Flt.fin 0) (mul (div (ofNat 14) (ofNat 4000))
      (sub (Flt.fin 1) (Flt.fin 0)))) = _
    rw [@slot_key32 4000 14 (by norm_num) (by norm_num) (by norm_num), hkey]
    exact jet_slot_colour
  refine ⟨by decide, ?_, hidx, ?_, ?_, ?_, by norm_num⟩
  · obtain ⟨h, hu, _, hh⟩ := update_histogram_spec (mkArray MAX_DEPTH 0)
      (1 :: List.replicate 279 2) (by
        intro d hd
        simp only [List.mem_cons, List.mem_replicate] at hd
        rcases hd with rfl | ⟨_, rfl⟩ <;> simp [MAX_DEPTH])
    have h1 : h[1]? = some 1 := by
      rw [hh 1 (by simp [MAX_DEPTH])]
      simp only [hist_value, count_upto, List.countP_cons, List.countP_replicate]
      norm_num
    have htop : h[MAX_DEPTH - 1]? = some 280 := by
      rw [hh (MAX_DEPTH - 1) (by simp [MAX_DEPTH])]
      simp only [hist_value, count_upto, List.countP_cons, List.countP_replicate, MAX_DEPTH]
      norm_num
    refine ⟨h, hu, ?_⟩
    rw [coloring_function_eq32 h (by simp [MAX_DEPTH]) h1 htop]
    have e1 : ofInt 1 = Flt.fin 1 := ofInt_one
    have e2 : ofInt 280 = Flt.fin 280 := @ofInt_natCast 280 (by norm_num)
    rw [e1, e2, div_fin32 (by norm_num),
      round32_eval (-9) 15339169 (15339169 / 4294967296) (by norm_num) (by norm_num)
        (by norm_num) (by norm_num) (by norm_num [abs_lt]) (by norm_num)]
  · rw [hget]
    exact hslot
  · rw [hmap]
    exact jet_slot_colour
  · simp only [float3.between, rgb, Flt.within]
    norm_num

end binary32

end smart_car
